import Mathlib

/-! # poly: the UTF-8 reader (`pkg/poly/utf8reader.go`)

A shallow embedding of `UTF8Reader` and of the Go standard library routines it stands on
(`utf8.DecodeRune`, `bufio.Reader.ReadRune`; `utf8.RuneLen` measures encodings), followed by
theorems about `readRuneAndCount` and `Read`.

Modelling conventions.

* A Go `rune` and a Go `int` are both `Int`. The only arithmetic the reader does is counting
  (`Offset += size`, `Line++`, `Column++`). `readRuneAndCount` and `Read` do it in the
  mathematical integers; `readRuneAndCount64` and `Read64` do it as Go does on a 64-bit
  platform, in `int`s that wrap around (`wrapInt`). The two agree in every state whose
  counters have room for the bytes still in the source (`readRuneAndCount64_eq`,
  `Read64_eq_Read`), hence in every state reached from `NewUTF8Reader` over an input
  shorter than `MaxInt` bytes; and in every state whatever they give back to the caller
  and take from the source is the same (`Read64_same_result`). The counters are exported
  fields, so a caller can put a reader in any state: what is said about the value of a
  counter after a step from an arbitrary state is said of the `64` versions, with the
  overflow spelled out.
* The byte source behind the `bufio.Reader` is the list of bytes it will still deliver,
  together with the way it ends: `io.EOF`, or a read error.
* The `Error` and `FatalError` delegates are observers: a call is recorded, in order, with
  the reader as the delegate sees it. A `panic` is a result of its own, never a return.
-/

namespace Poly

/-! ## Go standard library: `unicode/utf8` -/

/-- A Go `byte`. -/
abbrev Byte := Fin 256

/-- The constant `utf8.RuneError`, which is also `unicode.ReplacementChar`. -/
def RuneError : Int := 0xFFFD

/-- The constant `utf8.RuneSelf`: bytes below it are single-byte runes. -/
def RuneSelf : Nat := 0x80

def maskx : Nat := 0x3F
def mask2 : Nat := 0x1F
def mask3 : Nat := 0x0F
def mask4 : Nat := 0x07

def locb : Nat := 0x80
def hicb : Nat := 0xBF

def xx : Nat := 0xF1
def as : Nat := 0xF0
def s1 : Nat := 0x02
def s2 : Nat := 0x13
def s3 : Nat := 0x03
def s4 : Nat := 0x23
def s5 : Nat := 0x34
def s6 : Nat := 0x04
def s7 : Nat := 0x44

/-- The table `utf8.first`: information about the first byte of an encoding. -/
def first (b : Byte) : Nat :=
  if b.val < 0x80 then as
  else if b.val < 0xC2 then xx
  else if b.val < 0xE0 then s1
  else if b.val = 0xE0 then s2
  else if b.val < 0xED then s3
  else if b.val = 0xED then s4
  else if b.val < 0xF0 then s3
  else if b.val = 0xF0 then s5
  else if b.val < 0xF4 then s6
  else if b.val = 0xF4 then s7
  else xx

/-- An entry of `utf8.acceptRanges`: the range of valid second bytes. -/
structure acceptRange where
  lo : Nat
  hi : Nat
deriving DecidableEq, Repr

/-- The table `utf8.acceptRanges`. -/
def acceptRanges (i : Nat) : acceptRange :=
  match i with
  | 0 => ⟨locb, hicb⟩
  | 1 => ⟨0xA0, hicb⟩
  | 2 => ⟨locb, 0x9F⟩
  | 3 => ⟨0x90, hicb⟩
  | 4 => ⟨locb, 0x8F⟩
  | _ => ⟨0, 0⟩

/-- The function `utf8.DecodeRune`: the first rune of `p` and its width in bytes.
An empty `p` gives `(RuneError, 0)`, an invalid encoding `(RuneError, 1)`. -/
def DecodeRune (p : List Byte) : Int × Nat :=
  let n := p.length
  if n < 1 then (RuneError, 0)
  else
    let p0 := (p.getD 0 0).val
    let x := first (p.getD 0 0)
    if x ≥ as then
      -- the mask is all ones exactly when the low bit of `x` is set (`x = xx`)
      if x &&& 1 = 1 then (RuneError, 1) else ((p0 : Int), 1)
    else
      let sz := x &&& 7
      let accept := acceptRanges (x >>> 4)
      if n < sz then (RuneError, 1)
      else
        let b1 := (p.getD 1 0).val
        if b1 < accept.lo ∨ accept.hi < b1 then (RuneError, 1)
        else if sz ≤ 2 then ((((p0 &&& mask2) <<< 6 ||| (b1 &&& maskx) : Nat) : Int), 2)
        else
          let b2 := (p.getD 2 0).val
          if b2 < locb ∨ hicb < b2 then (RuneError, 1)
          else if sz ≤ 3 then
            ((((p0 &&& mask3) <<< 12 ||| (b1 &&& maskx) <<< 6 ||| (b2 &&& maskx) : Nat) : Int), 3)
          else
            let b3 := (p.getD 3 0).val
            if b3 < locb ∨ hicb < b3 then (RuneError, 1)
            else
              ((((p0 &&& mask4) <<< 18 ||| (b1 &&& maskx) <<< 12 ||| (b2 &&& maskx) <<< 6
                  ||| (b3 &&& maskx) : Nat) : Int), 4)

/-! ## Go standard library: errors and `bufio.Reader` -/

/-- The Go `error` values the reader meets. -/
inductive GoError where
  /-- The sentinel `io.EOF`. -/
  | EOF
  /-- A read error of the byte source, other than `io.EOF`. -/
  | ReadError (id : Nat)
  /-- The value of `fmt.Errorf("invalid BOM at position %d", position)`. -/
  | InvalidBOM (position : Int)
  /-- The value of
  `fmt.Errorf("invalid unicode code point %U at position %d", code, position)`. -/
  | InvalidCodePoint (code : Int) (position : Int)
deriving DecidableEq, Repr

/-- A `bufio.Reader` over a byte source: `buf` is what the source still delivers, `err` how
it ends once `buf` is drained (`none` for `io.EOF`, `some id` for a read error). -/
structure BufioReader where
  buf : List Byte
  err : Option Nat
deriving DecidableEq, Repr

/-- The error `bufio.Reader.ReadRune` returns when no byte is left. -/
def BufioReader.readErr (b : BufioReader) : GoError :=
  match b.err with
  | none => GoError.EOF
  | some id => GoError.ReadError id

/-- The method `bufio.Reader.ReadRune`: rune, width, error, and the reader afterwards. -/
def BufioReader.ReadRune (b : BufioReader) : Int × Nat × Option GoError × BufioReader :=
  match b.buf with
  | [] => (0, 0, some b.readErr, b)
  | p0 :: _ =>
    let rs : Int × Nat := if p0.val ≥ RuneSelf then DecodeRune b.buf else ((p0.val : Int), 1)
    (rs.1, rs.2, none, ⟨b.buf.drop rs.2, b.err⟩)

/-! ## `utf8reader.go` -/

/-- Position represents the caret position in some input text. The three fields are Go
`int`s, held here as integers; `inRange` says that they are values of an `int`. -/
structure Position where
  Line : Int
  Column : Int
  Offset : Int
deriving DecidableEq, Repr

/-- BOM is the unicode Byte Order Mark. -/
def BOM : Int := 0xFEFF

/-- BOMSize indicates the size of BOM, which is 3 bytes long. -/
def BOMSize : Int := 3

/-- UTF8Reader: the buffered reader, whether each delegate is set, and the position. -/
structure UTF8Reader extends Position where
  reader : BufioReader
  Error : Bool
  FatalError : Bool
deriving DecidableEq, Repr

/-- NewUTF8Reader instantiates and initializes a new UTF8Reader. -/
def NewUTF8Reader (reader : BufioReader) : UTF8Reader :=
  { reader := reader, Error := false, FatalError := false, Line := 1, Column := 0, Offset := 0 }

/-- IsDecimal checks whether a given rune is a decimal digit (0 through 9). -/
def IsDecimal (code : Int) : Bool := decide (0x30 ≤ code) && decide (code ≤ 0x39)

/-- IsReplacementCharacter checks whether a given rune is the replacement character. -/
def IsReplacementCharacter (code : Int) : Bool := decide (code = RuneError)

/-- IsBOM checks whether a given rune is a byte order marker. -/
def IsBOM (code : Int) : Bool := decide (code = BOM)

/-- IsEOF checks if a given error is end of file. -/
def IsEOF (err : GoError) : Bool := decide (err = GoError.EOF)

/-- What the reader does to the outside world. -/
inductive Effect where
  /-- The call `reader.Error(reader, err)`, with the reader as it is at the call. -/
  | Error (reader : UTF8Reader) (err : GoError)
  /-- The line `Line:Column: err` written to `os.Stderr`. -/
  | Stderr (Line Column : Int) (err : GoError)
  /-- The call `reader.FatalError(reader, err)`, with the reader as it is at the call. -/
  | FatalError (reader : UTF8Reader) (err : GoError)
deriving DecidableEq, Repr

/-- How a call of `readRuneAndCount` or `Read` ends. -/
inductive Outcome where
  /-- A normal return of `(code, size, err)`. -/
  | ret (code : Int) (size : Int) (err : Option GoError) (reader : UTF8Reader)
      (effects : List Effect)
  /-- The call does not return: `panic(err)`. -/
  | panic (err : GoError) (reader : UTF8Reader) (effects : List Effect)
deriving DecidableEq, Repr

/-- reportError calls the Error delegate if one has been set. If not, the error is logged
to os.Stderr. -/
def reportError (reader : UTF8Reader) (err : GoError) : List Effect :=
  if reader.Error then [Effect.Error reader err]
  else [Effect.Stderr reader.Line reader.Column err]

/-- reportFatalError calls the FatalError delegate if one has been set. If not, or if the
callback returns, the code panics. -/
def reportFatalError (reader : UTF8Reader) (err : GoError) : Outcome :=
  Outcome.panic err reader (if reader.FatalError then [Effect.FatalError reader err] else [])

/-- readRuneAndCount reads a rune from the input source and updates the position
according to what is read. The counting is done in the integers here, and with the
wrap-around of a Go `int` in `readRuneAndCount64`. -/
def readRuneAndCount (reader : UTF8Reader) : Outcome :=
  match reader.reader.ReadRune with
  | (_, _, some err, rd) =>
    if IsEOF err then Outcome.ret 0 0 (some err) { reader with reader := rd } []
    else reportFatalError { reader with reader := rd } err
  | (code, size, none, rd) =>
    let reader := { reader with reader := rd, Offset := reader.Offset + (size : Int) }
    if code = 10 then
      Outcome.ret code size none { reader with Line := reader.Line + 1, Column := 0 } []
    else if IsBOM code then
      let err := if reader.Offset ≠ BOMSize
        then some (GoError.InvalidBOM (reader.Offset - (size : Int))) else none
      Outcome.ret code size err reader []
    else if IsReplacementCharacter code then
      Outcome.ret code size (some (GoError.InvalidCodePoint code (reader.Offset - (size : Int))))
        { reader with Column := reader.Column + 1 } []
    else
      Outcome.ret code size none { reader with Column := reader.Column + 1 } []

/-- The statement `if err != nil { reader.reportError(err) }` in the loop of `Read`. -/
def reportIf (reader : UTF8Reader) (err : Option GoError) : List Effect :=
  match err with
  | some e => reportError reader e
  | none => []

/-- The loop of `Read`, entered with the last result of `readRuneAndCount`; `fuel` bounds
the number of times the loop condition is tested, and `none` means it ran out. -/
def ReadLoop : Nat → Int → Int → Option GoError → UTF8Reader → List Effect → Option Outcome
  | 0, _, _, _, _, _ => none
  | fuel + 1, code, size, err, reader, effects =>
    if IsBOM code || IsReplacementCharacter code then
      let effects := effects ++ reportIf reader err
      match readRuneAndCount reader with
      | Outcome.ret code size err reader es => ReadLoop fuel code size err reader (effects ++ es)
      | Outcome.panic e reader es => some (Outcome.panic e reader (effects ++ es))
    else some (Outcome.ret code size err reader effects)

/-- Read returns the first non-BOM and non-replacement character from the input sequence,
reporting errors until a valid code point is found. Every turn of the loop follows a
`readRuneAndCount` that consumed a byte, so one more test than there are bytes suffices. -/
def Read (reader : UTF8Reader) : Option Outcome :=
  match readRuneAndCount reader with
  | Outcome.ret code size err rd es => ReadLoop (reader.reader.buf.length + 1) code size err rd es
  | Outcome.panic e rd es => some (Outcome.panic e rd es)

/-! ### The counters as Go `int`s

`readRuneAndCount` and `Read` above compute `Line`, `Column` and `Offset` as mathematical
integers. The Go code computes them as `int`s, which wrap around; the definitions below do
the same, for the 64-bit `int` of the platforms Go is mostly run on. -/

/-- The largest value of a Go `int` (64 bits), `math.MaxInt`. -/
def MaxInt : Int := 9223372036854775807

/-- The smallest value of a Go `int` (64 bits), `math.MinInt`. -/
def MinInt : Int := -9223372036854775808

/-- The `int` that Go arithmetic yields where the mathematical result is `x`: the value
between `MinInt` and `MaxInt` that differs from `x` by a multiple of `2^64`. -/
def wrapInt (x : Int) : Int :=
  (x + 9223372036854775808) % 18446744073709551616 - 9223372036854775808

/-- The method `readRuneAndCount` with the arithmetic of Go: `reader.Offset += size`,
`reader.Line++`, `reader.Column++` and `reader.Offset-size` wrap around. -/
def readRuneAndCount64 (reader : UTF8Reader) : Outcome :=
  match reader.reader.ReadRune with
  | (_, _, some err, rd) =>
    if IsEOF err then Outcome.ret 0 0 (some err) { reader with reader := rd } []
    else reportFatalError { reader with reader := rd } err
  | (code, size, none, rd) =>
    let reader := { reader with reader := rd, Offset := wrapInt (reader.Offset + (size : Int)) }
    if code = 10 then
      Outcome.ret code size none
        { reader with Line := wrapInt (reader.Line + 1), Column := 0 } []
    else if IsBOM code then
      let err := if reader.Offset ≠ BOMSize
        then some (GoError.InvalidBOM (wrapInt (reader.Offset - (size : Int)))) else none
      Outcome.ret code size err reader []
    else if IsReplacementCharacter code then
      Outcome.ret code size
        (some (GoError.InvalidCodePoint code (wrapInt (reader.Offset - (size : Int)))))
        { reader with Column := wrapInt (reader.Column + 1) } []
    else
      Outcome.ret code size none { reader with Column := wrapInt (reader.Column + 1) } []

/-- The loop of `Read` over `readRuneAndCount64`; `fuel` bounds the number of times the loop
condition is tested, and `none` means it ran out. -/
def ReadLoop64 : Nat → Int → Int → Option GoError → UTF8Reader → List Effect → Option Outcome
  | 0, _, _, _, _, _ => none
  | fuel + 1, code, size, err, reader, effects =>
    if IsBOM code || IsReplacementCharacter code then
      let effects := effects ++ reportIf reader err
      match readRuneAndCount64 reader with
      | Outcome.ret code size err reader es => ReadLoop64 fuel code size err reader (effects ++ es)
      | Outcome.panic e reader es => some (Outcome.panic e reader (effects ++ es))
    else some (Outcome.ret code size err reader effects)

/-- The method `Read` over `readRuneAndCount64`. -/
def Read64 (reader : UTF8Reader) : Option Outcome :=
  match readRuneAndCount64 reader with
  | Outcome.ret code size err rd es =>
    ReadLoop64 (reader.reader.buf.length + 1) code size err rd es
  | Outcome.panic e rd es => some (Outcome.panic e rd es)

/-- The bytes of a Go string literal, given as numbers. -/
def bytes (l : List Nat) : List Byte := l.map (fun n => Fin.ofNat n)

/-- A reader fresh from `NewUTF8Reader` over an in-memory string (`strings.NewReader`). -/
def fresh (l : List Nat) : UTF8Reader := NewUTF8Reader ⟨bytes l, none⟩

/-! ## Vocabulary for the statements -/

/-- The reader an outcome leaves behind. -/
def Outcome.reader : Outcome → UTF8Reader
  | Outcome.ret _ _ _ r _ => r
  | Outcome.panic _ r _ => r

/-- The effects of an outcome, in the order they happened. -/
def Outcome.effects : Outcome → List Effect
  | Outcome.ret _ _ _ _ es => es
  | Outcome.panic _ _ es => es

/-- The same outcome, after the effects `pre` have happened first. -/
def Outcome.after (pre : List Effect) : Outcome → Outcome
  | Outcome.ret c s e r es => Outcome.ret c s e r (pre ++ es)
  | Outcome.panic e r es => Outcome.panic e r (pre ++ es)

/-- Whether `Read` skips the code point: a byte order mark or a replacement character. -/
def skips (code : Int) : Bool := IsBOM code || IsReplacementCharacter code

/-- The reader `readRuneAndCount` leaves behind after it decoded `c` in `s` bytes and the
buffered reader became `rd`: the offset moves by `s`, a new line starts on `'\n'`, and the
column moves on for any other code point but a byte order mark. -/
def counted (r : UTF8Reader) (c : Int) (s : Nat) (rd : BufioReader) : UTF8Reader :=
  { r with
    reader := rd
    Offset := r.Offset + s
    Line := if c = 10 then r.Line + 1 else r.Line
    Column := if c = 10 then 0 else if c = BOM then r.Column else r.Column + 1 }

/-- The error `readRuneAndCount` returns after it decoded `c` in `s` bytes from reader `r`. -/
def stepErr (r : UTF8Reader) (c : Int) (s : Nat) : Option GoError :=
  if c = 10 then none
  else if c = BOM then (if r.Offset + s = 3 then none else some (GoError.InvalidBOM r.Offset))
  else if c = RuneError then some (GoError.InvalidCodePoint c r.Offset)
  else none

/-- The decoded stream of a byte source, by successive `ReadRune`: each code point with its
width, up to the end of the bytes. -/
def decodeAll : Nat → BufioReader → List (Int × Nat)
  | 0, _ => []
  | fuel + 1, b =>
    match b.ReadRune with
    | (c, s, none, b1) => (c, s) :: decodeAll fuel b1
    | (_, _, some _, _) => []

/-- The decoded stream of what a buffered reader still holds (a unit takes at least one
byte, so the number of bytes is fuel enough). -/
def BufioReader.decoded (b : BufioReader) : List (Int × Nat) := decodeAll b.buf.length b

/-- Whether a unit of the decoded stream is one `Read` returns. -/
def returnable (u : Int × Nat) : Bool := !skips u.1

/-- The errors handed to the `Error` delegate, in the order of the calls. -/
def errorCalls : List Effect → List GoError
  | [] => []
  | Effect.Error _ e :: es => e :: errorCalls es
  | Effect.Stderr _ _ _ :: es => errorCalls es
  | Effect.FatalError _ _ :: es => errorCalls es

/-- The results of `n` successive calls of `readRuneAndCount`, in order, and the reader after
the last one; `none` when one of the calls panics. -/
def readRunes : Nat → UTF8Reader → Option (List (Int × Int × Option GoError) × UTF8Reader)
  | 0, r => some ([], r)
  | n + 1, r =>
    match readRuneAndCount r with
    | Outcome.ret c s e r1 _ => (readRunes n r1).map (fun p => ((c, s, e) :: p.1, p.2))
    | Outcome.panic _ _ _ => none

/-- A reader fresh from `NewUTF8Reader`, after the caller has assigned (`true`) or left unset
(`false`) each of the two delegates. -/
def configured (b : BufioReader) (error fatal : Bool) : UTF8Reader :=
  { NewUTF8Reader b with Error := error, FatalError := fatal }

/-- The size an outcome returns; a panic returns none. -/
def Outcome.size : Outcome → Int
  | Outcome.ret _ s _ _ _ => s
  | Outcome.panic _ _ _ => 0

/-- The units of a decoded stream that begins at offset `off`, each as
`(code, width, offset at which it starts)`. -/
def located : Int → List (Int × Nat) → List (Int × Nat × Int)
  | _, [] => []
  | off, (c, s) :: us => (c, s, off) :: located (off + s) us

/-- The units a call of `Read` skips: the byte order marks and replacement characters at
the head of the remaining decoded stream, each with the offset at which it starts. -/
def skippedUnits (r : UTF8Reader) : List (Int × Nat × Int) :=
  located r.Offset (r.reader.decoded.takeWhile (fun u => skips u.1))

/-- The anomaly a skipped unit stands for: a byte order mark that is not at the start of
the stream, or a replacement character; each names the offset at which the unit starts. -/
def anomaly (u : Int × Nat × Int) : Option GoError :=
  if u.1 = BOM then (if u.2.2 = 0 then none else some (GoError.InvalidBOM u.2.2))
  else if u.1 = RuneError then some (GoError.InvalidCodePoint u.1 u.2.2)
  else none

/-- Whether an error is the one made for an out-of-place byte order mark. -/
def GoError.isInvalidBOM : GoError → Bool
  | GoError.InvalidBOM _ => true
  | _ => false

/-- Whether an error is the one made for a replacement character. -/
def GoError.isInvalidCodePoint : GoError → Bool
  | GoError.InvalidCodePoint _ _ => true
  | _ => false

/-- The bytes of `k` consecutive byte order marks (`EF BB BF` each), followed by `tail`. -/
def boms : Nat → List Byte → List Byte
  | 0, tail => tail
  | k + 1, tail => 0xEF :: 0xBB :: 0xBF :: boms k tail

/-- The function `utf8.RuneLen`: the number of bytes in the UTF-8 encoding of a rune, or -1
when the rune has none. -/
def RuneLen (r : Int) : Int :=
  if r < 0 then -1
  else if r ≤ 0x7F then 1
  else if r ≤ 0x7FF then 2
  else if 0xD800 ≤ r ∧ r ≤ 0xDFFF then -1
  else if r ≤ 0xFFFF then 3
  else if r ≤ 0x10FFFF then 4
  else -1

/-- Whether a unit of the decoded stream is an invalid sequence: `DecodeRune` marks one by
`(RuneError, 1)`, while a well-formed U+FFFD is `(RuneError, 3)`. -/
def malformed (u : Int × Nat) : Bool := decide (u.1 = RuneError) && decide (u.2 = 1)

/-- The errors handed to the `FatalError` delegate, in the order of the calls. -/
def fatalCalls : List Effect → List GoError
  | [] => []
  | Effect.FatalError _ e :: es => e :: fatalCalls es
  | Effect.Error _ _ :: es => fatalCalls es
  | Effect.Stderr _ _ _ :: es => fatalCalls es

/-- The errors reported as not fatal, to the `Error` delegate or to `os.Stderr`, in order. -/
def reported : List Effect → List GoError
  | [] => []
  | Effect.Error _ e :: es => e :: reported es
  | Effect.Stderr _ _ e :: es => e :: reported es
  | Effect.FatalError _ _ :: es => reported es

/-- The results of `n` successive calls of `Read`, in order, the reader after the last one,
and the effects of all the calls; `none` when one of the calls panics. -/
def Reads : Nat → UTF8Reader →
    Option (List (Int × Int × Option GoError) × UTF8Reader × List Effect)
  | 0, r => some ([], r, [])
  | n + 1, r =>
    match Read r with
    | some (Outcome.ret c s e r1 es) =>
      (Reads n r1).map (fun p => ((c, s, e) :: p.1, p.2.1, es ++ p.2.2))
    | some (Outcome.panic _ _ _) => none
    | none => none

/-- Successive calls of `Read` until one does not return a code point (it returns `io.EOF`,
or panics): the `(code, size)` returned by the calls before it, the effects of all the
calls, and the outcome of the last call. `fuel` bounds the number of calls. -/
def ReadAllLoop : Nat → UTF8Reader → Option (List (Int × Int) × List Effect × Outcome)
  | 0, _ => none
  | fuel + 1, r =>
    match Read r with
    | none => none
    | some (Outcome.ret c s none r1 es) =>
      (ReadAllLoop fuel r1).map (fun p => ((c, s) :: p.1, es ++ p.2.1, p.2.2))
    | some o => some ([], o.effects, o)

/-- Reading a source to its end with `Read`: a call that returns a code point has consumed a
byte, so one more call than there are bytes suffices. -/
def ReadAll (r : UTF8Reader) : Option (List (Int × Int) × List Effect × Outcome) :=
  ReadAllLoop (r.reader.buf.length + 1) r

/-- The bytes of a source without the bytes of the units `Read` skips (every unit decoded as
U+FEFF or as U+FFFD), by successive `ReadRune`. -/
def withoutSkippedLoop : Nat → BufioReader → List Byte
  | 0, _ => []
  | fuel + 1, b =>
    match b.ReadRune with
    | (c, s, none, b1) => (if skips c then [] else b.buf.take s) ++ withoutSkippedLoop fuel b1
    | (_, _, some _, _) => []

/-- The source `X'` got from a source `X` by deleting the bytes of every skipped unit. -/
def BufioReader.withoutSkipped (b : BufioReader) : BufioReader :=
  ⟨withoutSkippedLoop b.buf.length b, b.err⟩

/-- One call a client makes on the reader. -/
inductive Call where
  /-- A call of `reader.readRuneAndCount()`. -/
  | readRuneAndCount
  /-- A call of `reader.Read()`. -/
  | Read
deriving DecidableEq, Repr

/-- The outcome of one call on a reader (`none` only where the loop of `Read` runs out of
fuel). -/
def perform (c : Call) (r : UTF8Reader) : Option Outcome :=
  match c with
  | Call.readRuneAndCount => some (readRuneAndCount r)
  | Call.Read => Read r

/-- The states a reader goes through under a sequence of calls: the state before the first
call, and then the state each call leaves behind. The sequence ends early at a call that
panics, with the state it leaves as the last one. -/
def states : List Call → UTF8Reader → Option (List UTF8Reader)
  | [], r => some [r]
  | c :: cs, r =>
    match perform c r with
    | none => none
    | some (Outcome.ret _ _ _ r1 _) => (states cs r1).map (fun l => r :: l)
    | some (Outcome.panic _ r1 _) => some [r, r1]

/-- The results of `n` successive calls of `readRuneAndCount64`, in order, and the reader
after the last one; `none` when one of the calls panics. -/
def readRunes64 : Nat → UTF8Reader → Option (List (Int × Int × Option GoError) × UTF8Reader)
  | 0, r => some ([], r)
  | n + 1, r =>
    match readRuneAndCount64 r with
    | Outcome.ret c s e r1 _ => (readRunes64 n r1).map (fun p => ((c, s, e) :: p.1, p.2))
    | Outcome.panic _ _ _ => none

/-- Successive calls of `Read64` until one does not return a code point: the `(code, size)`
returned by the calls before it, the effects of all the calls, and the outcome of the last
call. `fuel` bounds the number of calls. -/
def ReadAllLoop64 : Nat → UTF8Reader → Option (List (Int × Int) × List Effect × Outcome)
  | 0, _ => none
  | fuel + 1, r =>
    match Read64 r with
    | none => none
    | some (Outcome.ret c s none r1 es) =>
      (ReadAllLoop64 fuel r1).map (fun p => ((c, s) :: p.1, es ++ p.2.1, p.2.2))
    | some o => some ([], o.effects, o)

/-- Reading a source to its end with `Read64`. -/
def ReadAll64 (r : UTF8Reader) : Option (List (Int × Int) × List Effect × Outcome) :=
  ReadAllLoop64 (r.reader.buf.length + 1) r

/-- What a call gives back to its caller: the `(code, size, err)` it returns, or the error
it panics with. -/
def Outcome.result : Outcome → (Int × Int × Option GoError) ⊕ GoError
  | Outcome.ret c s e _ _ => Sum.inl (c, s, e)
  | Outcome.panic e _ _ => Sum.inr e

/-- The counters of the reader are values of a Go `int`, as they are in every state of the
Go program. -/
abbrev inRange (r : UTF8Reader) : Prop :=
  MinInt ≤ r.Line ∧ r.Line ≤ MaxInt ∧ MinInt ≤ r.Column ∧ r.Column ≤ MaxInt ∧
    MinInt ≤ r.Offset ∧ r.Offset ≤ MaxInt

/-- The counters of the reader are values of a Go `int` and none of them can overflow while
the bytes still in the source are read: each is as far below `MaxInt` as there are bytes
left (a byte read moves `Offset` by one, and `Line` and `Column` by one at most), and so is
0, to which `Column` is set by a new line. -/
abbrev hasRoom (r : UTF8Reader) : Prop :=
  MinInt ≤ r.Line ∧ r.Line + r.reader.buf.length ≤ MaxInt ∧
    MinInt ≤ r.Column ∧ r.Column + r.reader.buf.length ≤ MaxInt ∧
    MinInt ≤ r.Offset ∧ r.Offset + r.reader.buf.length ≤ MaxInt ∧
    (r.reader.buf.length : Int) ≤ MaxInt

/-- The reader `readRuneAndCount64` leaves behind after it decoded `c` in `s` bytes and the
buffered reader became `rd`. -/
def counted64 (r : UTF8Reader) (c : Int) (s : Nat) (rd : BufioReader) : UTF8Reader :=
  { r with
    reader := rd
    Offset := wrapInt (r.Offset + s)
    Line := if c = 10 then wrapInt (r.Line + 1) else r.Line
    Column := if c = 10 then 0 else if c = BOM then r.Column else wrapInt (r.Column + 1) }

/-- The error `readRuneAndCount64` returns after it decoded `c` in `s` bytes from reader
`r`. -/
def stepErr64 (r : UTF8Reader) (c : Int) (s : Nat) : Option GoError :=
  if c = 10 then none
  else if c = BOM then
    (if wrapInt (r.Offset + s) = 3 then none
      else some (GoError.InvalidBOM (wrapInt (wrapInt (r.Offset + s) - s))))
  else if c = RuneError then
    some (GoError.InvalidCodePoint c (wrapInt (wrapInt (r.Offset + s) - s)))
  else none

/-- The position of a reader over an input of `n` bytes is in order: the line is at least 1,
column and offset are not negative, line and column together have moved at most once per
byte consumed, and the offset is the number of bytes no longer in the source. -/
def inOrder (n : Int) (r : UTF8Reader) : Prop :=
  1 ≤ r.Line ∧ 0 ≤ r.Column ∧ 0 ≤ r.Offset ∧ r.Line + r.Column ≤ 1 + r.Offset ∧
    r.Offset + r.reader.buf.length = n

/-! ## Facts about `utf8.DecodeRune` -/

theorem first_cases (b : Byte) :
    (first b = as ∧ b.val < 0x80) ∨
    (first b = xx ∧ (0x80 ≤ b.val ∧ b.val < 0xC2 ∨ 0xF5 ≤ b.val)) ∨
    (first b = s1 ∧ 0xC2 ≤ b.val ∧ b.val < 0xE0) ∨
    (first b = s2 ∧ b.val = 0xE0) ∨
    (first b = s3 ∧ (0xE1 ≤ b.val ∧ b.val < 0xED ∨ 0xEE ≤ b.val ∧ b.val < 0xF0)) ∨
    (first b = s4 ∧ b.val = 0xED) ∨
    (first b = s5 ∧ b.val = 0xF0) ∨
    (first b = s6 ∧ 0xF1 ≤ b.val ∧ b.val < 0xF4) ∨
    (first b = s7 ∧ b.val = 0xF4) := by
  simp only [first, as, xx, s1, s2, s3, s4, s5, s6, s7]
  split_ifs <;> norm_num <;> omega

theorem and_maskx (x : Nat) : x &&& maskx = x % 64 := Nat.and_pow_two_sub_one_eq_mod x 6
theorem and_mask2 (x : Nat) : x &&& mask2 = x % 32 := Nat.and_pow_two_sub_one_eq_mod x 5
theorem and_mask3 (x : Nat) : x &&& mask3 = x % 16 := Nat.and_pow_two_sub_one_eq_mod x 4
theorem and_mask4 (x : Nat) : x &&& mask4 = x % 8 := Nat.and_pow_two_sub_one_eq_mod x 3

theorem shl_or (i a b : Nat) (hb : b < 2 ^ i) : a <<< i ||| b = a * 2 ^ i + b := by
  rw [Nat.shiftLeft_eq, Nat.mul_comm a, Nat.mul_add_lt_is_or hb]

theorem or2 (a b : Nat) (hb : b < 64) : a <<< 6 ||| b = a * 64 + b := by
  have h := shl_or 6 a b (by norm_num; exact hb)
  simpa using h

theorem or3 (a b c : Nat) (hb : b < 64) (hc : c < 64) :
    a <<< 12 ||| b <<< 6 ||| c = a * 4096 + b * 64 + c := by
  have h1 : a <<< 12 ||| b <<< 6 = (a * 64 + b) <<< 6 := by
    rw [Nat.shiftLeft_eq b, shl_or 12 a (b * 2 ^ 6) (by norm_num; omega), Nat.shiftLeft_eq]
    ring
  rw [h1, or2 _ c hc]
  ring

theorem or4 (a b c d : Nat) (hb : b < 64) (hc : c < 64) (hd : d < 64) :
    a <<< 18 ||| b <<< 12 ||| c <<< 6 ||| d = a * 262144 + b * 4096 + c * 64 + d := by
  have h1 : a <<< 18 ||| b <<< 12 = (a * 64 + b) <<< 12 := by
    rw [Nat.shiftLeft_eq b, shl_or 18 a (b * 2 ^ 12) (by norm_num; omega), Nat.shiftLeft_eq]
    ring
  rw [h1, or3 _ c d hc hd]
  ring

/-- The two-byte case of `DecodeRune`, in arithmetic. -/
theorem dec2 (p0 b1 : Nat) :
    (p0 &&& mask2) <<< 6 ||| (b1 &&& maskx) = p0 % 32 * 64 + b1 % 64 := by
  rw [and_maskx, and_mask2, or2 _ _ (Nat.mod_lt _ (by norm_num))]

/-- The three-byte case of `DecodeRune`, in arithmetic. -/
theorem dec3 (p0 b1 b2 : Nat) :
    (p0 &&& mask3) <<< 12 ||| (b1 &&& maskx) <<< 6 ||| (b2 &&& maskx)
      = p0 % 16 * 4096 + b1 % 64 * 64 + b2 % 64 := by
  rw [and_maskx, and_maskx, and_mask3,
    or3 _ _ _ (Nat.mod_lt _ (by norm_num)) (Nat.mod_lt _ (by norm_num))]

/-- The four-byte case of `DecodeRune`, in arithmetic. -/
theorem dec4 (p0 b1 b2 b3 : Nat) :
    (p0 &&& mask4) <<< 18 ||| (b1 &&& maskx) <<< 12 ||| (b2 &&& maskx) <<< 6 ||| (b3 &&& maskx)
      = p0 % 8 * 262144 + b1 % 64 * 4096 + b2 % 64 * 64 + b3 % 64 := by
  rw [and_maskx, and_maskx, and_maskx, and_mask4,
    or4 _ _ _ _ (Nat.mod_lt _ (by norm_num)) (Nat.mod_lt _ (by norm_num))
      (Nat.mod_lt _ (by norm_num))]

theorem and7_s1 : (2 &&& 7 : Nat) = 2 := by decide
theorem and7_s2 : (19 &&& 7 : Nat) = 3 := by decide
theorem and7_s3 : (3 &&& 7 : Nat) = 3 := by decide
theorem and7_s4 : (35 &&& 7 : Nat) = 3 := by decide
theorem and7_s5 : (52 &&& 7 : Nat) = 4 := by decide
theorem and7_s6 : (4 &&& 7 : Nat) = 4 := by decide
theorem and7_s7 : (68 &&& 7 : Nat) = 4 := by decide

theorem DecodeRune_size (p : List Byte) (hp : p ≠ []) :
    1 ≤ (DecodeRune p).2 ∧ (DecodeRune p).2 ≤ p.length := by
  have hlen : 1 ≤ p.length := by
    cases p with
    | nil => exact absurd rfl hp
    | cons a t => simp
  have hf := first_cases (p.getD 0 0)
  unfold DecodeRune
  dsimp only
  generalize p.getD 0 0 = b0 at hf ⊢
  generalize first b0 = x at hf ⊢
  simp only [as, xx, s1, s2, s3, s4, s5, s6, s7] at hf
  rcases hf with ⟨hx, hb0⟩ | ⟨hx, hb0⟩ | ⟨hx, hb0⟩ | ⟨hx, hb0⟩ | ⟨hx, hb0⟩ | ⟨hx, hb0⟩ | ⟨hx, hb0⟩
      | ⟨hx, hb0⟩ | ⟨hx, hb0⟩ <;>
    subst hx <;>
    norm_num [as, acceptRanges, and7_s1, and7_s2, and7_s3, and7_s4, and7_s5, and7_s6, and7_s7] <;>
    (split_ifs <;> simp <;> first | omega | contradiction)

theorem DecodeRune_BOM (p : List Byte) : (DecodeRune p).1 = BOM → (DecodeRune p).2 = 3 := by
  have hf := first_cases (p.getD 0 0)
  unfold DecodeRune
  dsimp only
  generalize p.getD 0 0 = b0 at hf ⊢
  generalize p.getD 1 0 = b1
  generalize p.getD 2 0 = b2
  generalize p.getD 3 0 = b3
  generalize first b0 = x at hf ⊢
  simp only [as, xx, s1, s2, s3, s4, s5, s6, s7] at hf
  rcases hf with ⟨h, hb⟩ | ⟨h, hb⟩ | ⟨h, hb⟩ | ⟨h, hb⟩ | ⟨h, hb⟩ | ⟨h, hb⟩ | ⟨h, hb⟩ | ⟨h, hb⟩
      | ⟨h, hb⟩ <;>
    subst h <;>
    simp only [as, acceptRanges, and7_s1, and7_s2, and7_s3, and7_s4, and7_s5, and7_s6, and7_s7,
      dec2, dec3, dec4, BOM, RuneError, locb, hicb] <;>
    norm_num <;>
    (split_ifs <;> simp <;> omega)

/-! ## Facts about `bufio.Reader.ReadRune` -/

theorem ReadRune_nil (b : BufioReader) (h : b.buf = []) :
    b.ReadRune = (0, 0, some b.readErr, b) := by
  simp [BufioReader.ReadRune, h]

theorem ReadRune_cons (b : BufioReader) (h : b.buf ≠ []) :
    ∃ c s, b.ReadRune = (c, s, none, ⟨b.buf.drop s, b.err⟩) ∧
      1 ≤ s ∧ s ≤ b.buf.length ∧ (c = BOM → s = 3) := by
  obtain ⟨l, e⟩ := b
  cases l with
  | nil => exact absurd rfl h
  | cons p0 t =>
    by_cases hp : p0.val ≥ RuneSelf
    · refine ⟨(DecodeRune (p0 :: t)).1, (DecodeRune (p0 :: t)).2, ?_, ?_, ?_, ?_⟩
      · simp [BufioReader.ReadRune, hp]
      · exact (DecodeRune_size (p0 :: t) (by simp)).1
      · exact (DecodeRune_size (p0 :: t) (by simp)).2
      · exact DecodeRune_BOM (p0 :: t)
    · refine ⟨(p0.val : Int), 1, ?_, le_refl _, by simp, ?_⟩
      · simp [BufioReader.ReadRune, hp]
      · intro hc
        simp only [BOM] at hc
        omega

/-! ## One step: `readRuneAndCount` -/

theorem BOM_ne_newline : BOM ≠ 10 := by decide
theorem RuneError_ne_newline : RuneError ≠ 10 := by decide
theorem RuneError_ne_BOM : RuneError ≠ BOM := by decide
theorem BOM_ne_RuneError : BOM ≠ RuneError := by decide

theorem readRuneAndCount_eof (r : UTF8Reader) (h : r.reader.buf = []) (he : r.reader.err = none) :
    readRuneAndCount r = Outcome.ret 0 0 (some GoError.EOF) r [] := by
  simp [readRuneAndCount, ReadRune_nil _ h, BufioReader.readErr, he, IsEOF]

theorem readRuneAndCount_fatal (r : UTF8Reader) (id : Nat) (h : r.reader.buf = [])
    (he : r.reader.err = some id) :
    readRuneAndCount r = Outcome.panic (GoError.ReadError id) r
      (if r.FatalError then [Effect.FatalError r (GoError.ReadError id)] else []) := by
  simp [readRuneAndCount, ReadRune_nil _ h, BufioReader.readErr, he, IsEOF, reportFatalError]

theorem readRuneAndCount_data (r : UTF8Reader) (c : Int) (s : Nat) (rd : BufioReader)
    (h : r.reader.ReadRune = (c, s, none, rd)) :
    readRuneAndCount r = Outcome.ret c s (stepErr r c s) (counted r c s rd) [] := by
  simp only [readRuneAndCount, h, IsBOM, IsReplacementCharacter, BOMSize, stepErr, counted]
  by_cases h1 : c = 10
  · simp [h1]
  · by_cases h2 : c = BOM
    · by_cases h3 : r.Offset + s = 3 <;> simp [h2, h3, BOM_ne_newline]
    · by_cases h3 : c = RuneError
      · simp [h3, RuneError_ne_newline, RuneError_ne_BOM]
      · simp [h1, h2, h3]

theorem readRuneAndCount_cases (r : UTF8Reader) :
    (r.reader.buf = [] ∧ r.reader.err = none ∧
      readRuneAndCount r = Outcome.ret 0 0 (some GoError.EOF) r []) ∨
    (r.reader.buf = [] ∧ ∃ id, r.reader.err = some id ∧
      readRuneAndCount r = Outcome.panic (GoError.ReadError id) r
        (if r.FatalError then [Effect.FatalError r (GoError.ReadError id)] else [])) ∨
    (r.reader.buf ≠ [] ∧ ∃ c s, r.reader.ReadRune
        = (c, s, none, ⟨r.reader.buf.drop s, r.reader.err⟩) ∧
      1 ≤ s ∧ s ≤ r.reader.buf.length ∧ (c = BOM → s = 3)) := by
  by_cases h : r.reader.buf = []
  · cases he : r.reader.err with
    | none => exact Or.inl ⟨h, rfl, readRuneAndCount_eof r h he⟩
    | some id => exact Or.inr (Or.inl ⟨h, id, rfl, readRuneAndCount_fatal r id h he⟩)
  · exact Or.inr (Or.inr ⟨h, ReadRune_cons r.reader h⟩)

/-- A step that returns a code point `Read` skips has consumed at least one byte. -/
theorem readRuneAndCount_skips_lt (r r' : UTF8Reader) (c s : Int) (e : Option GoError)
    (es : List Effect) (h : readRuneAndCount r = Outcome.ret c s e r' es) (hc : skips c = true) :
    r'.reader.buf.length < r.reader.buf.length := by
  rcases readRuneAndCount_cases r with ⟨_, _, h1⟩ | ⟨_, id, _, h1⟩ | ⟨hne, c1, s1, h1, hs1, hs2, _⟩
  · rw [h1] at h
    injection h with hc0
    subst hc0
    simp [skips, IsBOM, IsReplacementCharacter, BOM, RuneError] at hc
  · rw [h1] at h
    cases h
  · rw [readRuneAndCount_data r c1 s1 _ h1] at h
    injection h with _ _ _ hr
    subst hr
    simp only [counted, List.length_drop]
    omega

theorem ReadLoop_after (fuel : Nat) (c s : Int) (e : Option GoError) (r : UTF8Reader)
    (pre es : List Effect) :
    ReadLoop fuel c s e r (pre ++ es) = (ReadLoop fuel c s e r es).map (Outcome.after pre) := by
  induction fuel generalizing c s e r es with
  | zero => simp [ReadLoop]
  | succ n ih =>
    simp only [ReadLoop]
    by_cases hc : (IsBOM c || IsReplacementCharacter c) = true
    · simp only [hc, if_true]
      cases hr : readRuneAndCount r with
      | ret c1 s1 e1 r1 es1 => simp only [List.append_assoc, ih]
      | panic e1 r1 es1 => simp [Outcome.after, List.append_assoc]
    · simp [hc, Outcome.after]

/-- The loop gives the same result with any fuel that covers the bytes still to read. -/
theorem ReadLoop_fuel (f1 f2 : Nat) (c s : Int) (e : Option GoError) (r : UTF8Reader)
    (es : List Effect)
    (h1 : (if skips c = true then r.reader.buf.length + 2 else 1) ≤ f1)
    (h2 : (if skips c = true then r.reader.buf.length + 2 else 1) ≤ f2) :
    ReadLoop f1 c s e r es = ReadLoop f2 c s e r es := by
  induction f1 generalizing f2 c s e r es with
  | zero => split_ifs at h1 <;> omega
  | succ n ih =>
    cases f2 with
    | zero => split_ifs at h2 <;> omega
    | succ m =>
      simp only [ReadLoop]
      by_cases hc : skips c = true
      · have hc2 : (IsBOM c || IsReplacementCharacter c) = true := hc
        simp only [hc, if_true] at h1 h2
        simp only [hc2, if_true]
        cases hr : readRuneAndCount r with
        | ret c1 s1 e1 r1 es1 =>
          simp only
          apply ih
          · split_ifs with hc1
            · have := readRuneAndCount_skips_lt r r1 c1 s1 e1 es1 hr hc1
              omega
            · omega
          · split_ifs with hc1
            · have := readRuneAndCount_skips_lt r r1 c1 s1 e1 es1 hr hc1
              omega
            · omega
        | panic e1 r1 es1 => rfl
      · have hc2 : ¬ (IsBOM c || IsReplacementCharacter c) = true := hc
        simp [hc2]

/-- The equation of `Read`: one step, and if its code point is skipped, report and read on. -/
theorem Read_eq (r : UTF8Reader) :
    Read r = match readRuneAndCount r with
      | Outcome.ret c s e r1 es =>
        if skips c = true then (Read r1).map (Outcome.after (es ++ reportIf r1 e))
        else some (Outcome.ret c s e r1 es)
      | Outcome.panic e r1 es => some (Outcome.panic e r1 es) := by
  conv_lhs => unfold Read
  cases hr : readRuneAndCount r with
  | panic e r1 es => rfl
  | ret c s e r1 es =>
    simp only
    by_cases hc : skips c = true
    · have hc2 : (IsBOM c || IsReplacementCharacter c) = true := hc
      have hlt := readRuneAndCount_skips_lt r r1 c s e es hr hc
      conv_lhs => simp only [ReadLoop, hc2, if_true]
      simp only [hc, if_true]
      unfold Read
      cases hr1 : readRuneAndCount r1 with
      | panic e2 r2 es2 => simp [Outcome.after]
      | ret c2 s2 e2 r2 es2 =>
        simp only
        rw [ReadLoop_after]
        congr 1
        apply ReadLoop_fuel
        · split_ifs with hc1
          · have := readRuneAndCount_skips_lt r1 r2 c2 s2 e2 es2 hr1 hc1
            omega
          · omega
        · split_ifs with hc1
          · have := readRuneAndCount_skips_lt r1 r2 c2 s2 e2 es2 hr1 hc1
            omega
          · omega
    · have hc2 : ¬ (IsBOM c || IsReplacementCharacter c) = true := hc
      simp [hc, ReadLoop, hc2]

/-- Induction along `Read`: `Read` always ends, and a property of its outcome follows from
the four ways one turn can go (end of input, read error, a code point to return, a code
point to skip). -/
theorem Read_induct (P : UTF8Reader → Outcome → Prop)
    (heof : ∀ r : UTF8Reader, r.reader.buf = [] → r.reader.err = none →
      P r (Outcome.ret 0 0 (some GoError.EOF) r []))
    (hfatal : ∀ (r : UTF8Reader) (id : Nat), r.reader.buf = [] → r.reader.err = some id →
      P r (Outcome.panic (GoError.ReadError id) r
        (if r.FatalError then [Effect.FatalError r (GoError.ReadError id)] else [])))
    (hstop : ∀ (r : UTF8Reader) (c : Int) (s : Nat), r.reader.buf ≠ [] →
      r.reader.ReadRune = (c, s, none, ⟨r.reader.buf.drop s, r.reader.err⟩) →
      1 ≤ s → s ≤ r.reader.buf.length → skips c = false →
      P r (Outcome.ret c s (stepErr r c s)
        (counted r c s ⟨r.reader.buf.drop s, r.reader.err⟩) []))
    (hskip : ∀ (r : UTF8Reader) (c : Int) (s : Nat) (o : Outcome), r.reader.buf ≠ [] →
      r.reader.ReadRune = (c, s, none, ⟨r.reader.buf.drop s, r.reader.err⟩) →
      1 ≤ s → s ≤ r.reader.buf.length → (c = BOM → s = 3) → skips c = true →
      Read (counted r c s ⟨r.reader.buf.drop s, r.reader.err⟩) = some o →
      P (counted r c s ⟨r.reader.buf.drop s, r.reader.err⟩) o →
      P r (o.after (reportIf (counted r c s ⟨r.reader.buf.drop s, r.reader.err⟩)
        (stepErr r c s))))
    (r : UTF8Reader) : ∃ o, Read r = some o ∧ P r o := by
  generalize hn : r.reader.buf.length = n
  induction n using Nat.strong_induction_on generalizing r with
  | _ n ih =>
    rcases readRuneAndCount_cases r with ⟨h0, he, h1⟩ | ⟨h0, id, he, h1⟩
        | ⟨hne, c, s, h1, hs1, hs2, hb⟩
    · exact ⟨_, by rw [Read_eq, h1]; simp [skips, IsBOM, IsReplacementCharacter, BOM, RuneError],
        heof r h0 he⟩
    · exact ⟨_, by rw [Read_eq, h1], hfatal r id h0 he⟩
    · have hd := readRuneAndCount_data r c s _ h1
      by_cases hc : skips c = true
      · have hlen : (counted r c s ⟨r.reader.buf.drop s, r.reader.err⟩).reader.buf.length
            < n := by
          simp only [counted, List.length_drop]
          omega
        obtain ⟨o, ho, hP⟩ := ih _ hlen _ rfl
        refine ⟨_, ?_, hskip r c s o hne h1 hs1 hs2 hb hc ho hP⟩
        rw [Read_eq, hd]
        simp [hc, ho]
      · have hc2 : skips c = false := by simpa using hc
        refine ⟨_, ?_, hstop r c s hne h1 hs1 hs2 hc2⟩
        rw [Read_eq, hd]
        simp [hc2]

/-! ## The decoded stream -/

theorem decodeAll_fuel (f1 f2 : Nat) (b : BufioReader) (h1 : b.buf.length ≤ f1)
    (h2 : b.buf.length ≤ f2) : decodeAll f1 b = decodeAll f2 b := by
  induction f1 generalizing f2 b with
  | zero =>
    have hb : b.buf = [] := List.length_eq_zero.mp (by omega)
    cases f2 with
    | zero => rfl
    | succ m => simp [decodeAll, ReadRune_nil b hb]
  | succ n ih =>
    by_cases hb : b.buf = []
    · cases f2 with
      | zero => simp [decodeAll, ReadRune_nil b hb]
      | succ m => simp [decodeAll, ReadRune_nil b hb]
    · obtain ⟨c, s, hr, hs1, hs2, _⟩ := ReadRune_cons b hb
      cases f2 with
      | zero =>
        have : b.buf = [] := List.length_eq_zero.mp (by omega)
        exact absurd this hb
      | succ m =>
        simp only [decodeAll, hr]
        congr 1
        apply ih <;> simp only [List.length_drop] <;> omega

theorem decoded_nil (b : BufioReader) (h : b.buf = []) : b.decoded = [] := by
  simp [BufioReader.decoded, h, decodeAll]

theorem decoded_cons (b : BufioReader) (c : Int) (s : Nat) (hb : b.buf ≠ [])
    (h : b.ReadRune = (c, s, none, ⟨b.buf.drop s, b.err⟩)) (hs : 1 ≤ s) :
    b.decoded = (c, s) :: BufioReader.decoded ⟨b.buf.drop s, b.err⟩ := by
  unfold BufioReader.decoded
  have hl : 1 ≤ b.buf.length := by
    cases hbuf : b.buf with
    | nil => exact absurd hbuf hb
    | cons a t => simp
  obtain ⟨k, hk⟩ : ∃ k, b.buf.length = k + 1 := ⟨b.buf.length - 1, by omega⟩
  rw [hk]
  simp only [decodeAll, h]
  congr 1
  apply decodeAll_fuel <;> simp only [List.length_drop] <;> omega

theorem stepErr_of_not_skips (r : UTF8Reader) (c : Int) (s : Nat) (h : skips c = false) :
    stepErr r c s = none := by
  simp only [skips, IsBOM, IsReplacementCharacter, Bool.or_eq_false_iff, decide_eq_false_iff_not]
    at h
  simp [stepErr, h.1, h.2]

theorem skips_zero : skips 0 = false := by decide

/-! ## `Read`: what it returns -/

theorem find_returnable_cons_skip (c : Int) (s : Nat) (l : List (Int × Nat))
    (h : skips c = true) : ((c, s) :: l).find? returnable = l.find? returnable := by
  simp [List.find?, returnable, h]

theorem find_returnable_cons_stop (c : Int) (s : Nat) (l : List (Int × Nat))
    (h : skips c = false) : ((c, s) :: l).find? returnable = some (c, s) := by
  simp [List.find?, returnable, h]

theorem skips_false_iff (c : Int) : skips c = false ↔ c ≠ BOM ∧ c ≠ RuneError := by
  simp [skips, IsBOM, IsReplacementCharacter]

/-- The result of `Read` in terms of the decoded stream. -/
theorem Read_result (r : UTF8Reader) :
    (∀ (c : Int) (s : Nat), r.reader.decoded.find? returnable = some (c, s) →
      ∃ r1 es, Read r = some (Outcome.ret c s none r1 es)) ∧
    (r.reader.decoded.find? returnable = none → r.reader.err = none →
      ∃ r1 es, Read r = some (Outcome.ret 0 0 (some GoError.EOF) r1 es)) ∧
    (∀ (c s : Int) (e : Option GoError) (r1 : UTF8Reader) (es : List Effect),
      Read r = some (Outcome.ret c s e r1 es) → c ≠ BOM ∧ c ≠ RuneError) := by
  obtain ⟨o, ho, h1, h2, h3⟩ := Read_induct
    (fun r o =>
      (∀ (c : Int) (s : Nat), r.reader.decoded.find? returnable = some (c, s) →
        ∃ r1 es, o = Outcome.ret c s none r1 es) ∧
      (r.reader.decoded.find? returnable = none → r.reader.err = none →
        ∃ r1 es, o = Outcome.ret 0 0 (some GoError.EOF) r1 es) ∧
      (∀ (c s : Int) (e : Option GoError) (r1 : UTF8Reader) (es : List Effect),
        o = Outcome.ret c s e r1 es → skips c = false))
    (by
      intro r h0 he
      refine ⟨?_, fun _ _ => ⟨r, [], rfl⟩, ?_⟩
      · intro c s hf
        simp [decoded_nil _ h0] at hf
      · intro c s e r1 es h
        cases h
        exact skips_zero)
    (by
      intro r id h0 he
      refine ⟨?_, ?_, ?_⟩
      · intro c s hf
        simp [decoded_nil _ h0] at hf
      · intro _ hn
        rw [he] at hn
        cases hn
      · intro c s e r1 es h
        cases h)
    (by
      intro r c s hne hr hs1 hs2 hc
      rw [decoded_cons _ c s hne hr hs1, find_returnable_cons_stop c s _ hc]
      refine ⟨?_, ?_, ?_⟩
      · intro c1 s1 hf
        cases hf
        exact ⟨_, _, by rw [stepErr_of_not_skips r c s hc]⟩
      · intro hf
        cases hf
      · intro c1 s1 e r1 es h
        cases h
        exact hc)
    (by
      intro r c s o hne hr hs1 hs2 hb hc ho hP
      rw [decoded_cons _ c s hne hr hs1, find_returnable_cons_skip c s _ hc]
      obtain ⟨p1, p2, p3⟩ := hP
      refine ⟨?_, ?_, ?_⟩
      · intro c1 s1 hf
        obtain ⟨r1, es, h⟩ := p1 c1 s1 hf
        exact ⟨r1, _, by rw [h]; rfl⟩
      · intro hf he
        obtain ⟨r1, es, h⟩ := p2 hf he
        exact ⟨r1, _, by rw [h]; rfl⟩
      · intro c1 s1 e r1 es h
        cases o with
        | panic e2 r2 es2 => cases h
        | ret c2 s2 e2 r2 es2 =>
          simp only [Outcome.after] at h
          injection h with hcc
          subst hcc
          exact p3 c2 s2 e2 r2 es2 rfl)
    r
  refine ⟨?_, ?_, ?_⟩
  · intro c s hf
    obtain ⟨r1, es, h⟩ := h1 c s hf
    exact ⟨r1, es, by rw [ho, h]⟩
  · intro hf he
    obtain ⟨r1, es, h⟩ := h2 hf he
    exact ⟨r1, es, by rw [ho, h]⟩
  · intro c s e r1 es h
    rw [ho] at h
    injection h with h
    exact (skips_false_iff c).mp (h3 c s e r1 es h)

/-- C1: `Read` returns the first code point of the remaining decoded stream that is neither
U+FEFF nor U+FFFD, with that code point's own byte size and a nil error (whatever follows it
in the source); if no such code point remains and the source ends with `io.EOF`, it returns
`(0, 0, io.EOF)`; and no code point `Read` returns is U+FEFF or U+FFFD. -/
theorem Read_returns_first_returnable (r : UTF8Reader) :
    (∀ (c : Int) (s : Nat), r.reader.decoded.find? returnable = some (c, s) →
      ∃ r1 es, Read r = some (Outcome.ret c s none r1 es)) ∧
    (r.reader.decoded.find? returnable = none → r.reader.err = none →
      ∃ r1 es, Read r = some (Outcome.ret 0 0 (some GoError.EOF) r1 es)) ∧
    (∀ (c s : Int) (e : Option GoError) (r1 : UTF8Reader) (es : List Effect),
      Read r = some (Outcome.ret c s e r1 es) → c ≠ BOM ∧ c ≠ RuneError) :=
  Read_result r

/-- Witness for C1: after a BOM and a stray byte, `"po"` gives `'p'`; a lone stray byte gives
`io.EOF`; and the `'p'` returned from `"po"` is neither U+FEFF nor U+FFFD. -/
theorem Read_returns_first_returnable_witness :
    (∃ r1 es, Read (fresh [0xEF, 0xBB, 0xBF, 0xC3, 0x70, 0x6F])
      = some (Outcome.ret 0x70 (1 : Nat) none r1 es)) ∧
    (∃ r1 es, Read (fresh [0xC3]) = some (Outcome.ret 0 0 (some GoError.EOF) r1 es)) ∧
    ((0x70 : Int) ≠ BOM ∧ (0x70 : Int) ≠ RuneError) :=
  ⟨(Read_returns_first_returnable (fresh [0xEF, 0xBB, 0xBF, 0xC3, 0x70, 0x6F])).1 0x70 1
      (by decide),
    (Read_returns_first_returnable (fresh [0xC3])).2.1 (by decide) rfl,
    (Read_returns_first_returnable (fresh [0x70, 0x6F])).2.2 0x70 1 none
      (counted (fresh [0x70, 0x6F]) 0x70 1 ⟨bytes [0x6F], none⟩) [] (by decide)⟩

/-- C6: `Read` always ends, and whenever it returns normally its error result is nil or
`io.EOF`, whether or not an `Error` delegate is set: the errors `readRuneAndCount` makes
for out-of-place BOMs and replacement code points are never returned by `Read`. -/
theorem Read_error_nil_or_EOF (r : UTF8Reader) :
    (∃ o, Read r = some o) ∧
    ∀ (c s : Int) (e : Option GoError) (r1 : UTF8Reader) (es : List Effect),
      Read r = some (Outcome.ret c s e r1 es) → e = none ∨ e = some GoError.EOF := by
  obtain ⟨o, ho, hP⟩ := Read_induct
    (fun _ o => ∀ (c s : Int) (e : Option GoError) (r1 : UTF8Reader) (es : List Effect),
      o = Outcome.ret c s e r1 es → e = none ∨ e = some GoError.EOF)
    (by
      intro r _ _ c s e r1 es h
      cases h
      exact Or.inr rfl)
    (by
      intro r id _ _ c s e r1 es h
      cases h)
    (by
      intro r c s _ _ _ _ hc c1 s1 e r1 es h
      cases h
      exact Or.inl (stepErr_of_not_skips r c s hc))
    (by
      intro r c s o _ _ _ _ _ _ _ hP c1 s1 e r1 es h
      cases o with
      | panic e2 r2 es2 => cases h
      | ret c2 s2 e2 r2 es2 =>
        simp only [Outcome.after] at h
        injection h with _ _ he
        subst he
        exact hP c2 s2 e2 r2 es2 rfl)
    r
  refine ⟨⟨o, ho⟩, ?_⟩
  intro c s e r1 es h
  rw [ho] at h
  injection h with h
  exact hP c s e r1 es h

/-- Witness for C6: on `"\xc3p"` with an `Error` delegate, `Read` reports the stray byte to
the delegate and returns `'p'` with a nil error. -/
theorem Read_error_nil_or_EOF_witness :
    Read (configured ⟨bytes [0xC3, 0x70], none⟩ true false)
      = some (Outcome.ret 0x70 1 none ⟨⟨1, 2, 2⟩, ⟨[], none⟩, true, false⟩
          [Effect.Error ⟨⟨1, 1, 1⟩, ⟨bytes [0x70], none⟩, true, false⟩
            (GoError.InvalidCodePoint RuneError 0)]) ∧
    ((none : Option GoError) = none ∨ (none : Option GoError) = some GoError.EOF) :=
  ⟨by decide,
    (Read_error_nil_or_EOF (configured ⟨bytes [0xC3, 0x70], none⟩ true false)).2 0x70 1 none
      ⟨⟨1, 2, 2⟩, ⟨[], none⟩, true, false⟩
      [Effect.Error ⟨⟨1, 1, 1⟩, ⟨bytes [0x70], none⟩, true, false⟩
        (GoError.InvalidCodePoint RuneError 0)]
      (by decide)⟩

/-- C10: in a reader whose input is exhausted (no byte left, the source at `io.EOF`),
`readRuneAndCount` and `Read` return `(0, 0, io.EOF)`, leave the reader as it was (Line,
Column and Offset included) and have no effect at all, so neither delegate is invoked;
the reader being unchanged, any number of repeated reads give the same result; and a reader
fresh from `NewUTF8Reader` is at `{Line 1, Column 0, Offset 0}`. -/
theorem read_at_end_of_input (r : UTF8Reader) (h : r.reader = ⟨[], none⟩) :
    readRuneAndCount r = Outcome.ret 0 0 (some GoError.EOF) r [] ∧
    Read r = some (Outcome.ret 0 0 (some GoError.EOF) r []) ∧
    (∀ n, readRunes n r = some (List.replicate n (0, 0, some GoError.EOF), r)) ∧
    (NewUTF8Reader ⟨[], none⟩).toPosition = ⟨1, 0, 0⟩ := by
  have hb : r.reader.buf = [] := by rw [h]
  have he : r.reader.err = none := by rw [h]
  have h1 := readRuneAndCount_eof r hb he
  refine ⟨h1, ?_, ?_, rfl⟩
  · rw [Read_eq, h1]
    simp [skips_zero]
  · intro n
    induction n with
    | zero => rfl
    | succ k ih => simp [readRunes, h1, ih, List.replicate]

/-- Witness for C10: the empty source of `TestReadRuneAndCountEOF`. -/
theorem read_at_end_of_input_witness :
    readRuneAndCount (fresh []) = Outcome.ret 0 0 (some GoError.EOF) (fresh []) [] ∧
    Read (fresh []) = some (Outcome.ret 0 0 (some GoError.EOF) (fresh []) []) ∧
    (fresh []).toPosition = ⟨1, 0, 0⟩ :=
  ⟨(read_at_end_of_input (fresh []) rfl).1, (read_at_end_of_input (fresh []) rfl).2.1, rfl⟩

/-! ## Steps of `readRuneAndCount` -/

/-- A call of `readRuneAndCount` that returns is either the end of input, which changes
nothing, or the decoding of one code point in `n ≥ 1` bytes. -/
theorem readRuneAndCount_ret (r r1 : UTF8Reader) (c s : Int) (e : Option GoError)
    (es : List Effect) (h : readRuneAndCount r = Outcome.ret c s e r1 es) :
    (r.reader.buf = [] ∧ r.reader.err = none ∧ c = 0 ∧ s = 0 ∧ e = some GoError.EOF ∧ r1 = r ∧
      es = []) ∨
    (r.reader.buf ≠ [] ∧ ∃ n : Nat, s = n ∧ 1 ≤ n ∧ n ≤ r.reader.buf.length ∧ (c = BOM → n = 3) ∧
      r.reader.ReadRune = (c, n, none, ⟨r.reader.buf.drop n, r.reader.err⟩) ∧
      e = stepErr r c n ∧ r1 = counted r c n ⟨r.reader.buf.drop n, r.reader.err⟩ ∧ es = []) := by
  rcases readRuneAndCount_cases r with ⟨h0, he, h1⟩ | ⟨_, id, _, h1⟩ | ⟨hne, c1, s1, h1, hs1, hs2, hb⟩
  · rw [h1] at h
    injection h with a1 a2 a3 a4 a5
    exact Or.inl ⟨h0, he, a1.symm, a2.symm, a3.symm, a4.symm, a5.symm⟩
  · rw [h1] at h
    cases h
  · rw [readRuneAndCount_data r c1 s1 _ h1] at h
    injection h with a1 a2 a3 a4 a5
    subst a1
    exact Or.inr ⟨hne, s1, a2.symm, hs1, hs2, hb, h1, a3.symm, a4.symm, a5.symm⟩

theorem stepErr_ne_EOF (r : UTF8Reader) (c : Int) (n : Nat) :
    stepErr r c n ≠ some GoError.EOF := by
  unfold stepErr
  split_ifs <;> simp

/-- What one returning call of `readRuneAndCount` does to the counters. -/
theorem readRuneAndCount_step (r r1 : UTF8Reader) (c s : Int) (e : Option GoError)
    (es : List Effect) (h : readRuneAndCount r = Outcome.ret c s e r1 es) :
    0 ≤ s ∧ r1.Offset = r.Offset + s ∧
    (r.reader.buf.length : Int) = r1.reader.buf.length + s ∧
    r1.Line = r.Line + (if c = 10 then 1 else 0) ∧
    (r.reader.buf ≠ [] → 1 ≤ s) := by
  rcases readRuneAndCount_ret r r1 c s e es h with
    ⟨h0, _, hc, hs, _, hr, _⟩ | ⟨hne, n, hs, hn1, hn2, _, _, _, hr, _⟩
  · subst hr hs hc
    simp [h0]
  · subst hr hs
    simp only [counted, List.length_drop]
    refine ⟨by omega, trivial, by omega, ?_, fun _ => by omega⟩
    split_ifs <;> simp

/-- Along a run of `readRuneAndCount` calls the offset grows by the sizes returned, which
are the bytes taken from the source, and the line by the number of `'\n'` returned. -/
theorem readRunes_run (n : Nat) (r0 r : UTF8Reader) (results : List (Int × Int × Option GoError))
    (h : readRunes n r0 = some (results, r)) :
    results.length = n ∧
    r.Offset = r0.Offset + (results.map (fun x => x.2.1)).sum ∧
    (r0.reader.buf.length : Int) = r.reader.buf.length + (results.map (fun x => x.2.1)).sum ∧
    r.Line = r0.Line + ((results.filter (fun x => decide (x.1 = 10))).length : Int) ∧
    r0.Offset ≤ r.Offset ∧
    (1 ≤ n → r.reader.buf ≠ [] → r0.Offset < r.Offset) := by
  induction n generalizing r0 results with
  | zero =>
    simp only [readRunes, Option.some.injEq, Prod.mk.injEq] at h
    obtain ⟨h1, h2⟩ := h
    subst h1 h2
    simp
  | succ k ih =>
    simp only [readRunes] at h
    cases hr : readRuneAndCount r0 with
    | panic e1 r1 es1 => simp [hr] at h
    | ret c1 s1 e1 r1 es1 =>
      rw [hr] at h
      cases hk : readRunes k r1 with
      | none => simp [hk] at h
      | some p =>
        obtain ⟨l, r2⟩ := p
        simp only [hk, Option.map_some', Option.some.injEq, Prod.mk.injEq] at h
        obtain ⟨h1, h2⟩ := h
        subst h1 h2
        obtain ⟨i0, i1, i2, i3, i4, _⟩ := ih r1 l hk
        obtain ⟨j0, j1, j2, j3, j4⟩ := readRuneAndCount_step r0 r1 c1 s1 e1 es1 hr
        refine ⟨by simp [i0], ?_, ?_, ?_, by omega, ?_⟩
        · simp only [List.map_cons, List.sum_cons]
          omega
        · simp only [List.map_cons, List.sum_cons]
          omega
        · by_cases hc : c1 = 10
          · simp [hc] at j3 ⊢
            omega
          · simp [hc] at j3 ⊢
            omega
        · intro _ hne
          have hne0 : r0.reader.buf ≠ [] := by
            intro h0
            have h00 : (r0.reader.buf.length : Int) = 0 := by simp [h0]
            have hs0 : 0 ≤ (List.map (fun x => x.2.1) l).sum := by omega
            have : r2.reader.buf.length = 0 := by omega
            exact hne (List.length_eq_zero.mp this)
          have := j4 hne0
          omega

/-! ## The counters as Go `int`s -/

theorem wrapInt_eq (x : Int) (h1 : MinInt ≤ x) (h2 : x ≤ MaxInt) : wrapInt x = x := by
  unfold wrapInt
  unfold MinInt at h1
  unfold MaxInt at h2
  omega

theorem wrapInt_inRange (x : Int) : MinInt ≤ wrapInt x ∧ wrapInt x ≤ MaxInt := by
  unfold wrapInt MinInt MaxInt
  omega

/-- Taking off again what was added gives back an `int`, overflow or not. -/
theorem wrapInt_add_sub (x y : Int) (h1 : MinInt ≤ x) (h2 : x ≤ MaxInt) :
    wrapInt (wrapInt (x + y) - y) = x := by
  unfold wrapInt
  unfold MinInt at h1
  unfold MaxInt at h2
  omega

/-- Adding the size of a byte order mark to an `int` gives 3 only from 0. -/
theorem wrapInt_add_three (x : Int) (h1 : MinInt ≤ x) (h2 : x ≤ MaxInt) :
    wrapInt (x + 3) = 3 ↔ x = 0 := by
  unfold wrapInt
  unfold MinInt at h1
  unfold MaxInt at h2
  omega

theorem readRuneAndCount64_eof (r : UTF8Reader) (h : r.reader.buf = [])
    (he : r.reader.err = none) :
    readRuneAndCount64 r = Outcome.ret 0 0 (some GoError.EOF) r [] := by
  simp [readRuneAndCount64, ReadRune_nil _ h, BufioReader.readErr, he, IsEOF]

theorem readRuneAndCount64_fatal (r : UTF8Reader) (id : Nat) (h : r.reader.buf = [])
    (he : r.reader.err = some id) :
    readRuneAndCount64 r = Outcome.panic (GoError.ReadError id) r
      (if r.FatalError then [Effect.FatalError r (GoError.ReadError id)] else []) := by
  simp [readRuneAndCount64, ReadRune_nil _ h, BufioReader.readErr, he, IsEOF, reportFatalError]

theorem readRuneAndCount64_data (r : UTF8Reader) (c : Int) (s : Nat) (rd : BufioReader)
    (h : r.reader.ReadRune = (c, s, none, rd)) :
    readRuneAndCount64 r = Outcome.ret c s (stepErr64 r c s) (counted64 r c s rd) [] := by
  simp only [readRuneAndCount64, h, IsBOM, IsReplacementCharacter, BOMSize, stepErr64, counted64]
  by_cases h1 : c = 10
  · simp [h1]
  · by_cases h2 : c = BOM
    · by_cases h3 : wrapInt (r.Offset + s) = 3 <;> simp [h2, h3, BOM_ne_newline]
    · by_cases h3 : c = RuneError
      · simp [h3, RuneError_ne_newline, RuneError_ne_BOM]
      · simp [h1, h2, h3]

/-- A call of `readRuneAndCount64` that returns is either the end of input, which changes
nothing, or the decoding of one code point in `n ≥ 1` bytes. -/
theorem readRuneAndCount64_ret (r r1 : UTF8Reader) (c s : Int) (e : Option GoError)
    (es : List Effect) (h : readRuneAndCount64 r = Outcome.ret c s e r1 es) :
    (r.reader.buf = [] ∧ r.reader.err = none ∧ c = 0 ∧ s = 0 ∧ e = some GoError.EOF ∧ r1 = r ∧
      es = []) ∨
    (r.reader.buf ≠ [] ∧ ∃ n : Nat, s = n ∧ 1 ≤ n ∧ n ≤ r.reader.buf.length ∧ (c = BOM → n = 3) ∧
      r.reader.ReadRune = (c, n, none, ⟨r.reader.buf.drop n, r.reader.err⟩) ∧
      e = stepErr64 r c n ∧ r1 = counted64 r c n ⟨r.reader.buf.drop n, r.reader.err⟩ ∧
      es = []) := by
  rcases readRuneAndCount_cases r with ⟨h0, he, _⟩ | ⟨h0, id, he, _⟩
      | ⟨hne, c1, s1, h1, hs1, hs2, hb⟩
  · rw [readRuneAndCount64_eof r h0 he] at h
    injection h with a1 a2 a3 a4 a5
    exact Or.inl ⟨h0, he, a1.symm, a2.symm, a3.symm, a4.symm, a5.symm⟩
  · rw [readRuneAndCount64_fatal r id h0 he] at h
    cases h
  · rw [readRuneAndCount64_data r c1 s1 _ h1] at h
    injection h with a1 a2 a3 a4 a5
    subst a1
    exact Or.inr ⟨hne, s1, a2.symm, hs1, hs2, hb, h1, a3.symm, a4.symm, a5.symm⟩

/-- While the counters have room for the bytes still in the source, a step with the
arithmetic of Go is the step with the arithmetic of the integers, and it leaves room. -/
theorem readRuneAndCount64_eq (r : UTF8Reader) (h : hasRoom r) :
    readRuneAndCount64 r = readRuneAndCount r ∧ hasRoom (readRuneAndCount r).reader := by
  rcases readRuneAndCount_cases r with ⟨h0, he, h1⟩ | ⟨h0, id, he, h1⟩
      | ⟨hne, c, s, h1, hs1, hs2, hb⟩
  · rw [h1, readRuneAndCount64_eof r h0 he]
    exact ⟨rfl, h⟩
  · rw [h1, readRuneAndCount64_fatal r id h0 he]
    exact ⟨rfl, h⟩
  · rw [readRuneAndCount_data r c s _ h1, readRuneAndCount64_data r c s _ h1]
    obtain ⟨a1, a2, a3, a4, a5, a6, a7⟩ := h
    have w1 : wrapInt (r.Offset + s) = r.Offset + s :=
      wrapInt_eq _ (by omega) (by omega)
    have w2 : wrapInt (r.Line + 1) = r.Line + 1 := wrapInt_eq _ (by omega) (by omega)
    have w3 : wrapInt (r.Column + 1) = r.Column + 1 := wrapInt_eq _ (by omega) (by omega)
    have w4 : wrapInt (r.Offset + s - s) = r.Offset := by
      rw [add_sub_cancel_right]
      exact wrapInt_eq _ a5 (by omega)
    refine ⟨?_, ?_⟩
    · simp only [stepErr64, stepErr, counted64, counted, w1, w2, w3, w4]
    · clear w1 w2 w3 w4
      have hm : MinInt ≤ 0 := by decide
      simp only [hasRoom, Outcome.reader, counted, List.length_drop]
      split_ifs <;> refine ⟨?_, ?_, ?_, ?_, ?_, ?_, ?_⟩ <;> omega

theorem ReadLoop64_eq (fuel : Nat) (c s : Int) (e : Option GoError) (r : UTF8Reader)
    (es : List Effect) (h : hasRoom r) :
    ReadLoop64 fuel c s e r es = ReadLoop fuel c s e r es := by
  induction fuel generalizing c s e r es with
  | zero => rfl
  | succ n ih =>
    obtain ⟨h1, h2⟩ := readRuneAndCount64_eq r h
    simp only [ReadLoop64, ReadLoop, h1]
    cases hr : readRuneAndCount r with
    | ret c1 s1 e1 r1 es1 =>
      rw [hr] at h2
      simp only [ih c1 s1 e1 r1 _ h2]
    | panic e1 r1 es1 => rfl

/-- While the counters have room for the bytes still in the source, `Read` with the
arithmetic of Go is `Read` with the arithmetic of the integers. -/
theorem Read64_eq_Read (r : UTF8Reader) (h : hasRoom r) : Read64 r = Read r := by
  obtain ⟨h1, h2⟩ := readRuneAndCount64_eq r h
  simp only [Read64, Read, h1]
  cases hr : readRuneAndCount r with
  | ret c1 s1 e1 r1 es1 =>
    rw [hr] at h2
    exact ReadLoop64_eq _ c1 s1 e1 r1 es1 h2
  | panic e1 r1 es1 => rfl

theorem readRunes64_eq (n : Nat) (r : UTF8Reader) (h : hasRoom r) :
    readRunes64 n r = readRunes n r := by
  induction n generalizing r with
  | zero => rfl
  | succ k ih =>
    obtain ⟨h1, h2⟩ := readRuneAndCount64_eq r h
    simp only [readRunes64, readRunes, h1]
    cases hr : readRuneAndCount r with
    | ret c1 s1 e1 r1 es1 =>
      rw [hr] at h2
      simp only [ih r1 h2]
    | panic e1 r1 es1 => rfl

/-- The room is kept along a run of steps. -/
theorem hasRoom_readRunes (n : Nat) (r r1 : UTF8Reader)
    (results : List (Int × Int × Option GoError)) (h : hasRoom r)
    (hrun : readRunes n r = some (results, r1)) : hasRoom r1 := by
  induction n generalizing r results with
  | zero =>
    simp only [readRunes, Option.some.injEq, Prod.mk.injEq] at hrun
    rw [← hrun.2]
    exact h
  | succ k ih =>
    have h2 := (readRuneAndCount64_eq r h).2
    simp only [readRunes] at hrun
    cases hr : readRuneAndCount r with
    | panic e1 r2 es1 => simp [hr] at hrun
    | ret c1 s1 e1 r2 es1 =>
      rw [hr] at hrun h2
      cases hk : readRunes k r2 with
      | none => simp [hk] at hrun
      | some p =>
        obtain ⟨l, r3⟩ := p
        simp only [hk, Option.map_some', Option.some.injEq, Prod.mk.injEq] at hrun
        obtain ⟨_, hrun2⟩ := hrun
        subst hrun2
        exact ih r2 l h2 hk

/-- A reader fresh from `NewUTF8Reader` has room when the input is shorter than `MaxInt`. -/
theorem hasRoom_configured (b : BufioReader) (error fatal : Bool)
    (h : (b.buf.length : Int) < MaxInt) : hasRoom (configured b error fatal) := by
  have hm : MinInt ≤ 0 := by decide
  simp only [hasRoom, configured, NewUTF8Reader]
  refine ⟨?_, ?_, ?_, ?_, ?_, ?_, ?_⟩ <;> omega

theorem hasRoom_inRange (r : UTF8Reader) (h : hasRoom r) : inRange r := by
  obtain ⟨a1, a2, a3, a4, a5, a6, _⟩ := h
  refine ⟨a1, ?_, a3, ?_, a5, ?_⟩ <;> omega

/-- A step with the arithmetic of Go that returns a code point `Read` skips has consumed at
least one byte. -/
theorem readRuneAndCount64_skips_lt (r r1 : UTF8Reader) (c s : Int) (e : Option GoError)
    (es : List Effect) (h : readRuneAndCount64 r = Outcome.ret c s e r1 es)
    (hc : skips c = true) : r1.reader.buf.length < r.reader.buf.length := by
  rcases readRuneAndCount64_ret r r1 c s e es h with
    ⟨_, _, hc0, _⟩ | ⟨_, n, _, hn1, hn2, _, _, _, hr, _⟩
  · subst hc0
    rw [skips_zero] at hc
    cases hc
  · subst hr
    simp only [counted64, List.length_drop]
    omega

theorem ReadLoop64_after (fuel : Nat) (c s : Int) (e : Option GoError) (r : UTF8Reader)
    (pre es : List Effect) :
    ReadLoop64 fuel c s e r (pre ++ es)
      = (ReadLoop64 fuel c s e r es).map (Outcome.after pre) := by
  induction fuel generalizing c s e r es with
  | zero => simp [ReadLoop64]
  | succ n ih =>
    simp only [ReadLoop64]
    by_cases hc : (IsBOM c || IsReplacementCharacter c) = true
    · simp only [hc, if_true]
      cases hr : readRuneAndCount64 r with
      | ret c1 s1 e1 r1 es1 => simp only [List.append_assoc, ih]
      | panic e1 r1 es1 => simp [Outcome.after, List.append_assoc]
    · simp [hc, Outcome.after]

/-- The loop over `readRuneAndCount64` gives the same result with any fuel that covers the
bytes still to read. -/
theorem ReadLoop64_fuel (f1 f2 : Nat) (c s : Int) (e : Option GoError) (r : UTF8Reader)
    (es : List Effect)
    (h1 : (if skips c = true then r.reader.buf.length + 2 else 1) ≤ f1)
    (h2 : (if skips c = true then r.reader.buf.length + 2 else 1) ≤ f2) :
    ReadLoop64 f1 c s e r es = ReadLoop64 f2 c s e r es := by
  induction f1 generalizing f2 c s e r es with
  | zero => split_ifs at h1 <;> omega
  | succ n ih =>
    cases f2 with
    | zero => split_ifs at h2 <;> omega
    | succ m =>
      simp only [ReadLoop64]
      by_cases hc : skips c = true
      · have hc2 : (IsBOM c || IsReplacementCharacter c) = true := hc
        simp only [hc, if_true] at h1 h2
        simp only [hc2, if_true]
        cases hr : readRuneAndCount64 r with
        | ret c1 s1 e1 r1 es1 =>
          simp only
          apply ih
          · split_ifs with hc1
            · have := readRuneAndCount64_skips_lt r r1 c1 s1 e1 es1 hr hc1
              omega
            · omega
          · split_ifs with hc1
            · have := readRuneAndCount64_skips_lt r r1 c1 s1 e1 es1 hr hc1
              omega
            · omega
        | panic e1 r1 es1 => rfl
      · have hc2 : ¬ (IsBOM c || IsReplacementCharacter c) = true := hc
        simp [hc2]

/-- The equation of `Read64`: one step, and if its code point is skipped, report and read
on. -/
theorem Read64_eq (r : UTF8Reader) :
    Read64 r = match readRuneAndCount64 r with
      | Outcome.ret c s e r1 es =>
        if skips c = true then (Read64 r1).map (Outcome.after (es ++ reportIf r1 e))
        else some (Outcome.ret c s e r1 es)
      | Outcome.panic e r1 es => some (Outcome.panic e r1 es) := by
  conv_lhs => unfold Read64
  cases hr : readRuneAndCount64 r with
  | panic e r1 es => rfl
  | ret c s e r1 es =>
    simp only
    by_cases hc : skips c = true
    · have hc2 : (IsBOM c || IsReplacementCharacter c) = true := hc
      have hlt := readRuneAndCount64_skips_lt r r1 c s e es hr hc
      conv_lhs => simp only [ReadLoop64, hc2, if_true]
      simp only [hc, if_true]
      unfold Read64
      cases hr1 : readRuneAndCount64 r1 with
      | panic e2 r2 es2 => simp [Outcome.after]
      | ret c2 s2 e2 r2 es2 =>
        simp only
        rw [ReadLoop64_after]
        congr 1
        apply ReadLoop64_fuel
        · split_ifs with hc1
          · have := readRuneAndCount64_skips_lt r1 r2 c2 s2 e2 es2 hr1 hc1
            omega
          · omega
        · split_ifs with hc1
          · have := readRuneAndCount64_skips_lt r1 r2 c2 s2 e2 es2 hr1 hc1
            omega
          · omega
    · have hc2 : ¬ (IsBOM c || IsReplacementCharacter c) = true := hc
      simp [hc, ReadLoop64, hc2]

/-- Induction along `Read64`: `Read64` always ends, in any state, and a property of its
outcome follows from the four ways one turn can go. -/
theorem Read64_induct (P : UTF8Reader → Outcome → Prop)
    (heof : ∀ r : UTF8Reader, r.reader.buf = [] → r.reader.err = none →
      P r (Outcome.ret 0 0 (some GoError.EOF) r []))
    (hfatal : ∀ (r : UTF8Reader) (id : Nat), r.reader.buf = [] → r.reader.err = some id →
      P r (Outcome.panic (GoError.ReadError id) r
        (if r.FatalError then [Effect.FatalError r (GoError.ReadError id)] else [])))
    (hstop : ∀ (r : UTF8Reader) (c : Int) (s : Nat), r.reader.buf ≠ [] →
      r.reader.ReadRune = (c, s, none, ⟨r.reader.buf.drop s, r.reader.err⟩) →
      1 ≤ s → s ≤ r.reader.buf.length → skips c = false →
      P r (Outcome.ret c s (stepErr64 r c s)
        (counted64 r c s ⟨r.reader.buf.drop s, r.reader.err⟩) []))
    (hskip : ∀ (r : UTF8Reader) (c : Int) (s : Nat) (o : Outcome), r.reader.buf ≠ [] →
      r.reader.ReadRune = (c, s, none, ⟨r.reader.buf.drop s, r.reader.err⟩) →
      1 ≤ s → s ≤ r.reader.buf.length → (c = BOM → s = 3) → skips c = true →
      Read64 (counted64 r c s ⟨r.reader.buf.drop s, r.reader.err⟩) = some o →
      P (counted64 r c s ⟨r.reader.buf.drop s, r.reader.err⟩) o →
      P r (o.after (reportIf (counted64 r c s ⟨r.reader.buf.drop s, r.reader.err⟩)
        (stepErr64 r c s))))
    (r : UTF8Reader) : ∃ o, Read64 r = some o ∧ P r o := by
  generalize hn : r.reader.buf.length = n
  induction n using Nat.strong_induction_on generalizing r with
  | _ n ih =>
    rcases readRuneAndCount_cases r with ⟨h0, he, _⟩ | ⟨h0, id, he, _⟩
        | ⟨hne, c, s, h1, hs1, hs2, hb⟩
    · exact ⟨_, by rw [Read64_eq, readRuneAndCount64_eof r h0 he]; simp [skips_zero],
        heof r h0 he⟩
    · exact ⟨_, by rw [Read64_eq, readRuneAndCount64_fatal r id h0 he], hfatal r id h0 he⟩
    · have hd := readRuneAndCount64_data r c s _ h1
      by_cases hc : skips c = true
      · have hlen : (counted64 r c s ⟨r.reader.buf.drop s, r.reader.err⟩).reader.buf.length
            < n := by
          simp only [counted64, List.length_drop]
          omega
        obtain ⟨o, ho, hP⟩ := ih _ hlen _ rfl
        refine ⟨_, ?_, hskip r c s o hne h1 hs1 hs2 hb hc ho hP⟩
        rw [Read64_eq, hd]
        simp [hc, ho]
      · have hc2 : skips c = false := by simpa using hc
        refine ⟨_, ?_, hstop r c s hne h1 hs1 hs2 hc2⟩
        rw [Read64_eq, hd]
        simp [hc2]

theorem stepErr64_of_not_skips (r : UTF8Reader) (c : Int) (s : Nat) (h : skips c = false) :
    stepErr64 r c s = none := by
  simp only [skips, IsBOM, IsReplacementCharacter, Bool.or_eq_false_iff, decide_eq_false_iff_not]
    at h
  simp [stepErr64, h.1, h.2]

/-- The model computes what the Go program computes where an `int` overflows: from
`Offset`, `Line` or `Column` at `MaxInt`, a step leaves `MinInt`; and from `Offset`
at `MaxInt - 2`, over two byte order marks and `'p'`, `Read` reports the first for position
`MaxInt - 2` and the second for position `MinInt`. -/
theorem readRuneAndCount64_wraps :
    readRuneAndCount64 ⟨⟨1, 0, MaxInt⟩, ⟨bytes [0x70], none⟩, false, false⟩
      = Outcome.ret 0x70 1 none ⟨⟨1, 1, MinInt⟩, ⟨[], none⟩, false, false⟩ [] ∧
    readRuneAndCount64 ⟨⟨MaxInt, 5, 7⟩, ⟨bytes [0x0A], none⟩, false, false⟩
      = Outcome.ret 0x0A 1 none ⟨⟨MinInt, 0, 8⟩, ⟨[], none⟩, false, false⟩ [] ∧
    readRuneAndCount64 ⟨⟨1, MaxInt, 7⟩, ⟨bytes [0x70], none⟩, false, false⟩
      = Outcome.ret 0x70 1 none ⟨⟨1, MinInt, 8⟩, ⟨[], none⟩, false, false⟩ [] ∧
    Read64 ⟨⟨1, 0, MaxInt - 2⟩, ⟨boms 2 (bytes [0x70]), none⟩, true, false⟩
      = some (Outcome.ret 0x70 1 none ⟨⟨1, 1, MinInt + 4⟩, ⟨[], none⟩, true, false⟩
          [Effect.Error ⟨⟨1, 0, MinInt⟩, ⟨boms 1 (bytes [0x70]), none⟩, true, false⟩
              (GoError.InvalidBOM (MaxInt - 2)),
            Effect.Error ⟨⟨1, 0, MinInt + 3⟩, ⟨bytes [0x70], none⟩, true, false⟩
              (GoError.InvalidBOM MinInt)]) := by
  decide

/-- C2: after any number of `readRuneAndCount` calls on a fresh reader over an input shorter
than `MaxInt` bytes, none of the calls fatal, `Offset` is the sum of the sizes the calls
returned, and it is the number of bytes taken from the source; and every returning call
does `Offset += size`, whatever code point it decoded, that size being the number of bytes
it took from the source: `Offset` becomes the `int` of `Offset + size`, which is
`Offset + size` itself unless that exceeds `MaxInt`. -/
theorem Offset_is_sum_of_sizes :
    (∀ (b : BufioReader) (error fatal : Bool) (n : Nat)
      (results : List (Int × Int × Option GoError)) (r : UTF8Reader),
      (b.buf.length : Int) < MaxInt →
      readRunes64 n (configured b error fatal) = some (results, r) →
        r.Offset = (results.map (fun x => x.2.1)).sum ∧
        r.Offset = (b.buf.length : Int) - r.reader.buf.length) ∧
    (∀ (r r1 : UTF8Reader) (c s : Int) (e : Option GoError) (es : List Effect),
      inRange r → readRuneAndCount64 r = Outcome.ret c s e r1 es →
        r1.Offset = wrapInt (r.Offset + s) ∧
        (r.Offset + s ≤ MaxInt → r1.Offset = r.Offset + s) ∧
        (r.reader.buf.length : Int) = r1.reader.buf.length + s) := by
  constructor
  · intro b error fatal n results r hb h
    rw [readRunes64_eq n _ (hasRoom_configured b error fatal hb)] at h
    obtain ⟨_, h1, h2, _⟩ := readRunes_run n _ r results h
    simp only [configured, NewUTF8Reader] at h1 h2
    constructor <;> omega
  · intro r r1 c s e es hr h
    obtain ⟨_, _, _, _, a5, a6⟩ := hr
    rcases readRuneAndCount64_ret r r1 c s e es h with
      ⟨h0, _, _, hs, _, hr1, _⟩ | ⟨_, n, hs, hn1, hn2, _, _, _, hr1, _⟩
    · subst hr1 hs
      simp only [add_zero, wrapInt_eq _ a5 a6, h0, List.length_nil, Nat.cast_zero]
      exact ⟨trivial, fun _ => trivial, trivial⟩
    · subst hr1 hs
      simp only [counted64, List.length_drop]
      refine ⟨trivial, fun hle => wrapInt_eq _ (by omega) hle, by omega⟩

/-- Witness for C2: three steps on `"\xc3Øp"` return sizes 1 (malformed), 2 and 1, and
leave `Offset = 4`; and the step over `'p'` from `Offset = MaxInt - 1` leaves `MaxInt`. -/
theorem Offset_is_sum_of_sizes_witness :
    readRunes64 3 (configured ⟨bytes [0xC3, 0xC3, 0x98, 0x70], none⟩ false false)
      = some ([(RuneError, 1, some (GoError.InvalidCodePoint RuneError 0)), (0xD8, 2, none),
          (0x70, 1, none)], ⟨⟨1, 3, 4⟩, ⟨[], none⟩, false, false⟩) ∧
    (4 : Int) = ([((RuneError : Int), (1 : Int), some (GoError.InvalidCodePoint RuneError 0)),
      (0xD8, 2, none), (0x70, 1, none)].map (fun x => x.2.1)).sum ∧
    (⟨⟨1, 1, MaxInt⟩, ⟨[], none⟩, false, false⟩ : UTF8Reader).Offset = MaxInt - 1 + 1 :=
  ⟨by decide, (Offset_is_sum_of_sizes.1 ⟨bytes [0xC3, 0xC3, 0x98, 0x70], none⟩ false false 3
    [(RuneError, 1, some (GoError.InvalidCodePoint RuneError 0)), (0xD8, 2, none),
      (0x70, 1, none)] ⟨⟨1, 3, 4⟩, ⟨[], none⟩, false, false⟩ (by decide) (by decide)).1,
    (Offset_is_sum_of_sizes.2 ⟨⟨1, 0, MaxInt - 1⟩, ⟨bytes [0x70], none⟩, false, false⟩
      ⟨⟨1, 1, MaxInt⟩, ⟨[], none⟩, false, false⟩ 0x70 1 none [] (by decide) (by decide)).2.1
      (by decide)⟩

/-- C3: a `readRuneAndCount` step whose `ReadRune` decodes U+FEFF returns U+FEFF itself, in
3 bytes; its error is nil exactly when `Offset` was 0 before the step, that is when `Offset`
is `BOMSize` after it, and otherwise it is the invalid-BOM error for `Offset` before the
step; `Offset` becomes the `int` of `Offset + 3`, which is `Offset + 3` itself unless that
exceeds `MaxInt`; and in a run on a fresh reader over an input shorter than `MaxInt` bytes,
`Offset` is 0 before such a step exactly when it is the first step. -/
theorem BOM_error_iff_out_of_place :
    (∀ (r : UTF8Reader) (s : Nat) (rd : BufioReader),
      r.reader.ReadRune = (BOM, s, none, rd) →
        ∃ e r1, readRuneAndCount64 r = Outcome.ret BOM s e r1 []) ∧
    (∀ (r r1 : UTF8Reader) (s : Int) (e : Option GoError) (es : List Effect),
      inRange r → readRuneAndCount64 r = Outcome.ret BOM s e r1 es →
        s = 3 ∧ r1.Offset = wrapInt (r.Offset + 3) ∧
        (r.Offset + 3 ≤ MaxInt → r1.Offset = r.Offset + 3) ∧
        (e = none ↔ r.Offset = 0) ∧
        (e = none ↔ r1.Offset = BOMSize) ∧
        (r.Offset ≠ 0 → e = some (GoError.InvalidBOM r.Offset))) ∧
    (∀ (b : BufioReader) (error fatal : Bool) (n : Nat)
      (results : List (Int × Int × Option GoError)) (r : UTF8Reader) (s : Nat)
      (rd : BufioReader),
      (b.buf.length : Int) < MaxInt →
      readRunes64 n (configured b error fatal) = some (results, r) →
      r.reader.ReadRune = (BOM, s, none, rd) → (r.Offset = 0 ↔ n = 0)) := by
  refine ⟨?_, ?_, ?_⟩
  · intro r s rd h
    exact ⟨_, _, readRuneAndCount64_data r BOM s rd h⟩
  · intro r r1 s e es hrange h
    obtain ⟨_, _, _, _, a5, a6⟩ := hrange
    rcases readRuneAndCount64_ret r r1 BOM s e es h with
      ⟨_, _, hc, _⟩ | ⟨_, n, hs, _, _, hb, _, he, hr, _⟩
    · exact absurd hc (by decide)
    · have hn := hb rfl
      subst hn hs he hr
      have w1 := wrapInt_add_three r.Offset a5 a6
      have w2 := wrapInt_add_sub r.Offset 3 a5 a6
      simp only [counted64, stepErr64, BOMSize, BOM_ne_newline, if_true, if_false,
        Nat.cast_ofNat]
      refine ⟨trivial, trivial, fun hle => wrapInt_eq _ (by omega) hle, ?_, ?_, ?_⟩
      · by_cases hw : wrapInt (r.Offset + 3) = 3
        · simp only [hw, if_true, true_iff]
          exact w1.mp hw
        · have h0 : ¬ r.Offset = 0 := fun h0 => hw (w1.mpr h0)
          simp [hw, h0]
      · by_cases hw : wrapInt (r.Offset + 3) = 3
        · simp [hw]
        · simp [hw]
      · intro h0
        have : ¬ wrapInt (r.Offset + 3) = 3 := fun hw => h0 (w1.mp hw)
        simp [this, w2]
  · intro b error fatal n results r s rd hb h hr
    rw [readRunes64_eq n _ (hasRoom_configured b error fatal hb)] at h
    obtain ⟨_, _, _, _, _, h6⟩ := readRunes_run n _ r results h
    have hne : r.reader.buf ≠ [] := by
      intro h0
      rw [ReadRune_nil _ h0] at hr
      cases hr
    constructor
    · intro h0
      by_contra hn
      have := h6 (by omega) hne
      simp only [configured, NewUTF8Reader] at this
      omega
    · intro hn
      subst hn
      simp only [readRunes, Option.some.injEq, Prod.mk.injEq] at h
      rw [← h.2]
      rfl

/-- Witness for C3: on `"\uFEFFp\uFEFF"` the first step returns the BOM with a nil error, from
`Offset` 0, and the third returns the BOM with the invalid-BOM error for position 4. -/
theorem BOM_error_iff_out_of_place_witness :
    readRunes64 3 (fresh [0xEF, 0xBB, 0xBF, 0x70, 0xEF, 0xBB, 0xBF])
      = some ([(BOM, 3, none), (0x70, 1, none), (BOM, 3, some (GoError.InvalidBOM 4))],
          ⟨⟨1, 1, 7⟩, ⟨[], none⟩, false, false⟩) ∧
    (∃ e r1, readRuneAndCount64 (fresh [0xEF, 0xBB, 0xBF, 0x70, 0xEF, 0xBB, 0xBF])
      = Outcome.ret BOM (3 : Nat) e r1 []) ∧
    ((none : Option GoError) = none ↔ (fresh [0xEF, 0xBB, 0xBF, 0x70, 0xEF, 0xBB, 0xBF]).Offset = 0) ∧
    ((⟨⟨1, 1, 4⟩, ⟨bytes [0xEF, 0xBB, 0xBF], none⟩, false, false⟩ : UTF8Reader).Offset ≠ 0 →
      some (GoError.InvalidBOM 4) = some (GoError.InvalidBOM
        (⟨⟨1, 1, 4⟩, ⟨bytes [0xEF, 0xBB, 0xBF], none⟩, false, false⟩ : UTF8Reader).Offset)) ∧
    ((⟨⟨1, 1, 4⟩, ⟨bytes [0xEF, 0xBB, 0xBF], none⟩, false, false⟩ : UTF8Reader).Offset = 0
      ↔ 2 = 0) :=
  ⟨by decide,
    BOM_error_iff_out_of_place.1 (fresh [0xEF, 0xBB, 0xBF, 0x70, 0xEF, 0xBB, 0xBF]) 3
      ⟨bytes [0x70, 0xEF, 0xBB, 0xBF], none⟩ (by decide),
    (BOM_error_iff_out_of_place.2.1 (fresh [0xEF, 0xBB, 0xBF, 0x70, 0xEF, 0xBB, 0xBF])
      ⟨⟨1, 0, 3⟩, ⟨bytes [0x70, 0xEF, 0xBB, 0xBF], none⟩, false, false⟩ 3 none []
      (by decide) (by decide)).2.2.2.1,
    (BOM_error_iff_out_of_place.2.1 ⟨⟨1, 1, 4⟩, ⟨bytes [0xEF, 0xBB, 0xBF], none⟩, false, false⟩
      ⟨⟨1, 1, 7⟩, ⟨[], none⟩, false, false⟩ 3 (some (GoError.InvalidBOM 4)) []
      (by decide) (by decide)).2.2.2.2.2,
    BOM_error_iff_out_of_place.2.2 ⟨bytes [0xEF, 0xBB, 0xBF, 0x70, 0xEF, 0xBB, 0xBF], none⟩
      false false 2 [(BOM, 3, none), (0x70, 1, none)]
      ⟨⟨1, 1, 4⟩, ⟨bytes [0xEF, 0xBB, 0xBF], none⟩, false, false⟩ 3 ⟨[], none⟩
      (by decide) (by decide) (by decide)⟩

/-- C7: a `readRuneAndCount` step that returns `'\n'` does `Line++` and sets `Column` to 0:
`Line` increases by exactly 1, unless it is `MaxInt`, where the `int` wraps around; a step
that returns any other code point, or `io.EOF`, leaves `Line` as it was; hence after any run
of steps on a fresh reader over an input shorter than `MaxInt` bytes, `Line` is 1 plus the
number of `'\n'` returned. -/
theorem newline_starts_a_line :
    (∀ (r r1 : UTF8Reader) (c s : Int) (e : Option GoError) (es : List Effect),
      inRange r → readRuneAndCount64 r = Outcome.ret c s e r1 es →
        (c = 10 → r1.Line = wrapInt (r.Line + 1) ∧ r1.Column = 0 ∧
          (r.Line < MaxInt → r1.Line = r.Line + 1)) ∧
        (c ≠ 10 → r1.Line = r.Line)) ∧
    (∀ (b : BufioReader) (error fatal : Bool) (n : Nat)
      (results : List (Int × Int × Option GoError)) (r : UTF8Reader),
      (b.buf.length : Int) < MaxInt →
      readRunes64 n (configured b error fatal) = some (results, r) →
        r.Line = 1 + ((results.filter (fun x => decide (x.1 = 10))).length : Int)) := by
  constructor
  · intro r r1 c s e es hrange h
    obtain ⟨a1, a2, _⟩ := hrange
    rcases readRuneAndCount64_ret r r1 c s e es h with
      ⟨_, _, hc, _, _, hr, _⟩ | ⟨_, n, _, _, _, _, _, _, hr, _⟩
    · subst hr hc
      simp
    · subst hr
      constructor
      · intro hc
        simp only [counted64, hc, if_true]
        exact ⟨trivial, trivial, fun hlt => wrapInt_eq _ (by omega) (by omega)⟩
      · intro hc
        simp [counted64, hc]
  · intro b error fatal n results r hb h
    rw [readRunes64_eq n _ (hasRoom_configured b error fatal hb)] at h
    obtain ⟨_, _, _, h4, _⟩ := readRunes_run n _ r results h
    simpa [configured, NewUTF8Reader] using h4

/-- Witness for C7: after two steps on `"p\noly"` the reader is at Line 2, Column 0. -/
theorem newline_starts_a_line_witness :
    readRunes64 2 (configured ⟨bytes [0x70, 0x0A, 0x6F, 0x6C, 0x79], none⟩ false false)
      = some ([(0x70, 1, none), (0x0A, 1, none)],
          ⟨⟨2, 0, 2⟩, ⟨bytes [0x6F, 0x6C, 0x79], none⟩, false, false⟩) ∧
    (2 : Int) = 1 + (([((0x70 : Int), (1 : Int), (none : Option GoError)), (0x0A, 1, none)].filter
      (fun x => decide (x.1 = 10))).length : Int) ∧
    (⟨⟨2, 0, 2⟩, ⟨bytes [0x6F, 0x6C, 0x79], none⟩, false, false⟩ : UTF8Reader).Line
      = (⟨⟨1, 1, 1⟩, ⟨bytes [0x0A, 0x6F, 0x6C, 0x79], none⟩, false, false⟩ : UTF8Reader).Line
        + 1 :=
  ⟨by decide, newline_starts_a_line.2 ⟨bytes [0x70, 0x0A, 0x6F, 0x6C, 0x79], none⟩ false false 2
    [(0x70, 1, none), (0x0A, 1, none)]
    ⟨⟨2, 0, 2⟩, ⟨bytes [0x6F, 0x6C, 0x79], none⟩, false, false⟩ (by decide) (by decide),
    ((newline_starts_a_line.1
      ⟨⟨1, 1, 1⟩, ⟨bytes [0x0A, 0x6F, 0x6C, 0x79], none⟩, false, false⟩
      ⟨⟨2, 0, 2⟩, ⟨bytes [0x6F, 0x6C, 0x79], none⟩, false, false⟩ 0x0A 1 none []
      (by decide) (by decide)).1 (by decide)).2.2 (by decide)⟩

/-- C8, as stated, fails: on `"\uFEFFp"` the first step consumes U+FEFF, a code point other
than `'\n'`, and `Column` stays 0 instead of becoming 1. -/
theorem Column_advances_counterexample :
    readRuneAndCount (fresh [0xEF, 0xBB, 0xBF, 0x70])
      = Outcome.ret BOM 3 none ⟨⟨1, 0, 3⟩, ⟨bytes [0x70], none⟩, false, false⟩ [] ∧
    BOM ≠ 10 ∧
    (⟨⟨1, 0, 3⟩, ⟨bytes [0x70], none⟩, false, false⟩ : UTF8Reader).Column
      ≠ (fresh [0xEF, 0xBB, 0xBF, 0x70]).Column + 1 ∧
    readRuneAndCount64 (fresh [0xEF, 0xBB, 0xBF, 0x70])
      = Outcome.ret BOM 3 none ⟨⟨1, 0, 3⟩, ⟨bytes [0x70], none⟩, false, false⟩ [] := by
  decide

theorem stepErr64_ne_EOF (r : UTF8Reader) (c : Int) (n : Nat) :
    stepErr64 r c n ≠ some GoError.EOF := by
  unfold stepErr64
  split_ifs <;> simp

/-- C8, amended: a `readRuneAndCount` step that consumes a code point other than `'\n'` and
other than U+FEFF (valid or replacement) does `Column++` and leaves `Line` as it was,
whatever the width `s` of the encoding: `Column` increases by exactly 1, unless it is
`MaxInt`, where the `int` wraps around. -/
theorem Column_advances_by_one (r r1 : UTF8Reader) (c s : Int) (e : Option GoError)
    (es : List Effect) (hrange : inRange r)
    (h : readRuneAndCount64 r = Outcome.ret c s e r1 es)
    (hne : e ≠ some GoError.EOF) (hnl : c ≠ 10) (hbom : c ≠ BOM) :
    r1.Column = wrapInt (r.Column + 1) ∧ (r.Column < MaxInt → r1.Column = r.Column + 1) ∧
    r1.Line = r.Line := by
  obtain ⟨_, _, a3, a4, _⟩ := hrange
  rcases readRuneAndCount64_ret r r1 c s e es h with
    ⟨_, _, _, _, he, _⟩ | ⟨_, n, _, _, _, _, _, _, hr, _⟩
  · exact absurd he hne
  · subst hr
    simp only [counted64, hnl, hbom, if_false]
    exact ⟨trivial, fun hlt => wrapInt_eq _ (by omega) (by omega), trivial⟩

/-- Witness for C8, amended: the step over the two-byte `Ø` of `"Øl"` and the step over the
stray byte of `"\xc3p"` each move `Column` from 0 to 1 and leave `Line` at 1. -/
theorem Column_advances_by_one_witness :
    (readRuneAndCount64 (fresh [0xC3, 0x98, 0x6C])
        = Outcome.ret 0xD8 2 none ⟨⟨1, 1, 2⟩, ⟨bytes [0x6C], none⟩, false, false⟩ [] ∧
      (⟨⟨1, 1, 2⟩, ⟨bytes [0x6C], none⟩, false, false⟩ : UTF8Reader).Column
          = (fresh [0xC3, 0x98, 0x6C]).Column + 1 ∧
      (⟨⟨1, 1, 2⟩, ⟨bytes [0x6C], none⟩, false, false⟩ : UTF8Reader).Line
          = (fresh [0xC3, 0x98, 0x6C]).Line) ∧
    (readRuneAndCount64 (fresh [0xC3, 0x70])
        = Outcome.ret RuneError 1 (some (GoError.InvalidCodePoint RuneError 0))
            ⟨⟨1, 1, 1⟩, ⟨bytes [0x70], none⟩, false, false⟩ [] ∧
      (⟨⟨1, 1, 1⟩, ⟨bytes [0x70], none⟩, false, false⟩ : UTF8Reader).Column
          = (fresh [0xC3, 0x70]).Column + 1 ∧
      (⟨⟨1, 1, 1⟩, ⟨bytes [0x70], none⟩, false, false⟩ : UTF8Reader).Line
          = (fresh [0xC3, 0x70]).Line) :=
  ⟨⟨by decide,
      (Column_advances_by_one (fresh [0xC3, 0x98, 0x6C])
        ⟨⟨1, 1, 2⟩, ⟨bytes [0x6C], none⟩, false, false⟩ 0xD8 2 none [] (by decide) (by decide)
        (by decide) (by decide) (by decide)).2.1 (by decide),
      (Column_advances_by_one (fresh [0xC3, 0x98, 0x6C])
        ⟨⟨1, 1, 2⟩, ⟨bytes [0x6C], none⟩, false, false⟩ 0xD8 2 none [] (by decide) (by decide)
        (by decide) (by decide) (by decide)).2.2⟩,
    ⟨by decide,
      (Column_advances_by_one (fresh [0xC3, 0x70])
        ⟨⟨1, 1, 1⟩, ⟨bytes [0x70], none⟩, false, false⟩ RuneError 1
        (some (GoError.InvalidCodePoint RuneError 0)) [] (by decide) (by decide) (by decide)
        (by decide) (by decide)).2.1 (by decide),
      (Column_advances_by_one (fresh [0xC3, 0x70])
        ⟨⟨1, 1, 1⟩, ⟨bytes [0x70], none⟩, false, false⟩ RuneError 1
        (some (GoError.InvalidCodePoint RuneError 0)) [] (by decide) (by decide) (by decide)
        (by decide) (by decide)).2.2⟩⟩

/-- C9: a `readRuneAndCount` step that returns U+FEFF, with or without an error, changes
nothing of the reader but `Offset`, which grows by 3 (it becomes the `int` of `Offset + 3`,
which is `Offset + 3` itself unless that exceeds `MaxInt`), and the buffered input; the step
does `Column++` for every code point that is neither U+FEFF nor `'\n'` (U+FFFD included),
so that `Column` moves on by 1 unless it is `MaxInt`; `Column` is set to 0 by `'\n'`, and is
left as it was by U+FEFF and by `io.EOF`. -/
theorem BOM_moves_only_Offset :
    (∀ (r r1 : UTF8Reader) (s : Int) (e : Option GoError) (es : List Effect),
      inRange r → readRuneAndCount64 r = Outcome.ret BOM s e r1 es →
        s = 3 ∧ r1.Line = r.Line ∧ r1.Column = r.Column ∧
        r1.Offset = wrapInt (r.Offset + 3) ∧ (r.Offset + 3 ≤ MaxInt → r1.Offset = r.Offset + 3) ∧
        r1.Error = r.Error ∧ r1.FatalError = r.FatalError ∧ es = []) ∧
    (∀ (r r1 : UTF8Reader) (c s : Int) (e : Option GoError) (es : List Effect),
      inRange r → readRuneAndCount64 r = Outcome.ret c s e r1 es →
        (c ≠ BOM → c ≠ 10 → e ≠ some GoError.EOF →
          r1.Column = wrapInt (r.Column + 1) ∧ (r.Column < MaxInt → r1.Column = r.Column + 1)) ∧
        (c = RuneError →
          r1.Column = wrapInt (r.Column + 1) ∧ (r.Column < MaxInt → r1.Column = r.Column + 1)) ∧
        (c = 10 → r1.Column = 0) ∧
        (c = BOM ∨ e = some GoError.EOF → r1.Column = r.Column)) := by
  constructor
  · intro r r1 s e es hrange h
    obtain ⟨_, _, _, _, a5, a6⟩ := hrange
    rcases readRuneAndCount64_ret r r1 BOM s e es h with
      ⟨_, _, hc, _⟩ | ⟨_, n, hs, _, _, hb, _, _, hr, hes⟩
    · exact absurd hc (by decide)
    · have hn := hb rfl
      subst hn hs hr
      simp only [counted64, BOM_ne_newline, if_false, if_true, Nat.cast_ofNat]
      exact ⟨trivial, trivial, trivial, trivial, fun hle => wrapInt_eq _ (by omega) hle,
        trivial, trivial, hes⟩
  · intro r r1 c s e es hrange h
    obtain ⟨_, _, a3, a4, _⟩ := hrange
    have hw : r.Column < MaxInt → wrapInt (r.Column + 1) = r.Column + 1 :=
      fun hlt => wrapInt_eq _ (by omega) (by omega)
    rcases readRuneAndCount64_ret r r1 c s e es h with
      ⟨_, _, hc, _, he, hr, _⟩ | ⟨_, n, _, _, _, _, _, he, hr, _⟩
    · subst hr hc he
      refine ⟨fun _ _ h => absurd rfl h, fun h => absurd h.symm (by decide),
        fun h => absurd h (by decide), fun _ => rfl⟩
    · subst hr
      refine ⟨?_, ?_, ?_, ?_⟩
      · intro h1 h2 _
        simp only [counted64, h1, h2, if_false]
        exact ⟨trivial, hw⟩
      · intro h1
        subst h1
        simp only [counted64, RuneError_ne_newline, RuneError_ne_BOM, if_false]
        exact ⟨trivial, hw⟩
      · intro h1
        simp [counted64, h1]
      · intro h1
        rcases h1 with h1 | h1
        · subst h1
          simp [counted64, BOM_ne_newline]
        · rw [he] at h1
          exact absurd h1 (stepErr64_ne_EOF r c n)

/-- Witness for C9: on `"\uFEFFpoly"` the step that reads the leading BOM leaves the reader at
Line 1, Column 0, Offset 3, and the step that reads `'p'` after it moves Column to 1. -/
theorem BOM_moves_only_Offset_witness :
    readRunes64 2 (fresh [0xEF, 0xBB, 0xBF, 0x70, 0x6F, 0x6C, 0x79])
      = some ([(BOM, 3, none), (0x70, 1, none)],
          ⟨⟨1, 1, 4⟩, ⟨bytes [0x6F, 0x6C, 0x79], none⟩, false, false⟩) ∧
    (⟨⟨1, 0, 3⟩, ⟨bytes [0x70, 0x6F, 0x6C, 0x79], none⟩, false, false⟩ : UTF8Reader).Offset
      = (fresh [0xEF, 0xBB, 0xBF, 0x70, 0x6F, 0x6C, 0x79]).Offset + 3 ∧
    (⟨⟨1, 1, 4⟩, ⟨bytes [0x6F, 0x6C, 0x79], none⟩, false, false⟩ : UTF8Reader).Column
      = (⟨⟨1, 0, 3⟩, ⟨bytes [0x70, 0x6F, 0x6C, 0x79], none⟩, false, false⟩ : UTF8Reader).Column
        + 1 :=
  ⟨by decide,
    (BOM_moves_only_Offset.1 (fresh [0xEF, 0xBB, 0xBF, 0x70, 0x6F, 0x6C, 0x79])
      ⟨⟨1, 0, 3⟩, ⟨bytes [0x70, 0x6F, 0x6C, 0x79], none⟩, false, false⟩ 3 none []
      (by decide) (by decide)).2.2.2.2.1 (by decide),
    ((BOM_moves_only_Offset.2 ⟨⟨1, 0, 3⟩, ⟨bytes [0x70, 0x6F, 0x6C, 0x79], none⟩, false, false⟩
      ⟨⟨1, 1, 4⟩, ⟨bytes [0x6F, 0x6C, 0x79], none⟩, false, false⟩ 0x70 1 none []
      (by decide) (by decide)).1 (by decide) (by decide) (by decide)).2 (by decide)⟩

/-! ## `Read`: what it reports and where it stops -/

theorem errorCalls_append (l1 l2 : List Effect) :
    errorCalls (l1 ++ l2) = errorCalls l1 ++ errorCalls l2 := by
  induction l1 with
  | nil => rfl
  | cons a t ih => cases a <;> simp [errorCalls, ih]

theorem Outcome.after_effects (pre : List Effect) (o : Outcome) :
    (o.after pre).effects = pre ++ o.effects := by
  cases o <;> rfl

theorem Outcome.after_reader (pre : List Effect) (o : Outcome) :
    (o.after pre).reader = o.reader := by
  cases o <;> rfl

theorem Outcome.after_size (pre : List Effect) (o : Outcome) :
    (o.after pre).size = o.size := by
  cases o <;> rfl

theorem Outcome.after_result (pre : List Effect) (o : Outcome) :
    (o.after pre).result = o.result := by
  cases o <;> rfl

/-- What `Read` gives back and what it takes from the source do not depend on the counters:
in any two states over the same source, `Read` with the arithmetic of the integers and
`Read64` with the arithmetic of Go end alike, with the same `(code, size, err)` or the same
panic, and leave the same bytes in the source. -/
theorem Read64_same_result (r : UTF8Reader) :
    ∃ o, Read r = some o ∧
      ∀ r2 : UTF8Reader, r2.reader = r.reader →
        ∃ o2, Read64 r2 = some o2 ∧ o2.result = o.result ∧
          o2.reader.reader = o.reader.reader := by
  apply Read_induct
    (fun r o => ∀ r2 : UTF8Reader, r2.reader = r.reader →
      ∃ o2, Read64 r2 = some o2 ∧ o2.result = o.result ∧ o2.reader.reader = o.reader.reader)
  · intro r h0 he r2 h2
    refine ⟨Outcome.ret 0 0 (some GoError.EOF) r2 [], ?_, rfl, h2⟩
    rw [Read64_eq, readRuneAndCount64_eof r2 (by rw [h2]; exact h0) (by rw [h2]; exact he)]
    simp [skips_zero]
  · intro r id h0 he r2 h2
    refine ⟨Outcome.panic (GoError.ReadError id) r2
      (if r2.FatalError then [Effect.FatalError r2 (GoError.ReadError id)] else []), ?_, rfl, h2⟩
    rw [Read64_eq, readRuneAndCount64_fatal r2 id (by rw [h2]; exact h0) (by rw [h2]; exact he)]
  · intro r c s _ hr _ _ hc r2 h2
    have hr2 : r2.reader.ReadRune = (c, s, none, ⟨r.reader.buf.drop s, r.reader.err⟩) := by
      rw [h2]
      exact hr
    refine ⟨Outcome.ret c s (stepErr64 r2 c s)
      (counted64 r2 c s ⟨r.reader.buf.drop s, r.reader.err⟩) [], ?_, ?_, ?_⟩
    · rw [Read64_eq, readRuneAndCount64_data r2 c s _ hr2]
      simp only [hc, Bool.false_eq_true, if_false]
    · simp only [Outcome.result, stepErr64_of_not_skips r2 c s hc, stepErr_of_not_skips r c s hc]
    · rfl
  · intro r c s o _ hr _ _ _ hc _ hP r2 h2
    have hr2 : r2.reader.ReadRune = (c, s, none, ⟨r.reader.buf.drop s, r.reader.err⟩) := by
      rw [h2]
      exact hr
    obtain ⟨o2, g1, g2, g3⟩ :=
      hP (counted64 r2 c s ⟨r.reader.buf.drop s, r.reader.err⟩) rfl
    refine ⟨o2.after (reportIf (counted64 r2 c s ⟨r.reader.buf.drop s, r.reader.err⟩)
      (stepErr64 r2 c s)), ?_, ?_, ?_⟩
    · rw [Read64_eq, readRuneAndCount64_data r2 c s _ hr2]
      simp only [hc, if_true, g1, Option.map_some', List.nil_append]
    · rw [Outcome.after_result, Outcome.after_result, g2]
    · rw [Outcome.after_reader, Outcome.after_reader, g3]

/-- In any state, `Read64` ends; what it returns is neither U+FEFF nor U+FFFD and comes
with a nil error or `io.EOF`; and with an `Error` delegate it makes one invalid-code-point
call for each unit decoded as U+FFFD among the units it skips. -/
theorem Read64_returns (r : UTF8Reader) :
    ∃ o, Read64 r = some o ∧
      (∀ (c s : Int) (e : Option GoError) (r1 : UTF8Reader) (es : List Effect),
        o = Outcome.ret c s e r1 es →
          c ≠ BOM ∧ c ≠ RuneError ∧ (e = none ∨ e = some GoError.EOF)) ∧
      (r.Error = true →
        ((errorCalls o.effects).filter GoError.isInvalidCodePoint).length
          = ((r.reader.decoded.takeWhile (fun u => skips u.1)).filter
              (fun u => decide (u.1 = RuneError))).length) := by
  apply Read64_induct
    (fun r o =>
      (∀ (c s : Int) (e : Option GoError) (r1 : UTF8Reader) (es : List Effect),
        o = Outcome.ret c s e r1 es →
          c ≠ BOM ∧ c ≠ RuneError ∧ (e = none ∨ e = some GoError.EOF)) ∧
      (r.Error = true →
        ((errorCalls o.effects).filter GoError.isInvalidCodePoint).length
          = ((r.reader.decoded.takeWhile (fun u => skips u.1)).filter
              (fun u => decide (u.1 = RuneError))).length))
  · intro r h0 _
    refine ⟨?_, fun _ => by simp [decoded_nil _ h0, Outcome.effects, errorCalls]⟩
    intro c s e r1 es h
    injection h with a1 _ a3 _ _
    subst a1 a3
    exact ⟨by decide, by decide, Or.inr rfl⟩
  · intro r id h0 _
    refine ⟨fun c s e r1 es h => (by cases h), fun _ => ?_⟩
    by_cases hf : r.FatalError = true <;>
      simp [decoded_nil _ h0, Outcome.effects, errorCalls, hf]
  · intro r c s hne hr hs1 _ hc
    refine ⟨?_, fun _ => by
      simp [decoded_cons _ c s hne hr hs1, hc, Outcome.effects, errorCalls]⟩
    intro c1 s1 e r1 es h
    injection h with a1 _ a3 _ _
    subst a1 a3
    have := (skips_false_iff c).mp hc
    exact ⟨this.1, this.2, Or.inl (stepErr64_of_not_skips r c s hc)⟩
  · intro r c s o hne hr hs1 _ hb hc _ hP
    obtain ⟨p1, p2⟩ := hP
    refine ⟨?_, ?_⟩
    · intro c1 s1 e r1 es h
      cases o with
      | panic e2 r2 es2 => cases h
      | ret c2 s2 e2 r2 es2 =>
        simp only [Outcome.after] at h
        injection h with a1 _ a3 _ _
        subst a1 a3
        exact p1 c2 s2 e2 r2 es2 rfl
    · intro he
      have he1 : (counted64 r c s ⟨r.reader.buf.drop s, r.reader.err⟩).Error = true := he
      have hd1 : (counted64 r c s ⟨r.reader.buf.drop s, r.reader.err⟩).reader.decoded
          = BufioReader.decoded ⟨r.reader.buf.drop s, r.reader.err⟩ := rfl
      have q := p2 he1
      rw [hd1] at q
      rw [Outcome.after_effects, errorCalls_append, List.filter_append, List.length_append, q,
        decoded_cons _ c s hne hr hs1]
      simp only [List.takeWhile_cons, hc, if_true]
      have hc2 : c = BOM ∨ c = RuneError := by
        simpa [skips, IsBOM, IsReplacementCharacter] using hc
      rcases hc2 with h | h
      · subst h
        have hne2 : ¬ BOM = RuneError := BOM_ne_RuneError
        by_cases hw : wrapInt (r.Offset + s) = 3
        · simp [stepErr64, BOM_ne_newline, hw, reportIf, errorCalls, hne2]
        · simp [stepErr64, BOM_ne_newline, hw, reportIf, reportError, he1, errorCalls,
            GoError.isInvalidCodePoint, hne2]
      · subst h
        simp [stepErr64, RuneError_ne_newline, RuneError_ne_BOM, reportIf, reportError, he1,
          errorCalls, GoError.isInvalidCodePoint]
        omega

/-- The error of a step that decoded a skipped unit is the anomaly of that unit. -/
theorem stepErr_eq_anomaly (r : UTF8Reader) (c : Int) (s : Nat) (hc : skips c = true)
    (hb : c = BOM → s = 3) : stepErr r c s = anomaly (c, s, r.Offset) := by
  have hc2 : c = BOM ∨ c = RuneError := by
    simpa [skips, IsBOM, IsReplacementCharacter] using hc
  rcases hc2 with h | h
  · have hs := hb h
    subst h hs
    by_cases h0 : r.Offset = 0
    · simp [stepErr, anomaly, BOM_ne_newline, h0]
    · simp [stepErr, anomaly, BOM_ne_newline, h0]
  · subst h
    simp [stepErr, anomaly, RuneError_ne_newline, RuneError_ne_BOM]

theorem skippedUnits_cons (r : UTF8Reader) (c : Int) (s : Nat) (hne : r.reader.buf ≠ [])
    (hr : r.reader.ReadRune = (c, s, none, ⟨r.reader.buf.drop s, r.reader.err⟩)) (hs : 1 ≤ s)
    (hc : skips c = true) :
    skippedUnits r = (c, s, r.Offset)
      :: skippedUnits (counted r c s ⟨r.reader.buf.drop s, r.reader.err⟩) := by
  simp [skippedUnits, decoded_cons _ c s hne hr hs, hc, located, counted]

theorem skippedUnits_stop (r : UTF8Reader) (c : Int) (s : Nat) (hne : r.reader.buf ≠ [])
    (hr : r.reader.ReadRune = (c, s, none, ⟨r.reader.buf.drop s, r.reader.err⟩)) (hs : 1 ≤ s)
    (hc : skips c = false) : skippedUnits r = [] := by
  simp [skippedUnits, decoded_cons _ c s hne hr hs, hc, located]

theorem skippedUnits_nil (r : UTF8Reader) (h : r.reader.buf = []) : skippedUnits r = [] := by
  simp [skippedUnits, decoded_nil _ h, located]

/-- What `Read` reports and where it leaves the reader, in terms of the units it skips:
with an `Error` delegate, the delegate gets the anomalies of the skipped units, in order,
and a returning `Read` has no other effect; the offset grows by the widths of the skipped
units and by the size returned; and the delegates stay as they were. -/
theorem Read_reports (r : UTF8Reader) :
    ∃ o, Read r = some o ∧
      (r.Error = true → errorCalls o.effects = (skippedUnits r).filterMap anomaly) ∧
      (r.Error = true → ∀ (c s : Int) (e : Option GoError) (r1 : UTF8Reader) (es : List Effect),
        o = Outcome.ret c s e r1 es → es.length = (errorCalls es).length) ∧
      o.reader.Offset = r.Offset + (((skippedUnits r).map (fun u => (u.2.1 : Int))).sum) + o.size ∧
      o.reader.Error = r.Error ∧ o.reader.FatalError = r.FatalError := by
  apply Read_induct
    (fun r o =>
      (r.Error = true → errorCalls o.effects = (skippedUnits r).filterMap anomaly) ∧
      (r.Error = true → ∀ (c s : Int) (e : Option GoError) (r1 : UTF8Reader) (es : List Effect),
        o = Outcome.ret c s e r1 es → es.length = (errorCalls es).length) ∧
      o.reader.Offset = r.Offset + (((skippedUnits r).map (fun u => (u.2.1 : Int))).sum) + o.size ∧
      o.reader.Error = r.Error ∧ o.reader.FatalError = r.FatalError)
  · intro r h0 _
    refine ⟨fun _ => by simp [skippedUnits_nil r h0, Outcome.effects, errorCalls], ?_, ?_, rfl, rfl⟩
    · intro _ c s e r1 es h
      cases h
      rfl
    · simp [skippedUnits_nil r h0, Outcome.reader, Outcome.size]
  · intro r id h0 _
    refine ⟨fun _ => ?_, ?_, ?_, rfl, rfl⟩
    · by_cases hf : r.FatalError = true <;>
        simp [skippedUnits_nil r h0, Outcome.effects, errorCalls, hf]
    · intro _ c s e r1 es h
      cases h
    · simp [skippedUnits_nil r h0, Outcome.reader, Outcome.size]
  · intro r c s hne hr hs1 _ hc
    refine ⟨fun _ => by simp [skippedUnits_stop r c s hne hr hs1 hc, Outcome.effects, errorCalls],
      ?_, ?_, rfl, rfl⟩
    · intro _ c1 s1 e r1 es h
      cases h
      rfl
    · simp [skippedUnits_stop r c s hne hr hs1 hc, Outcome.reader, Outcome.size, counted]
  · intro r c s o hne hr hs1 _ hb hc _ hP
    obtain ⟨p1, p2, p3, p4, p5⟩ := hP
    rw [skippedUnits_cons r c s hne hr hs1 hc]
    refine ⟨?_, ?_, ?_, ?_, ?_⟩
    · intro he
      have he1 : (counted r c s ⟨r.reader.buf.drop s, r.reader.err⟩).Error = true := he
      rw [Outcome.after_effects, errorCalls_append, p1 he1, List.filterMap_cons,
        ← stepErr_eq_anomaly r c s hc hb]
      cases hse : stepErr r c s with
      | none => simp [reportIf, errorCalls]
      | some e0 => simp [reportIf, reportError, he1, errorCalls]
    · intro he c1 s1 e r1 es h
      have he1 : (counted r c s ⟨r.reader.buf.drop s, r.reader.err⟩).Error = true := he
      cases o with
      | panic e2 r2 es2 => cases h
      | ret c2 s2 e2 r2 es2 =>
        simp only [Outcome.after] at h
        injection h with _ _ _ _ hes
        subst hes
        rw [errorCalls_append, List.length_append, List.length_append,
          p2 he1 c2 s2 e2 r2 es2 rfl]
        cases hse : stepErr r c s with
        | none => simp [reportIf, errorCalls]
        | some e0 => simp [reportIf, reportError, he1, errorCalls]
    · rw [Outcome.after_reader, Outcome.after_size, p3]
      simp only [counted, List.map_cons, List.sum_cons]
      omega
    · rw [Outcome.after_reader, p4]
      rfl
    · rw [Outcome.after_reader, p5]
      rfl

/-! ## Byte order marks in front of the input -/

theorem ReadRune_BOM (rest : List Byte) (err : Option Nat) :
    BufioReader.ReadRune ⟨0xEF :: 0xBB :: 0xBF :: rest, err⟩ = (BOM, 3, none, ⟨rest, err⟩) := by
  have h1 : ((0xEF : Byte).val ≥ RuneSelf) := by decide
  have h2 : DecodeRune (0xEF :: 0xBB :: 0xBF :: rest) = (BOM, 3) := by
    have hf : first (0xEF : Byte) = s3 := by decide
    have v0 : (0xEF : Byte).val = 239 := rfl
    have v1 : (0xBB : Byte).val = 187 := rfl
    have v2 : (0xBF : Byte).val = 191 := rfl
    simp only [DecodeRune, List.getD_cons_zero, List.getD_cons_succ, hf, List.length_cons]
    simp [s3, as, and7_s3, acceptRanges, locb, hicb, dec3, BOM, v0, v1, v2]
  simp [BufioReader.ReadRune, h1, h2]

theorem decoded_boms (k : Nat) (tail : List Byte) (err : Option Nat) :
    BufioReader.decoded ⟨boms k tail, err⟩
      = List.replicate k (BOM, 3) ++ BufioReader.decoded ⟨tail, err⟩ := by
  induction k with
  | zero => simp [boms]
  | succ n ih =>
    have h := decoded_cons ⟨boms (n + 1) tail, err⟩ BOM 3 (by simp [boms])
      (by simpa [boms] using ReadRune_BOM (boms n tail) err) (by omega)
    rw [h]
    simp [boms, ih, List.replicate_succ]

theorem anomaly_located_boms (k : Nat) (off : Int) (h : 0 < off) :
    (located off (List.replicate k (BOM, 3))).filterMap anomaly
      = (List.range k).map (fun (i : Nat) => GoError.InvalidBOM (off + 3 * (i : Int))) := by
  induction k generalizing off with
  | zero => simp [located]
  | succ n ih =>
    have h0 : off ≠ 0 := by omega
    rw [List.replicate_succ, located, List.filterMap_cons, List.range_succ_eq_map, List.map_cons,
      List.map_map, ih (off + ((3 : Nat) : Int)) (by omega)]
    simp only [anomaly, h0, if_true, if_false]
    simp only [List.cons.injEq, GoError.InvalidBOM.injEq]
    refine ⟨by simp, ?_⟩
    apply List.map_congr_left
    intro i _
    simp only [Function.comp, GoError.InvalidBOM.injEq]
    push_cast
    ring

theorem skips_BOM : skips BOM = true := by decide

theorem find_returnable_boms (k : Nat) (l : List (Int × Nat)) :
    (List.replicate k (BOM, 3) ++ l).find? returnable = l.find? returnable := by
  induction k with
  | zero => simp
  | succ n ih =>
    rw [List.replicate_succ, List.cons_append, find_returnable_cons_skip BOM 3 _ skips_BOM, ih]

theorem takeWhile_skips_boms (k : Nat) (c : Int) (s : Nat) (l : List (Int × Nat))
    (hc : skips c = false) :
    (List.replicate k (BOM, 3) ++ (c, s) :: l).takeWhile (fun u => skips u.1)
      = List.replicate k (BOM, 3) := by
  induction k with
  | zero => simp [hc]
  | succ n ih => simp [List.replicate_succ, skips_BOM, ih]

theorem filter_isInvalidBOM_anomaly (l : List (Int × Nat × Int)) :
    (l.filterMap anomaly).filter GoError.isInvalidBOM
      = (l.filter (fun u => decide (u.1 = BOM) && decide (u.2.2 ≠ 0))).map
          (fun u => GoError.InvalidBOM u.2.2) := by
  induction l with
  | nil => rfl
  | cons u t ih =>
    obtain ⟨c, s, off⟩ := u
    by_cases h1 : c = BOM
    · by_cases h2 : off = 0
      · simp [anomaly, h1, h2, ih]
      · simp [anomaly, h1, h2, ih, GoError.isInvalidBOM]
    · by_cases h3 : c = RuneError
      · simp [anomaly, h1, h3, ih, GoError.isInvalidBOM, RuneError_ne_BOM]
      · simp [anomaly, h1, h3, ih]

/-- With the arithmetic of the integers: the first `Read` on a fresh reader with an `Error`
delegate, over `k ≥ 1` byte order marks followed by input whose first code point `c` is
neither U+FEFF nor U+FFFD, returns `c` after the `Error` calls for the BOMs at offsets 3, 6,
..., `3 (k - 1)`; and a `Read` with an `Error` delegate makes one invalid-BOM call for each
skipped BOM that does not start at offset 0, and never returns U+FEFF. -/
theorem Read_skips_BOMs :
    (∀ (k : Nat) (tail : List Byte) (err : Option Nat) (fatal : Bool) (c : Int) (s : Nat)
      (rd : BufioReader), 1 ≤ k →
      BufioReader.ReadRune ⟨tail, err⟩ = (c, s, none, rd) → c ≠ BOM → c ≠ RuneError →
        ∃ r1 es, Read (configured ⟨boms k tail, err⟩ true fatal)
            = some (Outcome.ret c s none r1 es) ∧
          es.length = k - 1 ∧
          errorCalls es
            = (List.range (k - 1)).map (fun (i : Nat) => GoError.InvalidBOM (3 * ((i : Int) + 1)))) ∧
    (∀ r : UTF8Reader, r.Error = true →
      ∃ o, Read r = some o ∧
        (errorCalls o.effects).filter GoError.isInvalidBOM
          = ((skippedUnits r).filter (fun u => decide (u.1 = BOM) && decide (u.2.2 ≠ 0))).map
              (fun u => GoError.InvalidBOM u.2.2) ∧
        ∀ (c s : Int) (e : Option GoError) (r1 : UTF8Reader) (es : List Effect),
          o = Outcome.ret c s e r1 es → c ≠ BOM) := by
  constructor
  · intro k tail err fatal c s rd hk hr hc1 hc2
    have hne : tail ≠ [] := by
      intro h0
      rw [ReadRune_nil ⟨tail, err⟩ h0] at hr
      cases hr
    obtain ⟨c1, s1, hr1, hs1, _, _⟩ := ReadRune_cons ⟨tail, err⟩ hne
    have hcs : c1 = c ∧ s1 = s := by
      rw [hr1] at hr
      simp only [Prod.mk.injEq] at hr
      exact ⟨hr.1, hr.2.1⟩
    obtain ⟨e1, e2⟩ := hcs
    subst e1 e2
    have hskip : skips c1 = false := (skips_false_iff c1).mpr ⟨hc1, hc2⟩
    have hdec := decoded_cons ⟨tail, err⟩ c1 s1 hne hr1 hs1
    have hd : BufioReader.decoded ⟨boms k tail, err⟩
        = List.replicate k (BOM, 3) ++ (c1, s1) :: BufioReader.decoded ⟨tail.drop s1, err⟩ := by
      rw [decoded_boms, hdec]
    obtain ⟨r1, es, hread⟩ := (Read_result (configured ⟨boms k tail, err⟩ true fatal)).1 c1 s1
      (by
        show (BufioReader.decoded ⟨boms k tail, err⟩).find? returnable = some (c1, s1)
        rw [hd, find_returnable_boms, find_returnable_cons_stop c1 s1 _ hskip])
    obtain ⟨o, ho, p1, p2, _⟩ := Read_reports (configured ⟨boms k tail, err⟩ true fatal)
    rw [hread] at ho
    injection ho with ho
    subst ho
    have hcalls := p1 rfl
    have hlen := p2 rfl c1 s1 none r1 es rfl
    have hsk : skippedUnits (configured ⟨boms k tail, err⟩ true fatal)
        = located 0 (List.replicate k (BOM, 3)) := by
      show located 0 ((BufioReader.decoded ⟨boms k tail, err⟩).takeWhile (fun u => skips u.1)) = _
      rw [hd, takeWhile_skips_boms k c1 s1 _ hskip]
    obtain ⟨n, hn⟩ : ∃ n, k = n + 1 := ⟨k - 1, by omega⟩
    subst hn
    have hcalls2 : errorCalls es
        = (List.range n).map (fun (i : Nat) => GoError.InvalidBOM (3 * ((i : Int) + 1))) := by
      simp only [Outcome.effects] at hcalls
      rw [hcalls, hsk, List.replicate_succ, located, List.filterMap_cons]
      have h0 : anomaly (BOM, 3, 0) = none := by simp [anomaly]
      rw [h0]
      simp only
      rw [anomaly_located_boms n _ (by norm_num)]
      apply List.map_congr_left
      intro i _
      simp only [GoError.InvalidBOM.injEq]
      push_cast
      ring
    refine ⟨r1, es, hread, ?_, ?_⟩
    · rw [hlen, hcalls2]
      simp
    · simpa using hcalls2
  · intro r he
    obtain ⟨o, ho, p1, _⟩ := Read_reports r
    refine ⟨o, ho, ?_, ?_⟩
    · rw [p1 he, filter_isInvalidBOM_anomaly]
    · intro c s e r1 es h
      subst h
      exact ((Read_result r).2.2 c s e r1 es ho).1

/-- C4: for every `k ≥ 1`, the first `Read` on a fresh reader with an `Error` delegate, over
`k` byte order marks followed by input whose first code point `c` is neither U+FEFF nor
U+FFFD (fewer than `MaxInt` bytes in all), returns `c` with its size and a nil error after
exactly `k - 1` effects, which are the `Error` calls for the BOMs at offsets 3, 6, ...,
`3 (k - 1)`; and in general a `Read` with an `Error` delegate ends and never returns
U+FEFF, in any state, and from a state whose counters have room for the bytes still in the
source it makes one invalid-BOM call for each skipped BOM that does not start at offset 0,
in stream order. -/
theorem BOMs_are_skipped_and_reported :
    (∀ (k : Nat) (tail : List Byte) (err : Option Nat) (fatal : Bool) (c : Int) (s : Nat)
      (rd : BufioReader), 1 ≤ k → ((boms k tail).length : Int) < MaxInt →
      BufioReader.ReadRune ⟨tail, err⟩ = (c, s, none, rd) → c ≠ BOM → c ≠ RuneError →
        ∃ r1 es, Read64 (configured ⟨boms k tail, err⟩ true fatal)
            = some (Outcome.ret c s none r1 es) ∧
          es.length = k - 1 ∧
          errorCalls es
            = (List.range (k - 1)).map (fun (i : Nat) => GoError.InvalidBOM (3 * ((i : Int) + 1)))) ∧
    (∀ r : UTF8Reader, r.Error = true →
      ∃ o, Read64 r = some o ∧
        (hasRoom r →
          (errorCalls o.effects).filter GoError.isInvalidBOM
            = ((skippedUnits r).filter (fun u => decide (u.1 = BOM) && decide (u.2.2 ≠ 0))).map
                (fun u => GoError.InvalidBOM u.2.2)) ∧
        ∀ (c s : Int) (e : Option GoError) (r1 : UTF8Reader) (es : List Effect),
          o = Outcome.ret c s e r1 es → c ≠ BOM) := by
  constructor
  · intro k tail err fatal c s rd hk hlen hr hc1 hc2
    rw [Read64_eq_Read _ (hasRoom_configured ⟨boms k tail, err⟩ true fatal hlen)]
    exact Read_skips_BOMs.1 k tail err fatal c s rd hk hr hc1 hc2
  · intro r he
    obtain ⟨o, ho, p1, _⟩ := Read64_returns r
    refine ⟨o, ho, ?_, fun c s e r1 es h => (p1 c s e r1 es h).1⟩
    intro hroom
    obtain ⟨o1, ho1, q, _⟩ := Read_skips_BOMs.2 r he
    rw [Read64_eq_Read r hroom, ho1] at ho
    injection ho with ho
    subst ho
    exact q

/-- Witness for C4: three byte order marks and then `"poly"` give `'p'` (`TestReadSkipBOM`),
after exactly two `Error` calls, for the BOMs at offsets 3 and 6. -/
theorem BOMs_are_skipped_and_reported_witness :
    Read64 (configured ⟨boms 3 (bytes [0x70, 0x6F, 0x6C, 0x79]), none⟩ true false)
      = some (Outcome.ret 0x70 1 none
          ⟨⟨1, 1, 10⟩, ⟨bytes [0x6F, 0x6C, 0x79], none⟩, true, false⟩
          [Effect.Error ⟨⟨1, 0, 6⟩, ⟨boms 1 (bytes [0x70, 0x6F, 0x6C, 0x79]), none⟩, true, false⟩
              (GoError.InvalidBOM 3),
            Effect.Error ⟨⟨1, 0, 9⟩, ⟨bytes [0x70, 0x6F, 0x6C, 0x79], none⟩, true, false⟩
              (GoError.InvalidBOM 6)]) ∧
    ∃ r1 es, Read64 (configured ⟨boms 3 (bytes [0x70, 0x6F, 0x6C, 0x79]), none⟩ true false)
        = some (Outcome.ret 0x70 (1 : Nat) none r1 es) ∧
      es.length = 3 - 1 ∧
      errorCalls es
        = (List.range (3 - 1)).map (fun (i : Nat) => GoError.InvalidBOM (3 * ((i : Int) + 1))) :=
  ⟨by decide,
    BOMs_are_skipped_and_reported.1 3 (bytes [0x70, 0x6F, 0x6C, 0x79]) none false 0x70 1
      ⟨bytes [0x6F, 0x6C, 0x79], none⟩ (by decide) (by decide) (by decide) (by decide)
      (by decide)⟩

/-! ## Malformed input -/

theorem filter_isInvalidCodePoint_anomaly (l : List (Int × Nat × Int)) :
    (l.filterMap anomaly).filter GoError.isInvalidCodePoint
      = (l.filter (fun u => decide (u.1 = RuneError))).map
          (fun u => GoError.InvalidCodePoint RuneError u.2.2) := by
  induction l with
  | nil => rfl
  | cons u t ih =>
    obtain ⟨c, s, off⟩ := u
    by_cases h1 : c = BOM
    · by_cases h2 : off = 0
      · simp [anomaly, h1, h2, ih, BOM_ne_RuneError]
      · simp [anomaly, h1, h2, ih, GoError.isInvalidCodePoint, BOM_ne_RuneError]
    · by_cases h3 : c = RuneError
      · simp [anomaly, h3, ih, GoError.isInvalidCodePoint, RuneError_ne_BOM]
      · simp [anomaly, h1, h3, ih]

/-- The widths of the decoded stream add up to the number of bytes. -/
theorem decoded_widths (b : BufioReader) :
    ((b.decoded.map (fun u => (u.2 : Int))).sum) = b.buf.length := by
  generalize hn : b.buf.length = n
  induction n using Nat.strong_induction_on generalizing b with
  | _ n ih =>
    by_cases hb : b.buf = []
    · rw [decoded_nil b hb]
      rw [hb] at hn
      simp at hn
      simp [← hn]
    · obtain ⟨c, s, hr, hs1, hs2, _⟩ := ReadRune_cons b hb
      rw [decoded_cons b c s hb hr hs1, List.map_cons, List.sum_cons,
        ih (n - s) (by omega) ⟨b.buf.drop s, b.err⟩ (by simp only [List.length_drop]; omega)]
      simp only
      omega

theorem located_widths (off : Int) (l : List (Int × Nat)) :
    (located off l).map (fun u => (u.2.1 : Int)) = l.map (fun u => (u.2 : Int)) := by
  induction l generalizing off with
  | nil => rfl
  | cons u t ih =>
    obtain ⟨c, s⟩ := u
    simp [located, ih]

theorem takeWhile_skips_all (l : List (Int × Nat)) (h : ∀ u ∈ l, u.1 = RuneError) :
    l.takeWhile (fun u => skips u.1) = l := by
  induction l with
  | nil => rfl
  | cons u t ih =>
    have hu : u.1 = RuneError := h u (List.mem_cons_self _ _)
    have hs : skips u.1 = true := by rw [hu]; decide
    simp only [List.takeWhile_cons, hs, if_true, ih (fun v hv => h v (List.mem_cons_of_mem _ hv))]

theorem find_returnable_all (l : List (Int × Nat)) (h : ∀ u ∈ l, u.1 = RuneError) :
    l.find? returnable = none := by
  induction l with
  | nil => rfl
  | cons u t ih =>
    obtain ⟨c, s⟩ := u
    have hu : c = RuneError := h (c, s) (List.mem_cons_self _ _)
    have hs : skips c = true := by rw [hu]; decide
    rw [find_returnable_cons_skip c s t hs, ih (fun v hv => h v (List.mem_cons_of_mem _ hv))]

theorem anomaly_located_all (off : Int) (l : List (Int × Nat)) (h : ∀ u ∈ l, u.1 = RuneError) :
    ((located off l).filterMap anomaly).length = l.length := by
  induction l generalizing off with
  | nil => rfl
  | cons u t ih =>
    obtain ⟨c, s⟩ := u
    have hu : c = RuneError := h (c, s) (List.mem_cons_self _ _)
    subst hu
    simp [located, anomaly, RuneError_ne_BOM, ih _ (fun v hv => h v (List.mem_cons_of_mem _ hv))]

/-- With the arithmetic of the integers: a `Read` with an `Error` delegate makes one
invalid-code-point call for each unit decoded as U+FFFD that it skips, its `Offset` grows by
the width of every skipped unit and by the size it returns, and it never returns U+FFFD; and
over nothing but such units it returns `io.EOF` with `Offset` the length of the input. -/
theorem Read_skips_malformed :
    (∀ r : UTF8Reader, r.Error = true →
      ∃ o, Read r = some o ∧
        (errorCalls o.effects).filter GoError.isInvalidCodePoint
          = ((skippedUnits r).filter (fun u => decide (u.1 = RuneError))).map
              (fun u => GoError.InvalidCodePoint RuneError u.2.2) ∧
        o.reader.Offset
          = r.Offset + ((skippedUnits r).map (fun u => (u.2.1 : Int))).sum + o.size ∧
        ∀ (c s : Int) (e : Option GoError) (r1 : UTF8Reader) (es : List Effect),
          o = Outcome.ret c s e r1 es → c ≠ RuneError) ∧
    (∀ (b : BufioReader) (fatal : Bool), b.err = none → (∀ u ∈ b.decoded, u.1 = RuneError) →
      ∃ r1 es, Read (configured b true fatal)
          = some (Outcome.ret 0 0 (some GoError.EOF) r1 es) ∧
        es.length = b.decoded.length ∧ (errorCalls es).length = b.decoded.length ∧
        r1.Offset = b.buf.length) := by
  constructor
  · intro r he
    obtain ⟨o, ho, p1, _, p3, _⟩ := Read_reports r
    refine ⟨o, ho, ?_, p3, ?_⟩
    · rw [p1 he, filter_isInvalidCodePoint_anomaly]
    · intro c s e r1 es h
      subst h
      exact ((Read_result r).2.2 c s e r1 es ho).2
  · intro b fatal herr hall
    obtain ⟨r1, es, hread⟩ := (Read_result (configured b true fatal)).2.1
      (find_returnable_all _ hall) herr
    obtain ⟨o, ho, p1, p2, p3, _⟩ := Read_reports (configured b true fatal)
    rw [hread] at ho
    injection ho with ho
    subst ho
    have hsk : skippedUnits (configured b true fatal) = located 0 b.decoded := by
      show located 0 (b.decoded.takeWhile (fun u => skips u.1)) = _
      rw [takeWhile_skips_all _ hall]
    have hcalls : (errorCalls es).length = b.decoded.length := by
      have := p1 rfl
      simp only [Outcome.effects] at this
      rw [this, hsk, anomaly_located_all 0 _ hall]
    refine ⟨r1, es, hread, ?_, hcalls, ?_⟩
    · rw [p2 rfl 0 0 _ r1 es rfl, hcalls]
    · simp only [Outcome.reader, Outcome.size] at p3
      rw [p3, hsk, located_widths, decoded_widths]
      simp [configured, NewUTF8Reader]

/-- C5: a `Read` with an `Error` delegate, in any state, ends, makes exactly one
invalid-code-point call for each unit decoded as U+FFFD that it skips, and never returns
U+FFFD; from a state whose counters have room for the bytes still in the source, those
calls come in stream order and name the offset at which the unit starts, and `Offset` grows
by the width of every skipped unit and by the size returned. In particular, when the
decoded input is nothing but `n` units decoded as U+FFFD (fewer than `MaxInt` bytes) and
the source ends with `io.EOF`, the first `Read`
returns `(0, 0, io.EOF)` after exactly `n` effects, all of them `Error` calls, with `Offset`
equal to the length of the input. -/
theorem malformed_units_are_skipped_and_reported :
    (∀ r : UTF8Reader, r.Error = true →
      ∃ o, Read64 r = some o ∧
        ((errorCalls o.effects).filter GoError.isInvalidCodePoint).length
          = ((r.reader.decoded.takeWhile (fun u => skips u.1)).filter
              (fun u => decide (u.1 = RuneError))).length ∧
        (hasRoom r →
          (errorCalls o.effects).filter GoError.isInvalidCodePoint
            = ((skippedUnits r).filter (fun u => decide (u.1 = RuneError))).map
                (fun u => GoError.InvalidCodePoint RuneError u.2.2) ∧
          o.reader.Offset
            = r.Offset + ((skippedUnits r).map (fun u => (u.2.1 : Int))).sum + o.size) ∧
        ∀ (c s : Int) (e : Option GoError) (r1 : UTF8Reader) (es : List Effect),
          o = Outcome.ret c s e r1 es → c ≠ RuneError) ∧
    (∀ (b : BufioReader) (fatal : Bool), b.err = none → (∀ u ∈ b.decoded, u.1 = RuneError) →
      (b.buf.length : Int) < MaxInt →
      ∃ r1 es, Read64 (configured b true fatal)
          = some (Outcome.ret 0 0 (some GoError.EOF) r1 es) ∧
        es.length = b.decoded.length ∧ (errorCalls es).length = b.decoded.length ∧
        r1.Offset = b.buf.length) := by
  constructor
  · intro r he
    obtain ⟨o, ho, p1, p2⟩ := Read64_returns r
    refine ⟨o, ho, p2 he, ?_, fun c s e r1 es h => (p1 c s e r1 es h).2.1⟩
    intro hroom
    obtain ⟨o1, ho1, q1, q2, _⟩ := Read_skips_malformed.1 r he
    rw [Read64_eq_Read r hroom, ho1] at ho
    injection ho with ho
    subst ho
    exact ⟨q1, q2⟩
  · intro b fatal herr hall hlen
    rw [Read64_eq_Read _ (hasRoom_configured b true fatal hlen)]
    exact Read_skips_malformed.2 b fatal herr hall

/-- Witness for C5: on `"\xf0\x8c"` (`TestReadSkipInvalidAndEmpty`) the first `Read` returns
`io.EOF` after exactly two `Error` calls, one for each byte, and `Offset` is 2. -/
theorem malformed_units_are_skipped_and_reported_witness :
    Read64 (configured ⟨bytes [0xF0, 0x8C], none⟩ true false)
      = some (Outcome.ret 0 0 (some GoError.EOF) ⟨⟨1, 2, 2⟩, ⟨[], none⟩, true, false⟩
          [Effect.Error ⟨⟨1, 1, 1⟩, ⟨bytes [0x8C], none⟩, true, false⟩
              (GoError.InvalidCodePoint RuneError 0),
            Effect.Error ⟨⟨1, 2, 2⟩, ⟨[], none⟩, true, false⟩
              (GoError.InvalidCodePoint RuneError 1)]) ∧
    ∃ r1 es, Read64 (configured ⟨bytes [0xF0, 0x8C], none⟩ true false)
        = some (Outcome.ret 0 0 (some GoError.EOF) r1 es) ∧
      es.length = (BufioReader.decoded ⟨bytes [0xF0, 0x8C], none⟩).length ∧
      (errorCalls es).length = (BufioReader.decoded ⟨bytes [0xF0, 0x8C], none⟩).length ∧
      r1.Offset = ((bytes [0xF0, 0x8C]).length : Int) :=
  ⟨by decide,
    malformed_units_are_skipped_and_reported.2 ⟨bytes [0xF0, 0x8C], none⟩ false rfl (by decide)
      (by decide)⟩

/-! ## Widths of the decoded units -/

/-- The ranges of what `DecodeRune` returns: an invalid sequence is `(RuneError, 1)`, and a
code point decoded from `s` bytes lies in the range of the `s`-byte encodings. -/
theorem DecodeRune_range (p : List Byte) (hp : p ≠ []) (c : Int) (s : Nat)
    (h : DecodeRune p = (c, s)) :
    (c = 0xFFFD ∧ s = 1) ∨ (s = 1 ∧ 0 ≤ c ∧ c ≤ 0x7F) ∨ (s = 2 ∧ 0x80 ≤ c ∧ c ≤ 0x7FF) ∨
    (s = 3 ∧ 0x800 ≤ c ∧ c ≤ 0xFFFF ∧ ¬ (0xD800 ≤ c ∧ c ≤ 0xDFFF)) ∨
    (s = 4 ∧ 0x10000 ≤ c ∧ c ≤ 0x10FFFF) := by
  have hlen : 1 ≤ p.length := by
    cases p with
    | nil => exact absurd rfl hp
    | cons a t => simp
  have hf := first_cases (p.getD 0 0)
  unfold DecodeRune at h
  dsimp only at h
  generalize p.getD 0 0 = b0 at hf h
  generalize p.getD 1 0 = b1 at h
  generalize p.getD 2 0 = b2 at h
  generalize p.getD 3 0 = b3 at h
  generalize first b0 = x at hf h
  simp only [as, xx, s1, s2, s3, s4, s5, s6, s7] at hf
  rcases hf with ⟨hx, hr⟩ | ⟨hx, hr⟩ | ⟨hx, hr⟩ | ⟨hx, hr⟩ | ⟨hx, hr⟩ | ⟨hx, hr⟩ | ⟨hx, hr⟩
      | ⟨hx, hr⟩ | ⟨hx, hr⟩ <;>
    subst hx <;>
    simp only [as, acceptRanges, and7_s1, and7_s2, and7_s3, and7_s4, and7_s5, and7_s6, and7_s7,
      dec2, dec3, dec4, RuneError, locb, hicb] at h <;>
    norm_num at h <;>
    (split_ifs at h <;> simp only [Prod.mk.injEq] at h <;> obtain ⟨hc, hs⟩ := h <;>
      subst hc hs <;> first | omega | contradiction)

/-- What `DecodeRune` returns is an invalid sequence, `(RuneError, 1)`, or a code point
together with the length of its UTF-8 encoding. -/
theorem DecodeRune_RuneLen (p : List Byte) (hp : p ≠ []) :
    ((DecodeRune p).1 = RuneError ∧ (DecodeRune p).2 = 1) ∨
      RuneLen (DecodeRune p).1 = (DecodeRune p).2 := by
  have h := DecodeRune_range p hp (DecodeRune p).1 (DecodeRune p).2 rfl
  generalize (DecodeRune p).1 = c at h ⊢
  generalize (DecodeRune p).2 = s at h ⊢
  simp only [RuneError, RuneLen]
  split_ifs <;> omega

theorem ReadRune_RuneLen (b rd : BufioReader) (c : Int) (s : Nat)
    (h : b.ReadRune = (c, s, none, rd)) : (c = RuneError ∧ s = 1) ∨ RuneLen c = s := by
  obtain ⟨l, e⟩ := b
  cases l with
  | nil => simp [BufioReader.ReadRune] at h
  | cons p0 t =>
    by_cases hp : p0.val ≥ RuneSelf
    · simp only [BufioReader.ReadRune, hp, if_true, Prod.mk.injEq] at h
      obtain ⟨h1, h2, _⟩ := h
      subst h1 h2
      exact DecodeRune_RuneLen (p0 :: t) (by simp)
    · simp only [BufioReader.ReadRune, hp, if_false, Prod.mk.injEq] at h
      obtain ⟨h1, h2, _⟩ := h
      subst h1 h2
      right
      simp only [RuneSelf, ge_iff_le, not_le] at hp
      simp only [RuneLen]
      split_ifs <;> omega

/-! ## Construction and classification -/

/-- C17: for every byte source, `NewUTF8Reader` returns a reader whose position is
`{Line: 1, Column: 0, Offset: 0}`, whose `Error` and `FatalError` delegates are both unset,
and whose buffered reader is the source as given, nothing of it consumed. -/
theorem NewUTF8Reader_initial (b : BufioReader) :
    (NewUTF8Reader b).toPosition = ⟨1, 0, 0⟩ ∧ (NewUTF8Reader b).Error = false ∧
      (NewUTF8Reader b).FatalError = false ∧ (NewUTF8Reader b).reader = b :=
  ⟨rfl, rfl, rfl, rfl⟩

/-- C18: `IsDecimal c` is true if and only if `c` is one of the ten ASCII digits `'0'` to
`'9'` (U+0030..U+0039); in particular a letter, a tab, a new line, the underscore, U+00BC
and a negative rune are rejected. -/
theorem IsDecimal_iff_ASCII_digit (c : Int) :
    (IsDecimal c = true ↔
      c ∈ ([0x30, 0x31, 0x32, 0x33, 0x34, 0x35, 0x36, 0x37, 0x38, 0x39] : List Int)) ∧
    IsDecimal 0x61 = false ∧ IsDecimal 0x09 = false ∧ IsDecimal 0x0A = false ∧
    IsDecimal 0x5F = false ∧ IsDecimal 0xBC = false ∧ IsDecimal (-1) = false := by
  refine ⟨?_, by decide, by decide, by decide, by decide, by decide, by decide⟩
  simp only [IsDecimal, Bool.and_eq_true, decide_eq_true_eq, List.mem_cons, List.mem_singleton,
    List.mem_nil_iff, or_false]
  constructor
  · intro h
    omega
  · intro h
    omega

/-! ## Replacement characters, and a leading byte order mark -/

/-- C12, as stated, fails in one point: the error does not carry the decoded byte size. The
stray byte of `"\xc3"` (size 1) and the well-formed `"\xef\xbf\xbd"` (size 3) come with the
very same error, the one for U+FFFD at position 0. -/
theorem replacement_error_counterexample :
    readRuneAndCount (fresh [0xC3])
      = Outcome.ret RuneError 1 (some (GoError.InvalidCodePoint RuneError 0))
          ⟨⟨1, 1, 1⟩, ⟨[], none⟩, false, false⟩ [] ∧
    readRuneAndCount (fresh [0xEF, 0xBF, 0xBD])
      = Outcome.ret RuneError 3 (some (GoError.InvalidCodePoint RuneError 0))
          ⟨⟨1, 1, 3⟩, ⟨[], none⟩, false, false⟩ [] ∧
    (1 : Int) ≠ 3 ∧
    readRuneAndCount64 (fresh [0xC3])
      = Outcome.ret RuneError 1 (some (GoError.InvalidCodePoint RuneError 0))
          ⟨⟨1, 1, 1⟩, ⟨[], none⟩, false, false⟩ [] ∧
    readRuneAndCount64 (fresh [0xEF, 0xBF, 0xBD])
      = Outcome.ret RuneError 3 (some (GoError.InvalidCodePoint RuneError 0))
          ⟨⟨1, 1, 3⟩, ⟨[], none⟩, false, false⟩ [] := by
  decide

/-- C12, amended: a `readRuneAndCount` step whose `ReadRune` decodes U+FFFD returns U+FFFD
with the decoded byte size (1 for an invalid sequence, 3 for a well-formed U+FFFD) and a
non-nil, non-EOF error that carries the code point and the offset at which the sequence
began, which is `Offset` before the step; the step does `Column++` and `Offset += size` and
leaves `Line`: `Column` advances by 1 and `Offset` by the size, unless that takes them past
`MaxInt`, where the `int` wraps around; and without such an overflow `Offset` before the
step is `Offset` after it minus the size. -/
theorem replacement_step :
    (∀ (r : UTF8Reader) (s : Nat) (rd : BufioReader),
      r.reader.ReadRune = (RuneError, s, none, rd) →
        ∃ e r1, readRuneAndCount64 r = Outcome.ret RuneError s e r1 []) ∧
    (∀ (r r1 : UTF8Reader) (s : Int) (e : Option GoError) (es : List Effect),
      inRange r → readRuneAndCount64 r = Outcome.ret RuneError s e r1 es →
        e = some (GoError.InvalidCodePoint RuneError r.Offset) ∧ e ≠ none ∧
        e ≠ some GoError.EOF ∧ (s = 1 ∨ s = 3) ∧
        r1.Column = wrapInt (r.Column + 1) ∧ r1.Offset = wrapInt (r.Offset + s) ∧
        r.Offset = wrapInt (r1.Offset - s) ∧ r1.Line = r.Line ∧
        (r.Column < MaxInt → r1.Column = r.Column + 1) ∧
        (r.Offset + s ≤ MaxInt → r1.Offset = r.Offset + s ∧ r.Offset = r1.Offset - s)) := by
  constructor
  · intro r s rd h
    exact ⟨_, _, readRuneAndCount64_data r RuneError s rd h⟩
  · intro r r1 s e es hrange h
    obtain ⟨_, _, a3, a4, a5, a6⟩ := hrange
    rcases readRuneAndCount64_ret r r1 RuneError s e es h with
      ⟨_, _, hc, _⟩ | ⟨_, n, hs, _, _, _, hrr, he, hr, _⟩
    · exact absurd hc (by decide)
    · have hn : n = 1 ∨ n = 3 := by
        rcases ReadRune_RuneLen _ _ _ _ hrr with ⟨_, h1⟩ | h3
        · exact Or.inl h1
        · right
          have : RuneLen RuneError = 3 := by decide
          rw [this] at h3
          omega
      have w2 := wrapInt_add_sub r.Offset n a5 a6
      subst hs he hr
      simp only [stepErr64, counted64, RuneError_ne_newline, RuneError_ne_BOM, if_true, if_false,
        w2]
      refine ⟨trivial, by simp, by simp, ?_, trivial, trivial, trivial, trivial,
        fun hlt => wrapInt_eq _ (by omega) (by omega), ?_⟩
      · rcases hn with h1 | h3
        · left
          simp [h1]
        · right
          simp [h3]
      · intro hle
        have w1 : wrapInt (r.Offset + n) = r.Offset + n := wrapInt_eq _ (by omega) hle
        rw [w1]
        exact ⟨rfl, by omega⟩

/-- Witness for C12, amended: on `"\xc3poly"` (`TestReadRuneAndCountWithInvalidUnicode`) the
first step returns U+FFFD with size 1 and the error for position 0, at Column 1, Offset 1;
the next step returns `'p'` at Column 2, Offset 2. -/
theorem replacement_step_witness :
    readRunes64 2 (fresh [0xC3, 0x70, 0x6F, 0x6C, 0x79])
      = some ([(RuneError, 1, some (GoError.InvalidCodePoint RuneError 0)), (0x70, 1, none)],
          ⟨⟨1, 2, 2⟩, ⟨bytes [0x6F, 0x6C, 0x79], none⟩, false, false⟩) ∧
    (∃ e r1, readRuneAndCount64 (fresh [0xC3, 0x70, 0x6F, 0x6C, 0x79])
      = Outcome.ret RuneError (1 : Nat) e r1 []) ∧
    (⟨⟨1, 1, 1⟩, ⟨bytes [0x70, 0x6F, 0x6C, 0x79], none⟩, false, false⟩ : UTF8Reader).Column
      = (fresh [0xC3, 0x70, 0x6F, 0x6C, 0x79]).Column + 1 ∧
    ((⟨⟨1, 1, 1⟩, ⟨bytes [0x70, 0x6F, 0x6C, 0x79], none⟩, false, false⟩ : UTF8Reader).Offset
        = (fresh [0xC3, 0x70, 0x6F, 0x6C, 0x79]).Offset + 1 ∧
      (fresh [0xC3, 0x70, 0x6F, 0x6C, 0x79]).Offset
        = (⟨⟨1, 1, 1⟩, ⟨bytes [0x70, 0x6F, 0x6C, 0x79], none⟩, false, false⟩ : UTF8Reader).Offset
          - 1) :=
  ⟨by decide,
    replacement_step.1 (fresh [0xC3, 0x70, 0x6F, 0x6C, 0x79]) 1
      ⟨bytes [0x70, 0x6F, 0x6C, 0x79], none⟩ (by decide),
    (replacement_step.2 (fresh [0xC3, 0x70, 0x6F, 0x6C, 0x79])
      ⟨⟨1, 1, 1⟩, ⟨bytes [0x70, 0x6F, 0x6C, 0x79], none⟩, false, false⟩ 1
      (some (GoError.InvalidCodePoint RuneError 0)) [] (by decide)
      (by decide)).2.2.2.2.2.2.2.2.1 (by decide),
    (replacement_step.2 (fresh [0xC3, 0x70, 0x6F, 0x6C, 0x79])
      ⟨⟨1, 1, 1⟩, ⟨bytes [0x70, 0x6F, 0x6C, 0x79], none⟩, false, false⟩ 1
      (some (GoError.InvalidCodePoint RuneError 0)) [] (by decide)
      (by decide)).2.2.2.2.2.2.2.2.2 (by decide)⟩

/-- C15: when the input is one leading byte order mark followed by text whose first code
point `c` is not U+FEFF, U+FFFD or `'\n'`, the first `Read` on a fresh reader, with or
without delegates, returns `c` with its size `s` and a nil error, has no effect at all (no
`Error` call, nothing on `os.Stderr`), and leaves `Offset = BOMSize + s`, `Line = 1`,
`Column = 1`, with only the bytes after `c` still to read; `s` is the length of the UTF-8
encoding of `c`. -/
theorem leading_BOM_is_absorbed (tail : List Byte) (err : Option Nat) (error fatal : Bool)
    (c : Int) (s : Nat) (rd : BufioReader)
    (h : BufioReader.ReadRune ⟨tail, err⟩ = (c, s, none, rd))
    (h1 : c ≠ BOM) (h2 : c ≠ RuneError) (h3 : c ≠ 10) :
    Read (configured ⟨boms 1 tail, err⟩ error fatal)
      = some (Outcome.ret c s none ⟨⟨1, 1, BOMSize + s⟩, rd, error, fatal⟩ []) ∧
    (s : Int) = RuneLen c := by
  constructor
  · have hb : (configured ⟨boms 1 tail, err⟩ error fatal).reader.ReadRune
        = (BOM, 3, none, ⟨tail, err⟩) := ReadRune_BOM tail err
    have hskip : skips c = false := (skips_false_iff c).mpr ⟨h1, h2⟩
    rw [Read_eq, readRuneAndCount_data _ BOM 3 _ hb]
    simp only [skips_BOM, if_true]
    rw [Read_eq, readRuneAndCount_data _ c s rd h]
    simp [hskip, stepErr, counted, configured, NewUTF8Reader, reportIf, Outcome.after,
      BOM_ne_newline, h1, h2, h3, BOMSize]
  · rcases ReadRune_RuneLen _ _ _ _ h with ⟨hc, _⟩ | hl
    · exact absurd hc h2
    · exact hl.symm

/-- Witness for C15: a byte order mark and then `"poly"` give `'p'` with no effect, at
Line 1, Column 1, `Offset = BOMSize + 1`. -/
theorem leading_BOM_is_absorbed_witness :
    Read (configured ⟨boms 1 (bytes [0x70, 0x6F, 0x6C, 0x79]), none⟩ true false)
      = some (Outcome.ret 0x70 (1 : Nat) none
          ⟨⟨1, 1, BOMSize + (1 : Nat)⟩, ⟨bytes [0x6F, 0x6C, 0x79], none⟩, true, false⟩ []) ∧
    ((1 : Nat) : Int) = RuneLen 0x70 :=
  leading_BOM_is_absorbed (bytes [0x70, 0x6F, 0x6C, 0x79]) none true false 0x70 1
    ⟨bytes [0x6F, 0x6C, 0x79], none⟩ (by decide) (by decide) (by decide) (by decide)

/-! ## Read errors of the byte source -/

theorem fatalCalls_append (l1 l2 : List Effect) :
    fatalCalls (l1 ++ l2) = fatalCalls l1 ++ fatalCalls l2 := by
  induction l1 with
  | nil => rfl
  | cons a t ih => cases a <;> simp [fatalCalls, ih]

theorem reported_append (l1 l2 : List Effect) :
    reported (l1 ++ l2) = reported l1 ++ reported l2 := by
  induction l1 with
  | nil => rfl
  | cons a t ih => cases a <;> simp [reported, ih]

theorem fatalCalls_reportIf (r : UTF8Reader) (e : Option GoError) :
    fatalCalls (reportIf r e) = [] := by
  cases e with
  | none => rfl
  | some e0 =>
    by_cases h : r.Error = true <;> simp [reportIf, reportError, h, fatalCalls]

theorem reported_reportIf (r : UTF8Reader) (e : Option GoError) :
    reported (reportIf r e) = e.toList := by
  cases e with
  | none => rfl
  | some e0 =>
    by_cases h : r.Error = true <;> simp [reportIf, reportError, h, reported]

theorem stepErr_kind (r : UTF8Reader) (c : Int) (s : Nat) (x : GoError)
    (h : x ∈ (stepErr r c s).toList) : x.isInvalidBOM = true ∨ x.isInvalidCodePoint = true := by
  unfold stepErr at h
  split_ifs at h <;> simp at h <;> subst h <;> simp [GoError.isInvalidBOM, GoError.isInvalidCodePoint]

/-- How `Read` deals with a read error of the source: it panics only with such an error,
after one call of the `FatalError` delegate if there is one; a returning `Read` never calls
that delegate; and what is reported as not fatal is an encoding anomaly. -/
theorem Read_fatal (r : UTF8Reader) :
    ∃ o, Read r = some o ∧
      (∀ (c s : Int) (e : Option GoError) (r1 : UTF8Reader) (es : List Effect),
        o = Outcome.ret c s e r1 es → fatalCalls es = []) ∧
      (∀ (e : GoError) (r1 : UTF8Reader) (es : List Effect), o = Outcome.panic e r1 es →
        (∃ id, r.reader.err = some id ∧ e = GoError.ReadError id) ∧
        fatalCalls es = (if r.FatalError then [e] else [])) ∧
      (∀ x ∈ reported o.effects, x.isInvalidBOM = true ∨ x.isInvalidCodePoint = true) ∧
      (r.reader.decoded.find? returnable = none → ∀ id, r.reader.err = some id →
        ∃ r1 es, o = Outcome.panic (GoError.ReadError id) r1 es) := by
  apply Read_induct
    (fun r o =>
      (∀ (c s : Int) (e : Option GoError) (r1 : UTF8Reader) (es : List Effect),
        o = Outcome.ret c s e r1 es → fatalCalls es = []) ∧
      (∀ (e : GoError) (r1 : UTF8Reader) (es : List Effect), o = Outcome.panic e r1 es →
        (∃ id, r.reader.err = some id ∧ e = GoError.ReadError id) ∧
        fatalCalls es = (if r.FatalError then [e] else [])) ∧
      (∀ x ∈ reported o.effects, x.isInvalidBOM = true ∨ x.isInvalidCodePoint = true) ∧
      (r.reader.decoded.find? returnable = none → ∀ id, r.reader.err = some id →
        ∃ r1 es, o = Outcome.panic (GoError.ReadError id) r1 es))
  · intro r _ he
    refine ⟨?_, ?_, ?_, ?_⟩
    · intro c s e r1 es h
      cases h
      rfl
    · intro e r1 es h
      cases h
    · intro x hx
      simp [Outcome.effects, reported] at hx
    · intro _ id hid
      rw [he] at hid
      cases hid
  · intro r id _ he
    refine ⟨?_, ?_, ?_, ?_⟩
    · intro c s e r1 es h
      cases h
    · intro e r1 es h
      injection h with h1 h2 h3
      subst h1 h3
      refine ⟨⟨id, he, rfl⟩, ?_⟩
      by_cases hf : r.FatalError = true <;> simp [hf, fatalCalls]
    · intro x hx
      by_cases hf : r.FatalError = true <;> simp [Outcome.effects, reported, hf] at hx
    · intro _ id2 hid
      rw [he] at hid
      injection hid with hid
      subst hid
      exact ⟨_, _, rfl⟩
  · intro r c s hne hr hs1 _ hc
    refine ⟨?_, ?_, ?_, ?_⟩
    · intro c1 s1 e r1 es h
      cases h
      rfl
    · intro e r1 es h
      cases h
    · intro x hx
      simp [Outcome.effects, reported] at hx
    · intro hf
      rw [decoded_cons _ c s hne hr hs1, find_returnable_cons_stop c s _ hc] at hf
      cases hf
  · intro r c s o hne hr hs1 _ _ hc _ hP
    obtain ⟨p1, p2, p3, p4⟩ := hP
    refine ⟨?_, ?_, ?_, ?_⟩
    · intro c1 s1 e r1 es h
      cases o with
      | panic e2 r2 es2 => cases h
      | ret c2 s2 e2 r2 es2 =>
        simp only [Outcome.after] at h
        injection h with _ _ _ _ hes
        subst hes
        rw [fatalCalls_append, fatalCalls_reportIf, p1 c2 s2 e2 r2 es2 rfl]
        rfl
    · intro e r1 es h
      cases o with
      | ret c2 s2 e2 r2 es2 => cases h
      | panic e2 r2 es2 =>
        simp only [Outcome.after] at h
        injection h with he _ hes
        subst he hes
        obtain ⟨q1, q2⟩ := p2 e2 r2 es2 rfl
        refine ⟨q1, ?_⟩
        rw [fatalCalls_append, fatalCalls_reportIf, q2]
        rfl
    · intro x hx
      rw [Outcome.after_effects, reported_append, reported_reportIf, List.mem_append] at hx
      rcases hx with hx | hx
      · exact stepErr_kind r c s x hx
      · exact p3 x hx
    · intro hf id hid
      rw [decoded_cons _ c s hne hr hs1, find_returnable_cons_skip c s _ hc] at hf
      obtain ⟨r1, es, h⟩ := p4 hf id hid
      exact ⟨r1, _, by rw [h]; rfl⟩

/-- C13: when the byte source has failed with a read error (no byte left, an error other
than `io.EOF`), `readRuneAndCount` and `Read` do not return: they panic with that error,
after exactly one call of the `FatalError` delegate with it if the delegate is set, and with
no effect at all if it is not; neither `Error` nor `os.Stderr` gets anything. More generally
a `Read` that reaches such an error past skipped units panics with it, calls `FatalError`
exactly once if set, and reports no read error as not fatal; and `Read` panics for no
other reason. -/
theorem read_error_is_fatal :
    (∀ (r : UTF8Reader) (id : Nat), r.reader = ⟨[], some id⟩ →
      readRuneAndCount r = Outcome.panic (GoError.ReadError id) r
        (if r.FatalError then [Effect.FatalError r (GoError.ReadError id)] else []) ∧
      Read r = some (Outcome.panic (GoError.ReadError id) r
        (if r.FatalError then [Effect.FatalError r (GoError.ReadError id)] else []))) ∧
    (∀ (r : UTF8Reader) (id : Nat), r.reader.err = some id →
      r.reader.decoded.find? returnable = none →
        ∃ r1 es, Read r = some (Outcome.panic (GoError.ReadError id) r1 es) ∧
          fatalCalls es = (if r.FatalError then [GoError.ReadError id] else []) ∧
          ∀ x ∈ reported es, x ≠ GoError.ReadError id) ∧
    (∀ (r r1 : UTF8Reader) (e : GoError) (es : List Effect),
      Read r = some (Outcome.panic e r1 es) →
        ∃ id, r.reader.err = some id ∧ e = GoError.ReadError id) := by
  refine ⟨?_, ?_, ?_⟩
  · intro r id h
    have hb : r.reader.buf = [] := by rw [h]
    have he : r.reader.err = some id := by rw [h]
    have h1 := readRuneAndCount_fatal r id hb he
    exact ⟨h1, by rw [Read_eq, h1]⟩
  · intro r id he hf
    obtain ⟨o, ho, _, p2, p3, p4⟩ := Read_fatal r
    obtain ⟨r1, es, h⟩ := p4 hf id he
    subst h
    refine ⟨r1, es, ho, (p2 _ r1 es rfl).2, ?_⟩
    intro x hx hxe
    subst hxe
    have := p3 _ hx
    simp [GoError.isInvalidBOM, GoError.isInvalidCodePoint] at this
  · intro r r1 e es h
    obtain ⟨o, ho, _, p2, _⟩ := Read_fatal r
    rw [h] at ho
    injection ho with ho
    exact (p2 e r1 es ho.symm).1

/-- Witness for C13: the source of `TestReadRuneAndCountWithError` fails at once; with a
`FatalError` delegate the call panics after one call of the delegate; and on `"\xc3"` from a
source that then fails, `Read` reports the stray byte, calls the delegate once and panics. -/
theorem read_error_is_fatal_witness :
    (readRuneAndCount (configured ⟨[], some 7⟩ false true)
        = Outcome.panic (GoError.ReadError 7) (configured ⟨[], some 7⟩ false true)
            [Effect.FatalError (configured ⟨[], some 7⟩ false true) (GoError.ReadError 7)] ∧
      Read (configured ⟨[], some 7⟩ false true)
        = some (Outcome.panic (GoError.ReadError 7) (configured ⟨[], some 7⟩ false true)
            [Effect.FatalError (configured ⟨[], some 7⟩ false true) (GoError.ReadError 7)])) ∧
    Read (configured ⟨bytes [0xC3], some 7⟩ true true)
      = some (Outcome.panic (GoError.ReadError 7) ⟨⟨1, 1, 1⟩, ⟨[], some 7⟩, true, true⟩
          [Effect.Error ⟨⟨1, 1, 1⟩, ⟨[], some 7⟩, true, true⟩
              (GoError.InvalidCodePoint RuneError 0),
            Effect.FatalError ⟨⟨1, 1, 1⟩, ⟨[], some 7⟩, true, true⟩ (GoError.ReadError 7)]) ∧
    (∃ r1 es, Read (configured ⟨bytes [0xC3], some 7⟩ true true)
        = some (Outcome.panic (GoError.ReadError 7) r1 es) ∧
      fatalCalls es = (if (configured ⟨bytes [0xC3], some 7⟩ true true).FatalError
        then [GoError.ReadError 7] else []) ∧
      ∀ x ∈ reported es, x ≠ GoError.ReadError 7) ∧
    (∃ id, (configured ⟨bytes [0xC3], some 7⟩ true true).reader.err = some id ∧
      GoError.ReadError 7 = GoError.ReadError id) :=
  ⟨read_error_is_fatal.1 (configured ⟨[], some 7⟩ false true) 7 rfl,
    by decide,
    read_error_is_fatal.2.1 (configured ⟨bytes [0xC3], some 7⟩ true true) 7 rfl (by decide),
    read_error_is_fatal.2.2 (configured ⟨bytes [0xC3], some 7⟩ true true)
      ⟨⟨1, 1, 1⟩, ⟨[], some 7⟩, true, true⟩ (GoError.ReadError 7)
      [Effect.Error ⟨⟨1, 1, 1⟩, ⟨[], some 7⟩, true, true⟩
          (GoError.InvalidCodePoint RuneError 0),
        Effect.FatalError ⟨⟨1, 1, 1⟩, ⟨[], some 7⟩, true, true⟩ (GoError.ReadError 7)]
      (by decide)⟩

/-! ## How far a `Read` goes -/

/-- What a `Read` takes from the source: the bytes of the units it skips and of the code point
it returns, and nothing more; and the code point it returns is the unit right after the
skipped ones, with the width of its encoding for size. -/
theorem Read_consumes (r : UTF8Reader) :
    ∃ o, Read r = some o ∧
      o.reader.reader.err = r.reader.err ∧
      (∃ k : Nat, k ≤ r.reader.buf.length ∧ o.reader.reader.buf = r.reader.buf.drop k ∧
        (k : Int) = ((skippedUnits r).map (fun u => (u.2.1 : Int))).sum + o.size) ∧
      (∀ (c s : Int) (r1 : UTF8Reader) (es : List Effect), o = Outcome.ret c s none r1 es →
        ∃ n : Nat, s = n ∧ (n : Int) = RuneLen c ∧
          r.reader.decoded
            = r.reader.decoded.takeWhile (fun u => skips u.1) ++ (c, n) :: r1.reader.decoded) := by
  apply Read_induct
    (fun r o =>
      o.reader.reader.err = r.reader.err ∧
      (∃ k : Nat, k ≤ r.reader.buf.length ∧ o.reader.reader.buf = r.reader.buf.drop k ∧
        (k : Int) = ((skippedUnits r).map (fun u => (u.2.1 : Int))).sum + o.size) ∧
      (∀ (c s : Int) (r1 : UTF8Reader) (es : List Effect), o = Outcome.ret c s none r1 es →
        ∃ n : Nat, s = n ∧ (n : Int) = RuneLen c ∧
          r.reader.decoded
            = r.reader.decoded.takeWhile (fun u => skips u.1) ++ (c, n) :: r1.reader.decoded))
  · intro r h0 _
    refine ⟨rfl, ⟨0, by omega, rfl, ?_⟩, ?_⟩
    · simp [skippedUnits_nil r h0, Outcome.size]
    · intro c s r1 es h
      cases h
  · intro r id h0 _
    refine ⟨rfl, ⟨0, by omega, rfl, ?_⟩, ?_⟩
    · simp [skippedUnits_nil r h0, Outcome.size]
    · intro c s r1 es h
      cases h
  · intro r c s hne hr hs1 hs2 hc
    refine ⟨rfl, ⟨s, hs2, rfl, ?_⟩, ?_⟩
    · simp [skippedUnits_stop r c s hne hr hs1 hc, Outcome.size]
    · intro c1 s1 r1 es h
      injection h with a1 a2 _ a4 _
      subst a1 a2 a4
      refine ⟨s, rfl, ?_, ?_⟩
      · rcases ReadRune_RuneLen _ _ _ _ hr with ⟨hcc, _⟩ | hl
        · exact absurd hcc ((skips_false_iff c).mp hc).2
        · exact hl.symm
      · rw [decoded_cons _ c s hne hr hs1]
        simp [hc, counted]
  · intro r c s o hne hr hs1 hs2 _ hc _ hP
    obtain ⟨p1, ⟨k, pk1, pk2, pk3⟩, p3⟩ := hP
    rw [skippedUnits_cons r c s hne hr hs1 hc]
    refine ⟨?_, ⟨s + k, ?_, ?_, ?_⟩, ?_⟩
    · rw [Outcome.after_reader, p1]
      rfl
    · simp only [counted, List.length_drop] at pk1
      omega
    · rw [Outcome.after_reader, pk2]
      simp only [counted, List.drop_drop]
    · rw [Outcome.after_size]
      simp only [List.map_cons, List.sum_cons]
      push_cast
      omega
    · intro c1 s1 r1 es h
      cases o with
      | panic e2 r2 es2 => cases h
      | ret c2 s2 e2 r2 es2 =>
        simp only [Outcome.after] at h
        injection h with a1 a2 a3 a4 _
        subst a1 a2 a3 a4
        obtain ⟨n, q1, q2, q3⟩ := p3 c2 s2 r2 es2 rfl
        refine ⟨n, q1, q2, ?_⟩
        rw [decoded_cons _ c s hne hr hs1]
        simp only [List.takeWhile_cons, hc, if_true, List.cons_append]
        congr 1

/-- With the arithmetic of the integers: when `Read` returns a code point `c` with a nil
error, `Offset` has grown by the widths of the skipped units and the returned size, exactly
that many bytes are taken from the source, and the size is that of `c` alone. -/
theorem Read_position (r r1 : UTF8Reader) (c s : Int) (es : List Effect)
    (h : Read r = some (Outcome.ret c s none r1 es)) :
    r1.Offset = r.Offset + ((skippedUnits r).map (fun u => (u.2.1 : Int))).sum + s ∧
    s = RuneLen c ∧
    (∃ k : Nat, (k : Int) = ((skippedUnits r).map (fun u => (u.2.1 : Int))).sum + s ∧
      r1.reader.buf = r.reader.buf.drop k) ∧
    (∃ n : Nat, s = n ∧ r.reader.decoded
      = r.reader.decoded.takeWhile (fun u => skips u.1) ++ (c, n) :: r1.reader.decoded) := by
  obtain ⟨o, ho, _, ⟨k, _, pk2, pk3⟩, p3⟩ := Read_consumes r
  obtain ⟨o2, ho2, _, _, q3, _⟩ := Read_reports r
  rw [h] at ho ho2
  injection ho with ho
  injection ho2 with ho2
  subst ho
  subst ho2
  obtain ⟨n, hn1, hn2, hn3⟩ := p3 c s r1 es rfl
  refine ⟨q3, by rw [hn1, hn2], ⟨k, pk3, pk2⟩, ⟨n, hn1, hn3⟩⟩

/-- C16: when `Read`, from a state whose counters have room for the bytes still in the
source, returns a code point `c` with a nil error, the reader is left just after `c`:
`Offset` is `Offset` before the call plus the widths of the units the call skipped plus the
returned size; the bytes taken from the source are exactly that many, so nothing beyond `c`
is consumed and the decoded stream that remains is the one that followed `c`; and the
returned size is the length of the encoding of `c` alone. -/
theorem Read_stops_after_returned (r r1 : UTF8Reader) (c s : Int) (es : List Effect)
    (hroom : hasRoom r) (h : Read64 r = some (Outcome.ret c s none r1 es)) :
    r1.Offset = r.Offset + ((skippedUnits r).map (fun u => (u.2.1 : Int))).sum + s ∧
    s = RuneLen c ∧
    (∃ k : Nat, (k : Int) = ((skippedUnits r).map (fun u => (u.2.1 : Int))).sum + s ∧
      r1.reader.buf = r.reader.buf.drop k) ∧
    (∃ n : Nat, s = n ∧ r.reader.decoded
      = r.reader.decoded.takeWhile (fun u => skips u.1) ++ (c, n) :: r1.reader.decoded) := by
  rw [Read64_eq_Read r hroom] at h
  exact Read_position r r1 c s es h

/-- Witness for C16: on `"\xc3po"` the first `Read` skips the stray byte and returns `'p'`
with size 1; the reader is then at Offset 2 with only `"o"` left to read. -/
theorem Read_stops_after_returned_witness :
    Read64 (fresh [0xC3, 0x70, 0x6F])
      = some (Outcome.ret 0x70 1 none ⟨⟨1, 2, 2⟩, ⟨bytes [0x6F], none⟩, false, false⟩
          [Effect.Stderr 1 1 (GoError.InvalidCodePoint RuneError 0)]) ∧
    (⟨⟨1, 2, 2⟩, ⟨bytes [0x6F], none⟩, false, false⟩ : UTF8Reader).Offset
      = (fresh [0xC3, 0x70, 0x6F]).Offset
        + ((skippedUnits (fresh [0xC3, 0x70, 0x6F])).map (fun u => (u.2.1 : Int))).sum + 1 ∧
    (1 : Int) = RuneLen 0x70 :=
  ⟨by decide,
    (Read_stops_after_returned (fresh [0xC3, 0x70, 0x6F])
      ⟨⟨1, 2, 2⟩, ⟨bytes [0x6F], none⟩, false, false⟩ 0x70 1
      [Effect.Stderr 1 1 (GoError.InvalidCodePoint RuneError 0)] (by decide) (by decide)).1,
    (Read_stops_after_returned (fresh [0xC3, 0x70, 0x6F])
      ⟨⟨1, 2, 2⟩, ⟨bytes [0x6F], none⟩, false, false⟩ 0x70 1
      [Effect.Stderr 1 1 (GoError.InvalidCodePoint RuneError 0)] (by decide) (by decide)).2.1⟩

/-! ## Termination of `Read` -/

theorem skippedUnits_length_le (r : UTF8Reader) :
    (skippedUnits r).length ≤ r.reader.buf.length := by
  generalize hn : r.reader.buf.length = n
  induction n using Nat.strong_induction_on generalizing r with
  | _ n ih =>
    by_cases hb : r.reader.buf = []
    · simp [skippedUnits_nil r hb]
    · obtain ⟨c, s, hr, hs1, hs2, _⟩ := ReadRune_cons r.reader hb
      by_cases hc : skips c = true
      · rw [skippedUnits_cons r c s hb hr hs1 hc, List.length_cons]
        have := ih (n - s) (by omega) (counted r c s ⟨r.reader.buf.drop s, r.reader.err⟩)
          (by simp only [counted, List.length_drop]; omega)
        omega
      · have hc2 : skips c = false := by simpa using hc
        simp [skippedUnits_stop r c s hb hr hs1 hc2]

/-- The loop of `Read` over a source that does not fail tests its condition once for each
unit it skips and once more, no more and no less: it ends within `fuel` tests exactly when
`fuel` is at least that number. -/
theorem ReadLoop_tests (r r1 : UTF8Reader) (c s : Int) (e : Option GoError) (es : List Effect)
    (fuel : Nat) (h : readRuneAndCount r = Outcome.ret c s e r1 es)
    (herr : r.reader.err = none) :
    (ReadLoop fuel c s e r1 es).isSome = true ↔ (skippedUnits r).length + 1 ≤ fuel := by
  generalize hn : r.reader.buf.length = n
  induction n using Nat.strong_induction_on generalizing r r1 c s e es fuel with
  | _ n ih =>
    cases fuel with
    | zero => simp [ReadLoop]
    | succ f =>
      rcases readRuneAndCount_ret r r1 c s e es h with
        ⟨h0, _, hc, _, _, _, _⟩ | ⟨hne, k, hs, hk1, hk2, _, hrr, _, hr1, _⟩
      · subst hc
        have hz : (IsBOM 0 || IsReplacementCharacter 0) = false := skips_zero
        simp [ReadLoop, hz, skippedUnits_nil r h0]
      · by_cases hc : skips c = true
        · have hc2 : (IsBOM c || IsReplacementCharacter c) = true := hc
          rw [skippedUnits_cons r c k hne hrr hk1 hc, ← hr1]
          simp only [ReadLoop, hc2, if_true, List.length_cons]
          have herr1 : r1.reader.err = none := by rw [hr1]; exact herr
          have hlen1 : r1.reader.buf.length < n := by
            rw [hr1]
            simp only [counted, List.length_drop]
            omega
          rcases readRuneAndCount_cases r1 with ⟨_, _, g⟩ | ⟨_, id, gid, _⟩ | ⟨gne, c2, s2, g, _⟩
          · rw [g]
            simp only
            rw [ReadLoop_after, Option.isSome_map', ih _ hlen1 r1 r1 0 0 _ _ f g herr1 rfl]
            omega
          · rw [herr1] at gid
            cases gid
          · have g2 := readRuneAndCount_data r1 c2 s2 _ g
            rw [g2]
            simp only
            rw [ReadLoop_after, Option.isSome_map', ih _ hlen1 r1 _ c2 s2 _ _ f g2 herr1 rfl]
            omega
        · have hc2 : ¬ (IsBOM c || IsReplacementCharacter c) = true := hc
          have hc3 : skips c = false := by simpa using hc
          simp [ReadLoop, hc2, skippedUnits_stop r c k hne hrr hk1 hc3]

/-- C19: over a source that does not fail, `Read` ends and returns a code point or
`io.EOF`; a turn of its loop follows a `readRuneAndCount` that took at least one byte from
the source; and the loop, which tests its condition once after each `readRuneAndCount`,
ends after as many tests as there are skipped units and one more, which is at most the
number of remaining bytes plus one and is the fuel `Read` runs on. Over any source, `Read`
ends with an outcome. -/
theorem Read_terminates :
    (∀ r : UTF8Reader, ∃ o, Read r = some o) ∧
    (∀ r : UTF8Reader, r.reader.err = none →
      ∃ c s e r1 es, Read r = some (Outcome.ret c s e r1 es) ∧
        (e = none ∨ e = some GoError.EOF)) ∧
    (∀ (r r1 : UTF8Reader) (c s : Int) (e : Option GoError) (es : List Effect),
      readRuneAndCount r = Outcome.ret c s e r1 es → skips c = true →
        r1.reader.buf.length < r.reader.buf.length) ∧
    (∀ (r r1 : UTF8Reader) (c s : Int) (e : Option GoError) (es : List Effect) (fuel : Nat),
      readRuneAndCount r = Outcome.ret c s e r1 es → r.reader.err = none →
        ((ReadLoop fuel c s e r1 es).isSome = true ↔ (skippedUnits r).length + 1 ≤ fuel)) ∧
    (∀ r : UTF8Reader, (skippedUnits r).length + 1 ≤ r.reader.buf.length + 1) := by
  refine ⟨?_, ?_, ?_, ?_, ?_⟩
  · intro r
    obtain ⟨o, ho, _⟩ := Read_fatal r
    exact ⟨o, ho⟩
  · intro r herr
    obtain ⟨o, ho, _, p2, _⟩ := Read_fatal r
    cases o with
    | panic e r1 es =>
      obtain ⟨⟨id, hid, _⟩, _⟩ := p2 e r1 es rfl
      rw [herr] at hid
      cases hid
    | ret c s e r1 es =>
      refine ⟨c, s, e, r1, es, ho, ?_⟩
      obtain ⟨o2, ho2, q⟩ := Read_induct
        (fun _ o => ∀ (c s : Int) (e : Option GoError) (r1 : UTF8Reader) (es : List Effect),
          o = Outcome.ret c s e r1 es → e = none ∨ e = some GoError.EOF)
        (by
          intro r _ _ c s e r1 es h
          cases h
          exact Or.inr rfl)
        (by
          intro r id _ _ c s e r1 es h
          cases h)
        (by
          intro r c s _ _ _ _ hc c1 s1 e r1 es h
          cases h
          exact Or.inl (stepErr_of_not_skips r c s hc))
        (by
          intro r c s o _ _ _ _ _ _ _ hP c1 s1 e r1 es h
          cases o with
          | panic e2 r2 es2 => cases h
          | ret c2 s2 e2 r2 es2 =>
            simp only [Outcome.after] at h
            injection h with _ _ he
            subst he
            exact hP c2 s2 e2 r2 es2 rfl)
        r
      rw [ho] at ho2
      injection ho2 with ho2
      exact q c s e r1 es ho2.symm
  · intro r r1 c s e es h hc
    exact readRuneAndCount_skips_lt r r1 c s e es h hc
  · intro r r1 c s e es fuel h herr
    exact ReadLoop_tests r r1 c s e es fuel h herr
  · intro r
    have := skippedUnits_length_le r
    omega

/-- Witness for C19: on `"\xc3\xc3p"` the loop of the first `Read` ends after three tests
(two skipped units and one more) and not after two; the source holds three bytes. -/
theorem Read_terminates_witness :
    (∃ c s e r1 es, Read (fresh [0xC3, 0xC3, 0x70]) = some (Outcome.ret c s e r1 es) ∧
      (e = none ∨ e = some GoError.EOF)) ∧
    ((ReadLoop 3 RuneError 1 (some (GoError.InvalidCodePoint RuneError 0))
        ⟨⟨1, 1, 1⟩, ⟨bytes [0xC3, 0x70], none⟩, false, false⟩ []).isSome = true
      ↔ (skippedUnits (fresh [0xC3, 0xC3, 0x70])).length + 1 ≤ 3) ∧
    (ReadLoop 2 RuneError 1 (some (GoError.InvalidCodePoint RuneError 0))
        ⟨⟨1, 1, 1⟩, ⟨bytes [0xC3, 0x70], none⟩, false, false⟩ []) = none ∧
    (skippedUnits (fresh [0xC3, 0xC3, 0x70])).length = 2 :=
  ⟨Read_terminates.2.1 (fresh [0xC3, 0xC3, 0x70]) rfl,
    Read_terminates.2.2.2.1 (fresh [0xC3, 0xC3, 0x70])
      ⟨⟨1, 1, 1⟩, ⟨bytes [0xC3, 0x70], none⟩, false, false⟩ RuneError 1
      (some (GoError.InvalidCodePoint RuneError 0)) [] 3 (by decide) rfl,
    by decide, by decide⟩

/-! ## Successive calls of `Read` -/

theorem Read_returnable (r : UTF8Reader) (c : Int) (s : Nat) (rd : BufioReader)
    (hr : r.reader.ReadRune = (c, s, none, rd)) (hc : skips c = false) :
    Read r = some (Outcome.ret c s none (counted r c s rd) []) := by
  rw [Read_eq, readRuneAndCount_data r c s rd hr]
  simp [hc, stepErr_of_not_skips r c s hc]

/-- Every unit of the decoded stream is an invalid sequence, `(RuneError, 1)`, or a code
point with the length of its UTF-8 encoding. -/
theorem decoded_RuneLen (b : BufioReader) :
    ∀ u ∈ b.decoded, (u.1 = RuneError ∧ u.2 = 1) ∨ RuneLen u.1 = u.2 := by
  generalize hn : b.buf.length = n
  induction n using Nat.strong_induction_on generalizing b with
  | _ n ih =>
    by_cases hb : b.buf = []
    · simp [decoded_nil b hb]
    · obtain ⟨c, s, hr, hs1, hs2, _⟩ := ReadRune_cons b hb
      rw [decoded_cons b c s hb hr hs1]
      intro u hu
      rcases List.mem_cons.mp hu with h | h
      · subst h
        exact ReadRune_RuneLen _ _ _ _ hr
      · exact ih (n - s) (by omega) ⟨b.buf.drop s, b.err⟩
          (by simp only [List.length_drop]; omega) u h

/-- Calls of `Read` over input without U+FEFF and U+FFFD: each returns the next unit of the
decoded stream and has no effect. -/
theorem Reads_returnable (N : Nat) (r : UTF8Reader)
    (hall : ∀ u ∈ r.reader.decoded, skips u.1 = false) (hN : N ≤ r.reader.decoded.length) :
    ∃ r1, Reads N r
        = some ((r.reader.decoded.take N).map (fun u => (u.1, (u.2 : Int), none)), r1, []) ∧
      r1.Offset = r.Offset + ((r.reader.decoded.take N).map (fun u => (u.2 : Int))).sum ∧
      r1.reader.decoded = r.reader.decoded.drop N := by
  induction N generalizing r with
  | zero => exact ⟨r, by simp [Reads], by simp, by simp⟩
  | succ n ih =>
    have hb : r.reader.buf ≠ [] := by
      intro h0
      rw [decoded_nil _ h0] at hN
      simp at hN
    obtain ⟨c, s, hr, hs1, _, _⟩ := ReadRune_cons r.reader hb
    have hd := decoded_cons r.reader c s hb hr hs1
    have hc : skips c = false := hall (c, s) (by rw [hd]; exact List.mem_cons_self _ _)
    have hread := Read_returnable r c s _ hr hc
    have hd1 : (counted r c s ⟨r.reader.buf.drop s, r.reader.err⟩).reader.decoded
        = BufioReader.decoded ⟨r.reader.buf.drop s, r.reader.err⟩ := rfl
    obtain ⟨r1, h1, h2, h3⟩ := ih (counted r c s ⟨r.reader.buf.drop s, r.reader.err⟩)
      (by
        intro u hu
        rw [hd1] at hu
        exact hall u (by rw [hd]; exact List.mem_cons_of_mem _ hu))
      (by
        rw [hd1]
        rw [hd] at hN
        simp only [List.length_cons] at hN
        omega)
    refine ⟨r1, ?_, ?_, ?_⟩
    · simp only [Reads, hread, h1, hd, hd1, Option.map_some', List.take_succ_cons, List.map_cons,
        List.nil_append]
    · rw [h2, hd, hd1]
      simp only [counted, List.take_succ_cons, List.map_cons, List.sum_cons]
      omega
    · rw [h3, hd, hd1]
      rfl

/-- C11, as stated, fails: `"\xef\xbf\xbdp"` has no invalid sequence (no unit is
`(RuneError, 1)`) and no byte order mark, and it has two code points; yet the first `Read`
skips the well-formed U+FFFD, returns `'p'`, whose encoding is one byte long, and leaves
`Offset = 4`. -/
theorem Offset_after_Reads_counterexample :
    BufioReader.decoded ⟨bytes [0xEF, 0xBF, 0xBD, 0x70], none⟩ = [(RuneError, 3), (0x70, 1)] ∧
    (BufioReader.decoded ⟨bytes [0xEF, 0xBF, 0xBD, 0x70], none⟩).all
      (fun u => !malformed u && !IsBOM u.1) = true ∧
    Reads 1 (fresh [0xEF, 0xBF, 0xBD, 0x70])
      = some ([(0x70, 1, none)], ⟨⟨1, 2, 4⟩, ⟨[], none⟩, false, false⟩,
          [Effect.Stderr 1 1 (GoError.InvalidCodePoint RuneError 0)]) ∧
    (⟨⟨1, 2, 4⟩, ⟨[], none⟩, false, false⟩ : UTF8Reader).Offset ≠ RuneLen 0x70 := by
  decide

/-- C11, amended: for every input whose decoded stream has neither U+FEFF nor U+FFFD (no
invalid sequence, no encoded U+FFFD, no byte order mark) and every `N` not exceeding the
number of its code points, `N` calls of `Read` on a fresh reader return the first `N` code
points with their sizes and nil errors, have no effect, and leave `Offset` equal to the
total UTF-8 byte length of those `N` code points, which is the sum of the sizes returned. -/
theorem Offset_after_Reads (b : BufioReader) (error fatal : Bool) (N : Nat)
    (hall : ∀ u ∈ b.decoded, u.1 ≠ BOM ∧ u.1 ≠ RuneError) (hN : N ≤ b.decoded.length) :
    ∃ r1, Reads N (configured b error fatal)
        = some ((b.decoded.take N).map (fun u => (u.1, (u.2 : Int), none)), r1, []) ∧
      r1.Offset = ((b.decoded.take N).map (fun u => RuneLen u.1)).sum ∧
      r1.Offset = ((b.decoded.take N).map (fun u => (u.2 : Int))).sum := by
  obtain ⟨r1, h1, h2, _⟩ := Reads_returnable N (configured b error fatal)
    (fun u hu => (skips_false_iff u.1).mpr (hall u hu)) hN
  have h3 : r1.Offset = ((b.decoded.take N).map (fun u => (u.2 : Int))).sum := by
    rw [h2]
    simp [configured, NewUTF8Reader]
  refine ⟨r1, h1, ?_, h3⟩
  rw [h3]
  congr 1
  apply List.map_congr_left
  intro u hu
  have hu2 : u ∈ b.decoded := List.mem_of_mem_take hu
  rcases decoded_RuneLen b u hu2 with ⟨hc, _⟩ | hl
  · exact absurd hc (hall u hu2).2
  · exact hl.symm

/-- Witness for C11, amended: on `"pØly"` four calls of `Read` return `p`, U+00D8, `l`, `y`;
the offsets after one, two, three and four calls are 1, 3, 4 and 5, all on line 1. -/
theorem Offset_after_Reads_witness :
    (Reads 1 (fresh [0x70, 0xC3, 0x98, 0x6C, 0x79])
      = some ([(0x70, 1, none)],
          ⟨⟨1, 1, 1⟩, ⟨bytes [0xC3, 0x98, 0x6C, 0x79], none⟩, false, false⟩, []) ∧
    Reads 2 (fresh [0x70, 0xC3, 0x98, 0x6C, 0x79])
      = some ([(0x70, 1, none), (0xD8, 2, none)],
          ⟨⟨1, 2, 3⟩, ⟨bytes [0x6C, 0x79], none⟩, false, false⟩, []) ∧
    Reads 3 (fresh [0x70, 0xC3, 0x98, 0x6C, 0x79])
      = some ([(0x70, 1, none), (0xD8, 2, none), (0x6C, 1, none)],
          ⟨⟨1, 3, 4⟩, ⟨bytes [0x79], none⟩, false, false⟩, []) ∧
    Reads 4 (fresh [0x70, 0xC3, 0x98, 0x6C, 0x79])
      = some ([(0x70, 1, none), (0xD8, 2, none), (0x6C, 1, none), (0x79, 1, none)],
          ⟨⟨1, 4, 5⟩, ⟨[], none⟩, false, false⟩, [])) ∧
    ∃ r1, Reads 4 (configured ⟨bytes [0x70, 0xC3, 0x98, 0x6C, 0x79], none⟩ false false)
        = some (((BufioReader.decoded ⟨bytes [0x70, 0xC3, 0x98, 0x6C, 0x79], none⟩).take 4).map
            (fun u => (u.1, (u.2 : Int), none)), r1, []) ∧
      r1.Offset = (((BufioReader.decoded ⟨bytes [0x70, 0xC3, 0x98, 0x6C, 0x79], none⟩).take 4).map
        (fun u => RuneLen u.1)).sum ∧
      r1.Offset = (((BufioReader.decoded ⟨bytes [0x70, 0xC3, 0x98, 0x6C, 0x79], none⟩).take 4).map
        (fun u => (u.2 : Int))).sum :=
  ⟨⟨by decide, by decide, by decide, by decide⟩,
    Offset_after_Reads ⟨bytes [0x70, 0xC3, 0x98, 0x6C, 0x79], none⟩ false false 4
      (by decide) (by decide)⟩

/-! ## Reading a source to its end -/

/-- A `Read` that returns a code point has taken at least one byte from the source. -/
theorem Read_progress (r r1 : UTF8Reader) (c s : Int) (es : List Effect)
    (h : Read r = some (Outcome.ret c s none r1 es)) :
    r1.reader.buf.length < r.reader.buf.length := by
  obtain ⟨o, ho, q⟩ := Read_induct
    (fun r o => ∀ (c s : Int) (e : Option GoError) (r1 : UTF8Reader) (es : List Effect),
      o = Outcome.ret c s e r1 es →
        r1.reader.buf.length ≤ r.reader.buf.length ∧
        (e = none → r1.reader.buf.length < r.reader.buf.length))
    (by
      intro r _ _ c s e r1 es h
      cases h
      exact ⟨le_refl _, fun h => by cases h⟩)
    (by
      intro r id _ _ c s e r1 es h
      cases h)
    (by
      intro r c s _ _ hs1 hs2 _ c1 s1 e r1 es h
      cases h
      simp only [counted, List.length_drop]
      exact ⟨by omega, fun _ => by omega⟩)
    (by
      intro r c s o _ _ hs1 hs2 _ _ _ hP c1 s1 e r1 es h
      cases o with
      | panic e2 r2 es2 => cases h
      | ret c2 s2 e2 r2 es2 =>
        simp only [Outcome.after] at h
        injection h with _ _ a3 a4 _
        subst a3 a4
        have := (hP c2 s2 e2 r2 es2 rfl).1
        simp only [counted, List.length_drop] at this
        exact ⟨by omega, fun _ => by omega⟩)
    r
  rw [h] at ho
  injection ho with ho
  exact (q c s none r1 es ho.symm).2 rfl

theorem ReadAllLoop_fuel (f1 f2 : Nat) (r : UTF8Reader) (h1 : r.reader.buf.length < f1)
    (h2 : r.reader.buf.length < f2) : ReadAllLoop f1 r = ReadAllLoop f2 r := by
  induction f1 generalizing f2 r with
  | zero => omega
  | succ n ih =>
    cases f2 with
    | zero => omega
    | succ m =>
      simp only [ReadAllLoop]
      cases hr : Read r with
      | none => rfl
      | some o =>
        cases o with
        | panic e r1 es => rfl
        | ret c s e r1 es =>
          cases e with
          | some e0 => rfl
          | none =>
            simp only
            have := Read_progress r r1 c s es hr
            rw [ih m r1 (by omega) (by omega)]

/-- The equation of `ReadAll`: one `Read`, and if it returned a code point, read on. -/
theorem ReadAll_eq (r : UTF8Reader) :
    ReadAll r = match Read r with
      | none => none
      | some (Outcome.ret c s none r1 es) =>
        (ReadAll r1).map (fun p => ((c, s) :: p.1, es ++ p.2.1, p.2.2))
      | some o => some ([], o.effects, o) := by
  conv_lhs => unfold ReadAll; simp only [ReadAllLoop]
  cases hr : Read r with
  | none => rfl
  | some o =>
    cases o with
    | panic e r1 es => rfl
    | ret c s e r1 es =>
      cases e with
      | some e0 => rfl
      | none =>
        simp only
        have := Read_progress r r1 c s es hr
        rw [ReadAllLoop_fuel r.reader.buf.length (r1.reader.buf.length + 1) r1 (by omega)
          (by omega)]
        rfl

theorem located_append (off : Int) (l1 l2 : List (Int × Nat)) :
    located off (l1 ++ l2)
      = located off l1 ++ located (off + (l1.map (fun u => (u.2 : Int))).sum) l2 := by
  induction l1 generalizing off with
  | nil => simp [located]
  | cons u t ih =>
    obtain ⟨c, s⟩ := u
    show (c, s, off) :: located (off + (s : Int)) (t ++ l2) = _
    rw [ih]
    simp only [List.cons_append, located, List.map_cons, List.sum_cons, add_assoc]

theorem filter_returnable_takeWhile (l : List (Int × Nat)) :
    (l.takeWhile (fun u => skips u.1)).filter returnable = [] := by
  induction l with
  | nil => rfl
  | cons u t ih =>
    by_cases h : skips u.1 = true
    · simp [List.takeWhile_cons, h, returnable, ih]
    · simp [List.takeWhile_cons, h]

theorem anomaly_of_not_skips (c : Int) (s : Nat) (off : Int) (h : skips c = false) :
    anomaly (c, s, off) = none := by
  have h2 := (skips_false_iff c).mp h
  simp [anomaly, h2.1, h2.2]

theorem find_returnable_none (l : List (Int × Nat)) (h : l.find? returnable = none) :
    l.filter returnable = [] ∧ l.takeWhile (fun u => skips u.1) = l := by
  induction l with
  | nil => exact ⟨rfl, rfl⟩
  | cons u t ih =>
    obtain ⟨c, s⟩ := u
    by_cases hc : skips c = true
    · rw [find_returnable_cons_skip c s t hc] at h
      obtain ⟨i1, i2⟩ := ih h
      constructor
      · simp [List.filter_cons, returnable, hc, i1]
      · simp [List.takeWhile_cons, hc, i2]
    · have hc2 : skips c = false := by simpa using hc
      rw [find_returnable_cons_stop c s t hc2] at h
      cases h

/-- Reading a source to its end: the code points returned are the units of the decoded
stream that are neither U+FEFF nor U+FFFD, in order; an `Error` delegate gets the anomalies
of the decoded stream, in order; and the last call returns `io.EOF`, with no `FatalError`
call before it, or panics with the read error of the source. -/
theorem ReadAll_spec (r : UTF8Reader) :
    ∃ res effs last, ReadAll r = some (res, effs, last) ∧
      res = (r.reader.decoded.filter returnable).map (fun u => (u.1, (u.2 : Int))) ∧
      (r.Error = true →
        errorCalls effs = (located r.Offset r.reader.decoded).filterMap anomaly) ∧
      (r.reader.err = none →
        fatalCalls effs = [] ∧ ∃ r1 es, last = Outcome.ret 0 0 (some GoError.EOF) r1 es) ∧
      (∀ id, r.reader.err = some id →
        ∃ r1 es, last = Outcome.panic (GoError.ReadError id) r1 es) ∧
      (∀ x ∈ fatalCalls effs, ∃ id, x = GoError.ReadError id) := by
  generalize hn : r.reader.buf.length = n
  induction n using Nat.strong_induction_on generalizing r with
  | _ n ih =>
    obtain ⟨o, ho, a1, _, a3, a4, _⟩ := Read_reports r
    obtain ⟨o2, ho2, b1, _, b3⟩ := Read_consumes r
    obtain ⟨o3, ho3, c1, c2, _, c4⟩ := Read_fatal r
    rw [ho] at ho2 ho3
    injection ho2 with ho2
    injection ho3 with ho3
    subst ho2
    subst ho3
    have hres := Read_result r
    have hnone : (∀ (c s : Int) (r1 : UTF8Reader) (es : List Effect),
        o ≠ Outcome.ret c s none r1 es) → r.reader.decoded.find? returnable = none := by
      intro hno
      cases hf : r.reader.decoded.find? returnable with
      | none => rfl
      | some u =>
        obtain ⟨c, s⟩ := u
        obtain ⟨r1, es, h⟩ := hres.1 c s hf
        rw [ho] at h
        injection h with h
        exact absurd h (hno c s r1 es)
    have hstop : (∀ (c s : Int) (r1 : UTF8Reader) (es : List Effect),
        o ≠ Outcome.ret c s none r1 es) → ReadAll r = some ([], o.effects, o) →
        ∃ res effs last, ReadAll r = some (res, effs, last) ∧
          res = (r.reader.decoded.filter returnable).map (fun u => (u.1, (u.2 : Int))) ∧
          (r.Error = true →
            errorCalls effs = (located r.Offset r.reader.decoded).filterMap anomaly) ∧
          (r.reader.err = none →
            fatalCalls effs = [] ∧ ∃ r1 es, last = Outcome.ret 0 0 (some GoError.EOF) r1 es) ∧
          (∀ id, r.reader.err = some id →
            ∃ r1 es, last = Outcome.panic (GoError.ReadError id) r1 es) ∧
          (∀ x ∈ fatalCalls effs, ∃ id, x = GoError.ReadError id) := by
      intro hno hall
      have hf := hnone hno
      obtain ⟨f1, f2⟩ := find_returnable_none _ hf
      refine ⟨[], o.effects, o, hall, by simp [f1], ?_, ?_, ?_, ?_⟩
      · intro hE
        rw [a1 hE]
        simp only [skippedUnits, f2]
      · intro herr
        obtain ⟨r1, es, h⟩ := hres.2.1 hf herr
        rw [ho] at h
        injection h with h
        subst h
        exact ⟨c1 0 0 _ r1 es rfl, r1, es, rfl⟩
      · intro id hid
        exact c4 hf id hid
      · intro x hx
        cases o with
        | ret c s e r1 es =>
          rw [Outcome.effects, c1 c s e r1 es rfl] at hx
          cases hx
        | panic e r1 es =>
          obtain ⟨⟨id, _, hid⟩, q2⟩ := c2 e r1 es rfl
          rw [Outcome.effects, q2] at hx
          by_cases hF : r.FatalError = true
          · simp only [hF, if_true, List.mem_singleton] at hx
            exact ⟨id, by rw [hx, hid]⟩
          · simp [hF] at hx
    cases o with
    | panic e r1 es =>
      apply hstop
      · intro c s r2 es2 h
        cases h
      · rw [ReadAll_eq, ho]
    | ret c s e r1 es =>
      cases e with
      | some e0 =>
        apply hstop
        · intro c2 s2 r2 es2 h
          cases h
        · rw [ReadAll_eq, ho]
      | none =>
        have hlt := Read_progress r r1 c s es ho
        obtain ⟨res1, effs1, last1, i0, i1, i2, i3, i4, i5⟩ := ih _ (by omega) r1 rfl
        obtain ⟨k, hk1, hk2, hk3⟩ := b3 c s r1 es rfl
        have hskip : skips c = false :=
          (skips_false_iff c).mpr (hres.2.2 c s none r1 es ho)
        have herr1 : r1.reader.err = r.reader.err := b1
        refine ⟨(c, s) :: res1, es ++ effs1, last1, ?_, ?_, ?_, ?_, ?_, ?_⟩
        · rw [ReadAll_eq, ho]
          simp only [i0, Option.map_some']
        · rw [hk3, List.filter_append, filter_returnable_takeWhile, List.nil_append,
            List.filter_cons]
          simp only [returnable, hskip, Bool.not_false, if_true, List.map_cons, i1, hk1]
        · intro hE
          have hE1 : r1.Error = true := by
            have := a4
            simp only [Outcome.reader] at this
            rw [this]
            exact hE
          have hoff : r1.Offset = r.Offset
              + ((r.reader.decoded.takeWhile (fun u => skips u.1)).map
                  (fun u => (u.2 : Int))).sum + k := by
            have := a3
            simp only [Outcome.reader, Outcome.size, skippedUnits, located_widths] at this
            rw [this, hk1]
          have hcalls := a1 hE
          simp only [Outcome.effects] at hcalls
          rw [errorCalls_append, hcalls, i2 hE1]
          conv_rhs => rw [hk3, located_append, List.filterMap_append, located,
            List.filterMap_cons, anomaly_of_not_skips c k _ hskip]
          simp only [skippedUnits, hoff]
        · intro herr
          obtain ⟨j1, j2⟩ := i3 (by rw [herr1]; exact herr)
          refine ⟨?_, j2⟩
          rw [fatalCalls_append, c1 c s none r1 es rfl, j1]
          rfl
        · intro id hid
          exact i4 id (by rw [herr1]; exact hid)
        · intro x hx
          rw [fatalCalls_append, c1 c s none r1 es rfl, List.nil_append] at hx
          exact i5 x hx

/-! ## Deleting the skipped units -/

/-- A code point decoded from `s` bytes depends on those `s` bytes only: any other input that
is at least `s` long and has the same first `s` bytes decodes to the same code point. -/
theorem DecodeRune_local (p q : List Byte) (c : Int) (s : Nat) (hp : p ≠ [])
    (h : DecodeRune p = (c, s)) (hc : c ≠ RuneError) (hlen : s ≤ q.length)
    (h0 : q.getD 0 0 = p.getD 0 0) (h1 : 2 ≤ s → q.getD 1 0 = p.getD 1 0)
    (h2 : 3 ≤ s → q.getD 2 0 = p.getD 2 0) (h3 : 4 ≤ s → q.getD 3 0 = p.getD 3 0) :
    DecodeRune q = (c, s) := by
  have hs := (DecodeRune_size p hp)
  rw [h] at hs
  have hf := first_cases (p.getD 0 0)
  unfold DecodeRune at h ⊢
  dsimp only at h ⊢
  rw [h0]
  generalize q.length = m at hlen ⊢
  generalize q.getD 1 0 = c1 at h1 ⊢
  generalize q.getD 2 0 = c2 at h2 ⊢
  generalize q.getD 3 0 = c3 at h3 ⊢
  generalize p.getD 0 0 = b0 at hf h ⊢
  generalize p.getD 1 0 = b1 at h h1
  generalize p.getD 2 0 = b2 at h h2
  generalize p.getD 3 0 = b3 at h h3
  generalize first b0 = x at hf h ⊢
  simp only [as, xx, s1, s2, s3, s4, s5, s6, s7] at hf
  simp only [RuneError] at hc
  rcases hf with ⟨hx, hr⟩ | ⟨hx, hr⟩ | ⟨hx, hr⟩ | ⟨hx, hr⟩ | ⟨hx, hr⟩ | ⟨hx, hr⟩ | ⟨hx, hr⟩
      | ⟨hx, hr⟩ | ⟨hx, hr⟩ <;>
    subst hx <;>
    simp only [as, acceptRanges, and7_s1, and7_s2, and7_s3, and7_s4, and7_s5, and7_s6, and7_s7,
      dec2, dec3, dec4, RuneError, locb, hicb] at h ⊢ <;>
    norm_num at h ⊢ <;>
    (split_ifs at h <;> simp only [Prod.mk.injEq] at h <;> obtain ⟨hcc, hss⟩ := h <;>
      subst hcc hss <;>
      first
      | contradiction
      | (exfalso; omega)
      | (try (have e1 := h1 (by omega); subst e1)
         try (have e2 := h2 (by omega); subst e2)
         try (have e3 := h3 (by omega); subst e3)
         split_ifs <;> first | rfl | (exfalso; omega)))

theorem getD_take_append (t Y : List Byte) (i k : Nat) (hi : i < k) (hk : k ≤ t.length) :
    (t.take k ++ Y).getD i 0 = t.getD i 0 := by
  induction t generalizing i k with
  | nil =>
    simp only [List.length_nil] at hk
    omega
  | cons a u ih =>
    cases k with
    | zero => omega
    | succ k1 =>
      cases i with
      | zero => simp
      | succ i1 =>
        simp only [List.take_succ_cons, List.cons_append, List.getD_cons_succ]
        exact ih i1 k1 (by omega) (by simpa using hk)

theorem drop_take_append (t Y : List Byte) (k : Nat) (hk : k ≤ t.length) :
    (t.take k ++ Y).drop k = Y := by
  induction t generalizing k with
  | nil =>
    have : k = 0 := by simpa using hk
    subst this
    rfl
  | cons a u ih =>
    cases k with
    | zero => rfl
    | succ k1 =>
      simp only [List.take_succ_cons, List.cons_append, List.drop_succ_cons]
      exact ih k1 (by simpa using hk)

/-- What `ReadRune` decodes, if not U+FFFD, it decodes as well from the same bytes followed
by anything else. -/
theorem ReadRune_local (p Y : List Byte) (e e1 : Option Nat) (c : Int) (s : Nat)
    (rd : BufioReader) (h : BufioReader.ReadRune ⟨p, e⟩ = (c, s, none, rd))
    (hc : c ≠ RuneError) :
    BufioReader.ReadRune ⟨p.take s ++ Y, e1⟩ = (c, s, none, ⟨Y, e1⟩) := by
  cases p with
  | nil => simp [BufioReader.ReadRune] at h
  | cons p0 t =>
    obtain ⟨c1, s1, hr1, hs1, hs2, _⟩ := ReadRune_cons ⟨p0 :: t, e⟩ (by simp)
    rw [hr1] at h
    simp only [Prod.mk.injEq] at h
    obtain ⟨a1, a2, _⟩ := h
    subst a1 a2
    obtain ⟨k, hk⟩ : ∃ k, s1 = k + 1 := ⟨s1 - 1, by omega⟩
    subst hk
    have hkt : k ≤ t.length := by simpa using hs2
    simp only [List.take_succ_cons, List.cons_append]
    by_cases hp : p0.val ≥ RuneSelf
    · simp only [BufioReader.ReadRune, hp, if_true, Prod.mk.injEq] at hr1
      obtain ⟨b1, b2, _⟩ := hr1
      have hdec : DecodeRune (p0 :: t) = (c1, k + 1) := Prod.ext b1 b2
      have hloc := DecodeRune_local (p0 :: t) (p0 :: (t.take k ++ Y)) c1 (k + 1) (by simp) hdec hc
        (by simp only [List.length_cons, List.length_append, List.length_take]; omega)
        (by simp)
        (fun h2 => by
          simp only [List.getD_cons_succ]
          exact getD_take_append t Y 0 k (by omega) hkt)
        (fun h3 => by
          simp only [List.getD_cons_succ]
          exact getD_take_append t Y 1 k (by omega) hkt)
        (fun h4 => by
          simp only [List.getD_cons_succ]
          exact getD_take_append t Y 2 k (by omega) hkt)
      simp only [BufioReader.ReadRune, hp, if_true, hloc, List.drop_succ_cons,
        drop_take_append t Y k hkt]
    · simp only [BufioReader.ReadRune, hp, if_false, Prod.mk.injEq] at hr1
      obtain ⟨b1, b2, _⟩ := hr1
      have hk0 : k = 0 := by omega
      subst hk0
      simp [BufioReader.ReadRune, hp, b1]

theorem withoutSkippedLoop_fuel (f1 f2 : Nat) (b : BufioReader) (h1 : b.buf.length ≤ f1)
    (h2 : b.buf.length ≤ f2) : withoutSkippedLoop f1 b = withoutSkippedLoop f2 b := by
  induction f1 generalizing f2 b with
  | zero =>
    have hb : b.buf = [] := List.length_eq_zero.mp (by omega)
    cases f2 with
    | zero => rfl
    | succ m => simp [withoutSkippedLoop, ReadRune_nil b hb]
  | succ n ih =>
    by_cases hb : b.buf = []
    · cases f2 with
      | zero => simp [withoutSkippedLoop, ReadRune_nil b hb]
      | succ m => simp [withoutSkippedLoop, ReadRune_nil b hb]
    · obtain ⟨c, s, hr, hs1, hs2, _⟩ := ReadRune_cons b hb
      cases f2 with
      | zero =>
        have : b.buf = [] := List.length_eq_zero.mp (by omega)
        exact absurd this hb
      | succ m =>
        simp only [withoutSkippedLoop, hr]
        congr 1
        apply ih <;> simp only [List.length_drop] <;> omega

theorem withoutSkipped_nil (b : BufioReader) (h : b.buf = []) :
    b.withoutSkipped = ⟨[], b.err⟩ := by
  simp [BufioReader.withoutSkipped, h, withoutSkippedLoop]

theorem withoutSkipped_cons (b : BufioReader) (c : Int) (s : Nat) (hb : b.buf ≠ [])
    (h : b.ReadRune = (c, s, none, ⟨b.buf.drop s, b.err⟩)) (hs : 1 ≤ s) :
    b.withoutSkipped
      = ⟨(if skips c = true then [] else b.buf.take s)
          ++ (BufioReader.withoutSkipped ⟨b.buf.drop s, b.err⟩).buf, b.err⟩ := by
  unfold BufioReader.withoutSkipped
  have hl : 1 ≤ b.buf.length := by
    cases hbuf : b.buf with
    | nil => exact absurd hbuf hb
    | cons a t => simp
  obtain ⟨k, hk⟩ : ∃ k, b.buf.length = k + 1 := ⟨b.buf.length - 1, by omega⟩
  rw [hk]
  simp only [withoutSkippedLoop, h]
  congr 2
  apply withoutSkippedLoop_fuel <;> simp only [List.length_drop] <;> omega

/-- The decoded stream of a source without its skipped units is the decoded stream of the
source without the units decoded as U+FEFF or U+FFFD. -/
theorem decoded_withoutSkipped (b : BufioReader) :
    b.withoutSkipped.decoded = b.decoded.filter returnable := by
  generalize hn : b.buf.length = n
  induction n using Nat.strong_induction_on generalizing b with
  | _ n ih =>
    by_cases hb : b.buf = []
    · rw [withoutSkipped_nil b hb, decoded_nil b hb, decoded_nil _ rfl]
      rfl
    · obtain ⟨c, s, hr, hs1, hs2, _⟩ := ReadRune_cons b hb
      have hrest := ih (n - s) (by omega) ⟨b.buf.drop s, b.err⟩
        (by simp only [List.length_drop]; omega)
      have herr : (BufioReader.withoutSkipped ⟨b.buf.drop s, b.err⟩).err = b.err := rfl
      rw [withoutSkipped_cons b c s hb hr hs1, decoded_cons b c s hb hr hs1]
      by_cases hc : skips c = true
      · simp only [hc, if_true, List.nil_append, List.filter_cons, returnable, Bool.not_true]
        rw [← hrest]
        rfl
      · have hc2 : skips c = false := by simpa using hc
        have hcr : c ≠ RuneError := ((skips_false_iff c).mp hc2).2
        have hloc := ReadRune_local b.buf
          (BufioReader.withoutSkipped ⟨b.buf.drop s, b.err⟩).buf b.err b.err c s _ hr hcr
        have hne : b.buf.take s ++ (BufioReader.withoutSkipped ⟨b.buf.drop s, b.err⟩).buf ≠ [] := by
          intro h0
          have := congrArg List.length h0
          simp only [List.length_append, List.length_take, List.length_nil] at this
          omega
        have hd := decoded_cons
          ⟨b.buf.take s ++ (BufioReader.withoutSkipped ⟨b.buf.drop s, b.err⟩).buf, b.err⟩ c s hne
          (by
            simp only [drop_take_append b.buf _ s hs2]
            exact hloc) hs1
        simp only [drop_take_append b.buf _ s hs2] at hd
        simp only [hc2, Bool.false_eq_true, if_false, List.filter_cons, returnable, Bool.not_false,
          if_true]
        rw [hd, ← hrest]
        rfl

/-- C14: reading a source `X` to its end with `Read` returns, in the same order, the same
code points and sizes as reading the source `X'` got from `X` by deleting the bytes of
every skipped unit (every unit decoded as U+FEFF or as U+FFFD); they are the units of the
decoded stream of `X` that are not skipped, which make up the whole decoded stream of `X'`;
and when the source ends with `io.EOF` both readings end with `(0, 0, io.EOF)`. -/
theorem skipped_bytes_as_if_absent (r : UTF8Reader) :
    ∃ res effs last effs1 last1,
      ReadAll r = some (res, effs, last) ∧
      ReadAll { r with reader := r.reader.withoutSkipped } = some (res, effs1, last1) ∧
      res = (r.reader.decoded.filter returnable).map (fun u => (u.1, (u.2 : Int))) ∧
      r.reader.withoutSkipped.decoded = r.reader.decoded.filter returnable ∧
      (r.reader.err = none →
        (∃ r1 es, last = Outcome.ret 0 0 (some GoError.EOF) r1 es) ∧
        (∃ r1 es, last1 = Outcome.ret 0 0 (some GoError.EOF) r1 es)) := by
  obtain ⟨res, effs, last, h1, h2, _, h4, _, _⟩ := ReadAll_spec r
  obtain ⟨res1, effs1, last1, g1, g2, _, g4, _, _⟩ :=
    ReadAll_spec { r with reader := r.reader.withoutSkipped }
  have hd := decoded_withoutSkipped r.reader
  have hres : res1 = res := by
    rw [g2, h2]
    show ((r.reader.withoutSkipped.decoded).filter returnable).map _ = _
    rw [hd, List.filter_filter]
    simp
  subst hres
  refine ⟨res1, effs, last, effs1, last1, h1, g1, h2, hd, ?_⟩
  intro herr
  exact ⟨(h4 herr).2, (g4 herr).2⟩

/-- Witness for C14: reading `"\uFEFF\xc3p\uFFFDo"` and reading `"po"`, which is that input
without its skipped units, both return `'p'` and `'o'`, each of size 1, and then `io.EOF`. -/
theorem skipped_bytes_as_if_absent_witness :
    BufioReader.withoutSkipped ⟨bytes [0xEF, 0xBB, 0xBF, 0xC3, 0x70, 0xEF, 0xBF, 0xBD, 0x6F], none⟩
      = ⟨bytes [0x70, 0x6F], none⟩ ∧
    ReadAll (fresh [0xEF, 0xBB, 0xBF, 0xC3, 0x70, 0xEF, 0xBF, 0xBD, 0x6F])
      = some ([(0x70, 1), (0x6F, 1)],
          [Effect.Stderr 1 1 (GoError.InvalidCodePoint RuneError 3),
            Effect.Stderr 1 3 (GoError.InvalidCodePoint RuneError 5)],
          Outcome.ret 0 0 (some GoError.EOF) ⟨⟨1, 4, 9⟩, ⟨[], none⟩, false, false⟩ []) ∧
    ReadAll (fresh [0x70, 0x6F])
      = some ([(0x70, 1), (0x6F, 1)], [],
          Outcome.ret 0 0 (some GoError.EOF) ⟨⟨1, 2, 2⟩, ⟨[], none⟩, false, false⟩ []) ∧
    ∃ res effs last effs1 last1,
      ReadAll (fresh [0xEF, 0xBB, 0xBF, 0xC3, 0x70, 0xEF, 0xBF, 0xBD, 0x6F])
        = some (res, effs, last) ∧
      ReadAll { fresh [0xEF, 0xBB, 0xBF, 0xC3, 0x70, 0xEF, 0xBF, 0xBD, 0x6F] with
          reader := (fresh [0xEF, 0xBB, 0xBF, 0xC3, 0x70, 0xEF, 0xBF, 0xBD, 0x6F]).reader.withoutSkipped }
        = some (res, effs1, last1) ∧
      res = ((fresh [0xEF, 0xBB, 0xBF, 0xC3, 0x70, 0xEF, 0xBF, 0xBD, 0x6F]).reader.decoded.filter
        returnable).map (fun u => (u.1, (u.2 : Int))) ∧
      (fresh [0xEF, 0xBB, 0xBF, 0xC3, 0x70, 0xEF, 0xBF, 0xBD, 0x6F]).reader.withoutSkipped.decoded
        = (fresh [0xEF, 0xBB, 0xBF, 0xC3, 0x70, 0xEF, 0xBF, 0xBD, 0x6F]).reader.decoded.filter
            returnable ∧
      ((fresh [0xEF, 0xBB, 0xBF, 0xC3, 0x70, 0xEF, 0xBF, 0xBD, 0x6F]).reader.err = none →
        (∃ r1 es, last = Outcome.ret 0 0 (some GoError.EOF) r1 es) ∧
        (∃ r1 es, last1 = Outcome.ret 0 0 (some GoError.EOF) r1 es)) :=
  ⟨by decide, by decide, by decide,
    skipped_bytes_as_if_absent (fresh [0xEF, 0xBB, 0xBF, 0xC3, 0x70, 0xEF, 0xBF, 0xBD, 0x6F])⟩

/-! ## The errors reported while reading a source to its end -/

/-- The error of a step that decoded any unit is the anomaly of that unit. -/
theorem stepErr_eq_anomaly_all (r : UTF8Reader) (c : Int) (s : Nat) (hb : c = BOM → s = 3) :
    stepErr r c s = anomaly (c, s, r.Offset) := by
  by_cases hc : skips c = true
  · exact stepErr_eq_anomaly r c s hc hb
  · have hc2 : skips c = false := by simpa using hc
    rw [stepErr_of_not_skips r c s hc2, anomaly_of_not_skips c s _ hc2]

theorem anomaly_skips (u : Int × Nat × Int) (e : GoError) (h : anomaly u = some e) :
    skips u.1 = true ∧ (e.isInvalidBOM = true ∨ e.isInvalidCodePoint = true) := by
  obtain ⟨c, s, off⟩ := u
  by_cases hc : skips c = true
  · refine ⟨hc, ?_⟩
    unfold anomaly at h
    split_ifs at h <;> simp at h <;> subst h <;>
      simp [GoError.isInvalidBOM, GoError.isInvalidCodePoint]
  · have hc2 : skips c = false := by simpa using hc
    rw [anomaly_of_not_skips c s off hc2] at h
    cases h

/-- As many `readRuneAndCount` steps as the decoded stream has units decode those units one
by one, down to the last byte; the non-nil errors the steps return are the anomalies of the
units, and each comes with a skipped code point. -/
theorem readRunes_all (r : UTF8Reader) :
    ∃ steps rEnd, readRunes r.reader.decoded.length r = some (steps, rEnd) ∧
      rEnd.reader.buf = [] ∧
      steps.map (fun x => (x.1, x.2.1)) = r.reader.decoded.map (fun u => (u.1, (u.2 : Int))) ∧
      steps.filterMap (fun x => x.2.2) = (located r.Offset r.reader.decoded).filterMap anomaly ∧
      steps.filterMap (fun x => if skips x.1 = true then x.2.2 else none)
        = (located r.Offset r.reader.decoded).filterMap anomaly := by
  generalize hn : r.reader.buf.length = n
  induction n using Nat.strong_induction_on generalizing r with
  | _ n ih =>
    by_cases hb : r.reader.buf = []
    · refine ⟨[], r, ?_, hb, ?_, ?_, ?_⟩ <;> simp [decoded_nil _ hb, readRunes, located]
    · obtain ⟨c, s, hr, hs1, hs2, hbom⟩ := ReadRune_cons r.reader hb
      have hd := decoded_cons r.reader c s hb hr hs1
      have hstep := readRuneAndCount_data r c s _ hr
      obtain ⟨steps, rEnd, i1, i2, i3, i4, i5⟩ :=
        ih (n - s) (by omega) (counted r c s ⟨r.reader.buf.drop s, r.reader.err⟩)
          (by simp only [counted, List.length_drop]; omega)
      have hd1 : (counted r c s ⟨r.reader.buf.drop s, r.reader.err⟩).reader.decoded
          = BufioReader.decoded ⟨r.reader.buf.drop s, r.reader.err⟩ := rfl
      have hoff : (counted r c s ⟨r.reader.buf.drop s, r.reader.err⟩).Offset
          = r.Offset + s := rfl
      rw [hd1] at i1 i3 i4 i5
      rw [hoff] at i4 i5
      have han := stepErr_eq_anomaly_all r c s hbom
      refine ⟨(c, (s : Int), stepErr r c s) :: steps, rEnd, ?_, i2, ?_, ?_, ?_⟩
      · rw [hd]
        simp only [List.length_cons, readRunes, hstep, i1, Option.map_some']
      · rw [hd]
        simp only [List.map_cons, i3]
      · rw [hd, located, List.filterMap_cons, List.filterMap_cons, i4, han]
      · rw [hd, located, List.filterMap_cons, List.filterMap_cons, i5]
        simp only
        by_cases hc : skips c = true
        · simp only [hc, if_true, han]
        · have hc2 : skips c = false := by simpa using hc
          simp only [hc2, Bool.false_eq_true, if_false, anomaly_of_not_skips c s _ hc2]

/-- C20: reading a source to its end with `Read`, an `Error` delegate gets, in stream order,
exactly the non-nil errors that the `readRuneAndCount` steps over the same source return for
the skipped code points, which are all the non-nil errors those steps return: each is the
error of an out-of-place BOM or of a replacement character, so nothing is reported for a
leading BOM, for an ordinary code point or for the end of input; and the `FatalError`
delegate gets none of them: it is called for a read error of the source only, and not at
all when the source ends with `io.EOF`. -/
theorem anomalies_are_reported_once (r : UTF8Reader) (hE : r.Error = true) :
    ∃ res effs last steps rEnd,
      ReadAll r = some (res, effs, last) ∧
      readRunes r.reader.decoded.length r = some (steps, rEnd) ∧ rEnd.reader.buf = [] ∧
      errorCalls effs = steps.filterMap (fun x => if skips x.1 = true then x.2.2 else none) ∧
      errorCalls effs = steps.filterMap (fun x => x.2.2) ∧
      (∀ e ∈ errorCalls effs, e.isInvalidBOM = true ∨ e.isInvalidCodePoint = true) ∧
      (∀ e ∈ fatalCalls effs, ∃ id, e = GoError.ReadError id) ∧
      (r.reader.err = none → fatalCalls effs = []) := by
  obtain ⟨res, effs, last, h1, _, h3, h4, _, h6⟩ := ReadAll_spec r
  obtain ⟨steps, rEnd, g1, g2, _, g4, g5⟩ := readRunes_all r
  refine ⟨res, effs, last, steps, rEnd, h1, g1, g2, ?_, ?_, ?_, h6, fun herr => (h4 herr).1⟩
  · rw [h3 hE, g5]
  · rw [h3 hE, g4]
  · intro e he
    rw [h3 hE, List.mem_filterMap] at he
    obtain ⟨u, _, hu⟩ := he
    exact (anomaly_skips u e hu).2

/-- Witness for C20: on two byte order marks, a stray byte and `'p'`, with an `Error`
delegate, the four steps return nil, the invalid-BOM error for position 3, the invalid-
code-point error for position 6 and nil; reading to the end hands the delegate those two
errors in that order, and nothing else. -/
theorem anomalies_are_reported_once_witness :
    readRunes 4 (configured ⟨boms 2 (bytes [0xC3, 0x70]), none⟩ true false)
      = some ([(BOM, 3, none), (BOM, 3, some (GoError.InvalidBOM 3)),
            (RuneError, 1, some (GoError.InvalidCodePoint RuneError 6)), (0x70, 1, none)],
          ⟨⟨1, 2, 8⟩, ⟨[], none⟩, true, false⟩) ∧
    ReadAll (configured ⟨boms 2 (bytes [0xC3, 0x70]), none⟩ true false)
      = some ([(0x70, 1)],
          [Effect.Error ⟨⟨1, 0, 6⟩, ⟨bytes [0xC3, 0x70], none⟩, true, false⟩
              (GoError.InvalidBOM 3),
            Effect.Error ⟨⟨1, 1, 7⟩, ⟨bytes [0x70], none⟩, true, false⟩
              (GoError.InvalidCodePoint RuneError 6)],
          Outcome.ret 0 0 (some GoError.EOF) ⟨⟨1, 2, 8⟩, ⟨[], none⟩, true, false⟩ []) ∧
    ∃ res effs last steps rEnd,
      ReadAll (configured ⟨boms 2 (bytes [0xC3, 0x70]), none⟩ true false)
        = some (res, effs, last) ∧
      readRunes (configured ⟨boms 2 (bytes [0xC3, 0x70]), none⟩ true false).reader.decoded.length
          (configured ⟨boms 2 (bytes [0xC3, 0x70]), none⟩ true false)
        = some (steps, rEnd) ∧
      rEnd.reader.buf = [] ∧
      errorCalls effs = steps.filterMap (fun x => if skips x.1 = true then x.2.2 else none) ∧
      errorCalls effs = steps.filterMap (fun x => x.2.2) ∧
      (∀ e ∈ errorCalls effs, e.isInvalidBOM = true ∨ e.isInvalidCodePoint = true) ∧
      (∀ e ∈ fatalCalls effs, ∃ id, e = GoError.ReadError id) ∧
      ((configured ⟨boms 2 (bytes [0xC3, 0x70]), none⟩ true false).reader.err = none →
        fatalCalls effs = []) :=
  ⟨by decide, by decide,
    anomalies_are_reported_once (configured ⟨boms 2 (bytes [0xC3, 0x70]), none⟩ true false) rfl⟩

/-! ## The position stays in order -/

/-- A call of `readRuneAndCount`, whether it returns or panics, keeps the position in order
and does not lower the offset. -/
theorem readRuneAndCount_inOrder (r : UTF8Reader) (n : Int) (h : inOrder n r) :
    inOrder n (readRuneAndCount r).reader ∧ r.Offset ≤ (readRuneAndCount r).reader.Offset := by
  unfold inOrder at h ⊢
  rcases readRuneAndCount_cases r with ⟨_, _, h1⟩ | ⟨_, id, _, h1⟩ | ⟨hne, c, s, h1, hs1, hs2, _⟩
  · rw [h1]
    exact ⟨h, le_refl _⟩
  · rw [h1]
    exact ⟨h, le_refl _⟩
  · rw [readRuneAndCount_data r c s _ h1]
    simp only [Outcome.reader, counted, List.length_drop]
    split_ifs <;> omega

/-- A call of `Read` ends, and whether it returns or panics, it keeps the position in order
and does not lower the offset. -/
theorem Read_inOrder (r : UTF8Reader) :
    ∃ o, Read r = some o ∧
      ∀ n : Int, inOrder n r → inOrder n o.reader ∧ r.Offset ≤ o.reader.Offset := by
  apply Read_induct
    (fun r o => ∀ n : Int, inOrder n r → inOrder n o.reader ∧ r.Offset ≤ o.reader.Offset)
  · intro r _ _ n h
    exact ⟨h, le_refl _⟩
  · intro r id _ _ n h
    exact ⟨h, le_refl _⟩
  · intro r c s _ hr _ _ _ n h
    have := readRuneAndCount_inOrder r n h
    rw [readRuneAndCount_data r c s _ hr] at this
    exact this
  · intro r c s o _ hr _ _ _ _ _ hP n h
    have h1 := readRuneAndCount_inOrder r n h
    rw [readRuneAndCount_data r c s _ hr] at h1
    have h2 := hP n h1.1
    rw [Outcome.after_reader]
    exact ⟨h2.1, le_trans h1.2 h2.2⟩

/-- Every call ends, keeps the position in order and does not lower the offset. -/
theorem perform_inOrder (c : Call) (r : UTF8Reader) :
    ∃ o, perform c r = some o ∧
      ∀ n : Int, inOrder n r → inOrder n o.reader ∧ r.Offset ≤ o.reader.Offset := by
  cases c with
  | readRuneAndCount => exact ⟨_, rfl, fun n h => readRuneAndCount_inOrder r n h⟩
  | Read => exact Read_inOrder r

/-- Along any sequence of calls from a state in order, every state is in order and no state
has a lower offset than a state before it. -/
theorem states_inOrder (cs : List Call) (r : UTF8Reader) (n : Int) (h : inOrder n r) :
    ∃ l, states cs r = some l ∧ (∀ x ∈ l, inOrder n x ∧ r.Offset ≤ x.Offset) ∧
      l.Pairwise (fun r1 r2 => r1.Offset ≤ r2.Offset) ∧ 1 ≤ l.length ∧
      l.length ≤ cs.length + 1 := by
  induction cs generalizing r with
  | nil =>
    refine ⟨[r], rfl, ?_, List.pairwise_singleton _ _, by simp, by simp⟩
    intro x hx
    rw [List.mem_singleton] at hx
    subst hx
    exact ⟨h, le_refl _⟩
  | cons c cs ih =>
    obtain ⟨o, ho, hP⟩ := perform_inOrder c r
    obtain ⟨h1, h2⟩ := hP n h
    cases o with
    | ret c1 s1 e1 r1 es1 =>
      obtain ⟨l, hl, hall, hpw, hlen1, hlen2⟩ := ih r1 h1
      refine ⟨r :: l, by simp only [states, ho, hl, Option.map_some'], ?_, ?_, by simp,
        by simp only [List.length_cons]; omega⟩
      · intro x hx
        rcases List.mem_cons.mp hx with hx | hx
        · subst hx
          exact ⟨h, le_refl _⟩
        · exact ⟨(hall x hx).1, le_trans h2 (hall x hx).2⟩
      · exact List.pairwise_cons.mpr ⟨fun x hx => le_trans h2 (hall x hx).2, hpw⟩
    | panic e1 r1 es1 =>
      refine ⟨[r, r1], by simp only [states, ho], ?_, ?_, by simp, by simp⟩
      · intro x hx
        simp only [List.mem_cons, List.mem_singleton, List.not_mem_nil, or_false] at hx
        rcases hx with hx | hx
        · subst hx
          exact ⟨h, le_refl _⟩
        · subst hx
          exact ⟨h1, h2⟩
      · exact List.pairwise_cons.mpr ⟨fun x hx => by
          rw [List.mem_singleton] at hx
          subst hx
          exact h2, List.pairwise_singleton _ _⟩

/-- C21: from a reader fresh from `NewUTF8Reader`, with or without delegates, over any byte
source, every sequence of `readRuneAndCount` and `Read` calls runs (each call ends), and in
every state it goes through, the state a panicking call leaves included, `Line ≥ 1`,
`Column ≥ 0` and `Offset ≥ 0`; `Offset` does not decrease from one state to the next, nor to
any later one. The counters stay within the input: `Line + Column ≤ 1 + Offset`, and
`Offset` is the number of bytes taken from the source. -/
theorem Position_stays_well_formed (b : BufioReader) (error fatal : Bool) (cs : List Call) :
    configured b false false = NewUTF8Reader b ∧
    ∃ l, states cs (configured b error fatal) = some l ∧
      1 ≤ l.length ∧
      (∀ r ∈ l, 1 ≤ r.Line ∧ 0 ≤ r.Column ∧ 0 ≤ r.Offset) ∧
      l.Chain' (fun r1 r2 => r1.Offset ≤ r2.Offset) ∧
      l.Pairwise (fun r1 r2 => r1.Offset ≤ r2.Offset) ∧
      (∀ r ∈ l, r.Line + r.Column ≤ 1 + r.Offset ∧
        r.Offset + r.reader.buf.length = b.buf.length) := by
  refine ⟨rfl, ?_⟩
  have h0 : inOrder b.buf.length (configured b error fatal) := by
    simp [inOrder, configured, NewUTF8Reader]
  obtain ⟨l, hl, hall, hpw, hlen, _⟩ := states_inOrder cs _ _ h0
  refine ⟨l, hl, hlen, ?_, hpw.chain', hpw, ?_⟩
  · intro r hr
    obtain ⟨h1, h2, h3, _⟩ := (hall r hr).1
    exact ⟨h1, h2, h3⟩
  · intro r hr
    obtain ⟨_, _, _, h4, h5⟩ := (hall r hr).1
    exact ⟨h4, h5⟩

/-- Witness for C21: on `"p\n\xc3"` from a source that then fails, a `Read`, a
`readRuneAndCount` and a `Read` go through the positions 1:0 at offset 0, 1:1 at 1, 2:0 at 2
and, where the last call panics after it skipped the stray byte, 2:1 at 3; a fourth call is
not reached. -/
theorem Position_stays_well_formed_witness :
    states [Call.Read, Call.readRuneAndCount, Call.Read, Call.Read]
        (configured ⟨bytes [0x70, 0x0A, 0xC3], some 0⟩ true true)
      = some [⟨⟨1, 0, 0⟩, ⟨bytes [0x70, 0x0A, 0xC3], some 0⟩, true, true⟩,
          ⟨⟨1, 1, 1⟩, ⟨bytes [0x0A, 0xC3], some 0⟩, true, true⟩,
          ⟨⟨2, 0, 2⟩, ⟨bytes [0xC3], some 0⟩, true, true⟩,
          ⟨⟨2, 1, 3⟩, ⟨[], some 0⟩, true, true⟩] ∧
    ∃ l, states [Call.Read, Call.readRuneAndCount, Call.Read, Call.Read]
        (configured ⟨bytes [0x70, 0x0A, 0xC3], some 0⟩ true true) = some l ∧
      1 ≤ l.length ∧
      (∀ r ∈ l, 1 ≤ r.Line ∧ 0 ≤ r.Column ∧ 0 ≤ r.Offset) ∧
      l.Chain' (fun r1 r2 => r1.Offset ≤ r2.Offset) ∧
      l.Pairwise (fun r1 r2 => r1.Offset ≤ r2.Offset) ∧
      (∀ r ∈ l, r.Line + r.Column ≤ 1 + r.Offset ∧
        r.Offset + r.reader.buf.length = (bytes [0x70, 0x0A, 0xC3]).length) :=
  ⟨by decide,
    (Position_stays_well_formed ⟨bytes [0x70, 0x0A, 0xC3], some 0⟩ true true
      [Call.Read, Call.readRuneAndCount, Call.Read, Call.Read]).2⟩

/-! ## A well-formed U+FFFD in the input -/

theorem ReadRune_replacement (rest : List Byte) (err : Option Nat) :
    BufioReader.ReadRune ⟨0xEF :: 0xBF :: 0xBD :: rest, err⟩
      = (RuneError, 3, none, ⟨rest, err⟩) := by
  have h1 : ((0xEF : Byte).val ≥ RuneSelf) := by decide
  have h2 : DecodeRune (0xEF :: 0xBF :: 0xBD :: rest) = (RuneError, 3) := by
    have hf : first (0xEF : Byte) = s3 := by decide
    have v0 : (0xEF : Byte).val = 239 := rfl
    have v1 : (0xBF : Byte).val = 191 := rfl
    have v2 : (0xBD : Byte).val = 189 := rfl
    simp only [DecodeRune, List.getD_cons_zero, List.getD_cons_succ, hf, List.length_cons]
    simp [s3, as, and7_s3, acceptRanges, locb, hicb, dec3, RuneError, v0, v1, v2]
  simp [BufioReader.ReadRune, h1, h2]

/-- A byte that cannot start an encoding is an invalid sequence of its own. -/
theorem ReadRune_stray (p0 : Byte) (rest : List Byte) (err : Option Nat) (h : first p0 = xx) :
    BufioReader.ReadRune ⟨p0 :: rest, err⟩ = (RuneError, 1, none, ⟨rest, err⟩) := by
  have h1 : p0.val ≥ RuneSelf := by
    rcases first_cases p0 with ⟨hf, _⟩ | ⟨_, hv⟩ | ⟨hf, _⟩ | ⟨hf, _⟩ | ⟨hf, _⟩ | ⟨hf, _⟩
        | ⟨hf, _⟩ | ⟨hf, _⟩ | ⟨hf, _⟩
    all_goals first
      | (simp only [RuneSelf]; omega)
      | (rw [h] at hf; exact absurd hf (by decide))
  have h2 : DecodeRune (p0 :: rest) = (RuneError, 1) := by
    have hx : (xx &&& 1 : Nat) = 1 := by decide
    simp only [DecodeRune, List.getD_cons_zero, h, List.length_cons]
    simp [xx, as, hx]
  simp [BufioReader.ReadRune, h1, h2]

/-- A step that decodes U+FFFD, in however many bytes, returns the error for the offset at
which the unit starts and moves the column on; and `Read` reports that error and reads on. -/
theorem replacement_is_reported (r : UTF8Reader) (s : Nat) (rd : BufioReader)
    (h : r.reader.ReadRune = (RuneError, s, none, rd)) :
    readRuneAndCount r
      = Outcome.ret RuneError s (some (GoError.InvalidCodePoint RuneError r.Offset))
          { r with reader := rd, Offset := r.Offset + s, Column := r.Column + 1 } [] ∧
    Read r = (Read { r with reader := rd, Offset := r.Offset + s, Column := r.Column + 1 }).map
      (Outcome.after (reportError
        { r with reader := rd, Offset := r.Offset + s, Column := r.Column + 1 }
        (GoError.InvalidCodePoint RuneError r.Offset))) := by
  have hd : readRuneAndCount r
      = Outcome.ret RuneError s (some (GoError.InvalidCodePoint RuneError r.Offset))
          { r with reader := rd, Offset := r.Offset + s, Column := r.Column + 1 } [] := by
    rw [readRuneAndCount_data r RuneError s rd h]
    simp [stepErr, counted, RuneError_ne_newline, RuneError_ne_BOM]
  refine ⟨hd, ?_⟩
  have hs : skips RuneError = true := by decide
  rw [Read_eq, hd]
  simp only [hs, if_true, reportIf, List.nil_append]

/-- A step with the arithmetic of Go that decodes U+FFFD, in however many bytes, returns the
error for the offset at which the unit starts and does `Offset += size` and `Column++`; and
while the counters have room for the bytes still in the source, nothing overflows and
`Read` reports that error and reads on. -/
theorem replacement_is_reported64 (r : UTF8Reader) (s : Nat) (rd : BufioReader)
    (h : r.reader.ReadRune = (RuneError, s, none, rd)) :
    (inRange r →
      readRuneAndCount64 r
        = Outcome.ret RuneError s (some (GoError.InvalidCodePoint RuneError r.Offset))
            { r with reader := rd, Offset := wrapInt (r.Offset + s),
                     Column := wrapInt (r.Column + 1) } []) ∧
    (hasRoom r →
      readRuneAndCount64 r
        = Outcome.ret RuneError s (some (GoError.InvalidCodePoint RuneError r.Offset))
            { r with reader := rd, Offset := r.Offset + s, Column := r.Column + 1 } [] ∧
      Read64 r
        = (Read64 { r with reader := rd, Offset := r.Offset + s, Column := r.Column + 1 }).map
          (Outcome.after (reportError
            { r with reader := rd, Offset := r.Offset + s, Column := r.Column + 1 }
            (GoError.InvalidCodePoint RuneError r.Offset)))) := by
  constructor
  · intro hrange
    obtain ⟨_, _, _, _, a5, a6⟩ := hrange
    rw [readRuneAndCount64_data r RuneError s rd h]
    simp [stepErr64, counted64, RuneError_ne_newline, RuneError_ne_BOM,
      wrapInt_add_sub r.Offset s a5 a6]
  · intro hroom
    obtain ⟨h1, h2⟩ := readRuneAndCount64_eq r hroom
    obtain ⟨g1, g2⟩ := replacement_is_reported r s rd h
    rw [g1] at h2
    have h3 : hasRoom
        { r with reader := rd, Offset := r.Offset + s, Column := r.Column + 1 } := h2
    refine ⟨by rw [h1, g1], ?_⟩
    rw [Read64_eq_Read r hroom, g2, Read64_eq_Read _ h3]

/-- C22: the three bytes `EF BF BD`, the well-formed encoding of U+FFFD, go the way of an
invalid sequence. `readRuneAndCount` returns (U+FFFD, 3) with the invalid-code-point error
for the offset at which they start, doing `Offset += 3` and `Column++`, and `Read` reports
that error (to the `Error` delegate when one is set) and reads on; a byte that cannot start
an encoding gives the same, with size 1. `Offset` moves by the size and `Column` by 1
wherever the counters have room for the bytes still in the source; in any state the results
are the `int`s of those sums. `Read` never returns U+FFFD. So on `"\xef\xbf\xbdp"`, which is
valid UTF-8 without a byte order mark (no unit is `(RuneError, 1)`, each has the width of
its encoding), `Read` calls `Error` once and returns `'p'` with size 1 while `Offset` is 4,
and read to its end the input has returned sizes that add up to 1, not to the final
`Offset`. -/
theorem encoded_replacement_is_treated_as_malformed :
    (∀ (r : UTF8Reader) (rest : List Byte), r.reader.buf = 0xEF :: 0xBF :: 0xBD :: rest →
      r.reader.ReadRune = (RuneError, 3, none, ⟨rest, r.reader.err⟩) ∧
      (inRange r →
        readRuneAndCount64 r
          = Outcome.ret RuneError 3 (some (GoError.InvalidCodePoint RuneError r.Offset))
              { r with reader := ⟨rest, r.reader.err⟩, Offset := wrapInt (r.Offset + 3),
                       Column := wrapInt (r.Column + 1) } []) ∧
      (hasRoom r →
        readRuneAndCount64 r
          = Outcome.ret RuneError 3 (some (GoError.InvalidCodePoint RuneError r.Offset))
              { r with reader := ⟨rest, r.reader.err⟩, Offset := r.Offset + 3,
                       Column := r.Column + 1 } [] ∧
        Read64 r
          = (Read64 { r with reader := ⟨rest, r.reader.err⟩, Offset := r.Offset + 3,
                             Column := r.Column + 1 }).map
            (Outcome.after (reportError
              { r with reader := ⟨rest, r.reader.err⟩, Offset := r.Offset + 3,
                       Column := r.Column + 1 }
              (GoError.InvalidCodePoint RuneError r.Offset))) ∧
        (r.Error = true →
          reportError
              { r with reader := ⟨rest, r.reader.err⟩, Offset := r.Offset + 3,
                       Column := r.Column + 1 }
              (GoError.InvalidCodePoint RuneError r.Offset)
            = [Effect.Error
                { r with reader := ⟨rest, r.reader.err⟩, Offset := r.Offset + 3,
                         Column := r.Column + 1 }
                (GoError.InvalidCodePoint RuneError r.Offset)]))) ∧
    (∀ (r : UTF8Reader) (p0 : Byte) (rest : List Byte), r.reader.buf = p0 :: rest →
      first p0 = xx →
      r.reader.ReadRune = (RuneError, 1, none, ⟨rest, r.reader.err⟩) ∧
      (inRange r →
        readRuneAndCount64 r
          = Outcome.ret RuneError 1 (some (GoError.InvalidCodePoint RuneError r.Offset))
              { r with reader := ⟨rest, r.reader.err⟩, Offset := wrapInt (r.Offset + 1),
                       Column := wrapInt (r.Column + 1) } []) ∧
      (hasRoom r →
        readRuneAndCount64 r
          = Outcome.ret RuneError 1 (some (GoError.InvalidCodePoint RuneError r.Offset))
              { r with reader := ⟨rest, r.reader.err⟩, Offset := r.Offset + 1,
                       Column := r.Column + 1 } [] ∧
        Read64 r
          = (Read64 { r with reader := ⟨rest, r.reader.err⟩, Offset := r.Offset + 1,
                             Column := r.Column + 1 }).map
            (Outcome.after (reportError
              { r with reader := ⟨rest, r.reader.err⟩, Offset := r.Offset + 1,
                       Column := r.Column + 1 }
              (GoError.InvalidCodePoint RuneError r.Offset))))) ∧
    (∀ (r r1 : UTF8Reader) (c s : Int) (e : Option GoError) (es : List Effect),
      Read64 r = some (Outcome.ret c s e r1 es) → c ≠ RuneError) ∧
    (∃ b : BufioReader, b.buf = bytes [0xEF, 0xBF, 0xBD, 0x70] ∧
      b.decoded = [(RuneError, 3), (0x70, 1)] ∧
      (∀ u ∈ b.decoded, malformed u = false ∧ u.1 ≠ BOM ∧ (u.2 : Int) = RuneLen u.1) ∧
      Read64 (configured b true false)
        = some (Outcome.ret 0x70 1 none ⟨⟨1, 2, 4⟩, ⟨[], none⟩, true, false⟩
            [Effect.Error ⟨⟨1, 1, 3⟩, ⟨bytes [0x70], none⟩, true, false⟩
              (GoError.InvalidCodePoint RuneError 0)]) ∧
      ∃ res effs last, ReadAll64 (configured b true false) = some (res, effs, last) ∧
        res = [(0x70, 1)] ∧ errorCalls effs = [GoError.InvalidCodePoint RuneError 0] ∧
        last.reader.Offset = 4 ∧ last.reader.Offset ≠ (res.map (fun x => x.2)).sum) := by
  refine ⟨?_, ?_, ?_, ?_⟩
  · intro r rest hbuf
    have hr : r.reader.ReadRune = (RuneError, 3, none, ⟨rest, r.reader.err⟩) := by
      have := ReadRune_replacement rest r.reader.err
      rw [← hbuf] at this
      exact this
    have h := replacement_is_reported64 r 3 _ hr
    simp only [Nat.cast_ofNat] at h
    refine ⟨hr, h.1, fun hroom => ⟨(h.2 hroom).1, (h.2 hroom).2, ?_⟩⟩
    intro hE
    simp [reportError, hE]
  · intro r p0 rest hbuf hx
    have hr : r.reader.ReadRune = (RuneError, 1, none, ⟨rest, r.reader.err⟩) := by
      have := ReadRune_stray p0 rest r.reader.err hx
      rw [← hbuf] at this
      exact this
    have h := replacement_is_reported64 r 1 _ hr
    simp only [Nat.cast_one] at h
    exact ⟨hr, h.1, h.2⟩
  · intro r r1 c s e es h
    obtain ⟨o, ho, p1, _⟩ := Read64_returns r
    rw [h] at ho
    injection ho with ho
    exact (p1 c s e r1 es ho.symm).2.1
  · exact ⟨⟨bytes [0xEF, 0xBF, 0xBD, 0x70], none⟩, rfl, by decide, by decide, by decide,
      [(0x70, 1)],
      [Effect.Error ⟨⟨1, 1, 3⟩, ⟨bytes [0x70], none⟩, true, false⟩
        (GoError.InvalidCodePoint RuneError 0)],
      Outcome.ret 0 0 (some GoError.EOF) ⟨⟨1, 2, 4⟩, ⟨[], none⟩, true, false⟩ [],
      by decide, rfl, by decide, by decide, by decide⟩

/-- Witness for C22: on `"\xef\xbf\xbd"` and on the stray byte `"\xbd"` a fresh reader steps
to U+FFFD with the error for position 0, at Column 1, with `Offset` 3 and 1. -/
theorem encoded_replacement_is_treated_as_malformed_witness :
    readRuneAndCount64 (fresh [0xEF, 0xBF, 0xBD])
      = Outcome.ret RuneError 3 (some (GoError.InvalidCodePoint RuneError 0))
          ⟨⟨1, 1, 3⟩, ⟨[], none⟩, false, false⟩ [] ∧
    readRuneAndCount64 (fresh [0xBD])
      = Outcome.ret RuneError 1 (some (GoError.InvalidCodePoint RuneError 0))
          ⟨⟨1, 1, 1⟩, ⟨[], none⟩, false, false⟩ [] :=
  ⟨((encoded_replacement_is_treated_as_malformed.1 (fresh [0xEF, 0xBF, 0xBD]) [] rfl).2.2
      (by decide)).1,
    ((encoded_replacement_is_treated_as_malformed.2.1 (fresh [0xBD]) 0xBD [] rfl
      (by decide)).2.2 (by decide)).1⟩

/-! ## The reader as the `Error` delegate finds it -/

/-- Every call of the `Error` delegate during a `Read` comes right after the step that
returned the error: the steps before it all returned skipped code points, and the delegate
finds the reader as that step left it. -/
theorem Read_error_calls (r : UTF8Reader) :
    ∃ o, Read r = some o ∧
      ∀ (rd : UTF8Reader) (e : GoError), Effect.Error rd e ∈ o.effects →
        ∃ (k : Nat) (before : List (Int × Int × Option GoError)) (r0 : UTF8Reader) (c : Int)
          (s : Nat),
          readRunes k r = some (before, r0) ∧ (∀ x ∈ before, skips x.1 = true) ∧
          readRuneAndCount r0 = Outcome.ret c s (some e) rd [] ∧ skips c = true ∧
          rd.Error = true := by
  apply Read_induct
    (fun r o => ∀ (rd : UTF8Reader) (e : GoError), Effect.Error rd e ∈ o.effects →
        ∃ (k : Nat) (before : List (Int × Int × Option GoError)) (r0 : UTF8Reader) (c : Int)
          (s : Nat),
          readRunes k r = some (before, r0) ∧ (∀ x ∈ before, skips x.1 = true) ∧
          readRuneAndCount r0 = Outcome.ret c s (some e) rd [] ∧ skips c = true ∧
          rd.Error = true)
  · intro r _ _ rd e hm
    simp [Outcome.effects] at hm
  · intro r id _ _ rd e hm
    by_cases hf : r.FatalError = true <;> simp [Outcome.effects, hf] at hm
  · intro r c s _ _ _ _ _ rd e hm
    simp [Outcome.effects] at hm
  · intro r c s o _ hr _ _ _ hc _ hP rd e hm
    have hd := readRuneAndCount_data r c s _ hr
    rw [Outcome.after_effects, List.mem_append] at hm
    rcases hm with hm | hm
    · cases hse : stepErr r c s with
      | none => simp [hse, reportIf] at hm
      | some e0 =>
        rw [hse] at hm
        by_cases hE : (counted r c s ⟨r.reader.buf.drop s, r.reader.err⟩).Error = true
        · simp only [reportIf, reportError, hE, if_true, List.mem_singleton,
            Effect.Error.injEq] at hm
          obtain ⟨h1, h2⟩ := hm
          subst h1 h2
          exact ⟨0, [], r, c, s, rfl, by simp, by rw [hd, hse], hc, hE⟩
        · simp [reportIf, reportError, hE] at hm
    · obtain ⟨k, before, r0, c1, s1, g1, g2, g3, g4⟩ := hP rd e hm
      refine ⟨k + 1, (c, (s : Int), stepErr r c s) :: before, r0, c1, s1, ?_, ?_, g3, g4⟩
      · simp only [readRunes, hd, g1, Option.map_some']
      · intro x hx
        rcases List.mem_cons.mp hx with hx | hx
        · subst hx
          exact hc
        · exact g2 x hx

/-- With the arithmetic of the integers: whenever a `Read` calls the `Error` delegate, the
steps before were over skipped units, the delegate finds the reader as the step that
returned the error left it, and the error names the offset before that step. -/
theorem Read_error_snapshot (r : UTF8Reader) (o : Outcome)
    (ho : Read r = some o) (rd : UTF8Reader) (e : GoError) (hm : Effect.Error rd e ∈ o.effects) :
    ∃ (k : Nat) (before : List (Int × Int × Option GoError)) (r0 : UTF8Reader) (c : Int)
      (s : Nat),
      readRunes k r = some (before, r0) ∧ (∀ x ∈ before, skips x.1 = true) ∧
      readRuneAndCount r0 = Outcome.ret c s (some e) rd [] ∧
      (c = BOM ∨ c = RuneError) ∧
      r0.Offset = r.Offset + (before.map (fun x => x.2.1)).sum ∧
      rd.Offset = r0.Offset + s ∧
      (e = GoError.InvalidBOM r0.Offset ∨ e = GoError.InvalidCodePoint RuneError r0.Offset) ∧
      1 ≤ s ∧ s ≤ r0.reader.buf.length ∧
      rd.reader = ⟨r0.reader.buf.drop s, r0.reader.err⟩ ∧
      (c = RuneError →
        rd.Column = r0.Column + 1 ∧ e = GoError.InvalidCodePoint RuneError r0.Offset) ∧
      (c = BOM → rd.Column = r0.Column ∧ e = GoError.InvalidBOM r0.Offset) ∧
      rd.Line = r0.Line ∧ rd.Error = true := by
  obtain ⟨o1, ho1, hP⟩ := Read_error_calls r
  rw [ho] at ho1
  injection ho1 with ho1
  subst ho1
  obtain ⟨k, before, r0, c, s, g1, g2, g3, g4, g5⟩ := hP rd e hm
  have hc : c = BOM ∨ c = RuneError := by
    simpa [skips, IsBOM, IsReplacementCharacter] using g4
  obtain ⟨_, hoff, _⟩ := readRunes_run k r r0 before g1
  refine ⟨k, before, r0, c, s, g1, g2, g3, hc, hoff, ?_⟩
  rcases readRuneAndCount_ret r0 rd c s (some e) [] g3 with
    ⟨_, _, hc0, _⟩ | ⟨_, n, hs, hn1, hn2, hb, _, he, hr, _⟩
  · subst hc0
    rcases hc with h | h <;> exact absurd h (by decide)
  · have hsn : s = n := by exact_mod_cast hs
    subst hsn
    subst hr
    have hR : c = RuneError → e = GoError.InvalidCodePoint RuneError r0.Offset := by
      intro h
      subst h
      simp only [stepErr, RuneError_ne_newline, RuneError_ne_BOM, if_false, if_true,
        Option.some.injEq] at he
      exact he
    have hB : c = BOM → e = GoError.InvalidBOM r0.Offset := by
      intro h
      subst h
      simp only [stepErr, BOM_ne_newline, if_false, if_true] at he
      split_ifs at he
      exact Option.some.inj he
    refine ⟨rfl, ?_, hn1, hn2, rfl, ?_, ?_, ?_, g5⟩
    · rcases hc with h | h
      · exact Or.inl (hB h)
      · exact Or.inr (hR h)
    · intro h
      refine ⟨?_, hR h⟩
      subst h
      simp [counted, RuneError_ne_newline, RuneError_ne_BOM]
    · intro h
      refine ⟨?_, hB h⟩
      subst h
      simp [counted, BOM_ne_newline]
    · rcases hc with h | h <;> subst h <;>
        simp [counted, BOM_ne_newline, RuneError_ne_newline]

/-- C23: whenever a `Read`, from a state whose counters have room for the bytes still in
the source, calls the `Error` delegate, with reader `rd` and error `e`, the call is for a
skipped unit `(c, s)`: the `readRuneAndCount` steps of this `Read` before it all returned
skipped code points and led to a state `r0`, the step from `r0` decoded `c` in `s` bytes and
returned `e`, and `rd` is the reader exactly as that step left it. So the delegate finds
`Offset` at the start offset of the unit plus its size, while `e` names the start offset; it
finds in the source all the bytes after the unit (nothing beyond the unit has been
consumed); and it finds `Column` already advanced by 1 for a replacement code point,
unchanged for a byte order mark, and `Line` unchanged. -/
theorem Error_is_called_right_after_the_unit (r : UTF8Reader) (o : Outcome)
    (hroom : hasRoom r) (ho : Read64 r = some o) (rd : UTF8Reader) (e : GoError)
    (hm : Effect.Error rd e ∈ o.effects) :
    ∃ (k : Nat) (before : List (Int × Int × Option GoError)) (r0 : UTF8Reader) (c : Int)
      (s : Nat),
      readRunes64 k r = some (before, r0) ∧ (∀ x ∈ before, skips x.1 = true) ∧
      readRuneAndCount64 r0 = Outcome.ret c s (some e) rd [] ∧
      (c = BOM ∨ c = RuneError) ∧
      r0.Offset = r.Offset + (before.map (fun x => x.2.1)).sum ∧
      rd.Offset = r0.Offset + s ∧
      (e = GoError.InvalidBOM r0.Offset ∨ e = GoError.InvalidCodePoint RuneError r0.Offset) ∧
      1 ≤ s ∧ s ≤ r0.reader.buf.length ∧
      rd.reader = ⟨r0.reader.buf.drop s, r0.reader.err⟩ ∧
      (c = RuneError →
        rd.Column = r0.Column + 1 ∧ e = GoError.InvalidCodePoint RuneError r0.Offset) ∧
      (c = BOM → rd.Column = r0.Column ∧ e = GoError.InvalidBOM r0.Offset) ∧
      rd.Line = r0.Line ∧ rd.Error = true := by
  rw [Read64_eq_Read r hroom] at ho
  obtain ⟨k, before, r0, c, s, g1, g2, g3, g4⟩ := Read_error_snapshot r o ho rd e hm
  have hroom0 := hasRoom_readRunes k r r0 before hroom g1
  refine ⟨k, before, r0, c, s, ?_, g2, ?_, g4⟩
  · rw [readRunes64_eq k r hroom]
    exact g1
  · rw [(readRuneAndCount64_eq r0 hroom0).1]
    exact g3

/-- Witness for C23: on two byte order marks, a stray byte and `'p'`, `Read` calls `Error`
twice. At the second call, for the stray byte at offset 6, the delegate finds `Offset = 7`
and `Column = 1` with `'p'` still to read, and the error names position 6; the state before
that unit, reached by two steps over the byte order marks, has `Offset = 6`, `Column = 0`. -/
theorem Error_is_called_right_after_the_unit_witness :
    Read64 (configured ⟨boms 2 (bytes [0xC3, 0x70]), none⟩ true false)
      = some (Outcome.ret 0x70 1 none ⟨⟨1, 2, 8⟩, ⟨[], none⟩, true, false⟩
          [Effect.Error ⟨⟨1, 0, 6⟩, ⟨bytes [0xC3, 0x70], none⟩, true, false⟩
              (GoError.InvalidBOM 3),
            Effect.Error ⟨⟨1, 1, 7⟩, ⟨bytes [0x70], none⟩, true, false⟩
              (GoError.InvalidCodePoint RuneError 6)]) ∧
    readRunes64 2 (configured ⟨boms 2 (bytes [0xC3, 0x70]), none⟩ true false)
      = some ([(BOM, 3, none), (BOM, 3, some (GoError.InvalidBOM 3))],
          ⟨⟨1, 0, 6⟩, ⟨bytes [0xC3, 0x70], none⟩, true, false⟩) ∧
    ∃ (k : Nat) (before : List (Int × Int × Option GoError)) (r0 : UTF8Reader) (c : Int)
      (s : Nat),
      readRunes64 k (configured ⟨boms 2 (bytes [0xC3, 0x70]), none⟩ true false) = some (before, r0) ∧
      (∀ x ∈ before, skips x.1 = true) ∧
      readRuneAndCount64 r0
        = Outcome.ret c s (some (GoError.InvalidCodePoint RuneError 6))
            ⟨⟨1, 1, 7⟩, ⟨bytes [0x70], none⟩, true, false⟩ [] ∧
      (c = BOM ∨ c = RuneError) ∧
      r0.Offset = (configured ⟨boms 2 (bytes [0xC3, 0x70]), none⟩ true false).Offset + (before.map (fun x => x.2.1)).sum ∧
      (⟨⟨1, 1, 7⟩, ⟨bytes [0x70], none⟩, true, false⟩ : UTF8Reader).Offset = r0.Offset + s ∧
      (GoError.InvalidCodePoint RuneError 6 = GoError.InvalidBOM r0.Offset ∨
        GoError.InvalidCodePoint RuneError 6 = GoError.InvalidCodePoint RuneError r0.Offset) ∧
      1 ≤ s ∧ s ≤ r0.reader.buf.length ∧
      (⟨⟨1, 1, 7⟩, ⟨bytes [0x70], none⟩, true, false⟩ : UTF8Reader).reader
        = ⟨r0.reader.buf.drop s, r0.reader.err⟩ ∧
      (c = RuneError →
        (⟨⟨1, 1, 7⟩, ⟨bytes [0x70], none⟩, true, false⟩ : UTF8Reader).Column = r0.Column + 1 ∧
        GoError.InvalidCodePoint RuneError 6 = GoError.InvalidCodePoint RuneError r0.Offset) ∧
      (c = BOM →
        (⟨⟨1, 1, 7⟩, ⟨bytes [0x70], none⟩, true, false⟩ : UTF8Reader).Column = r0.Column ∧
        GoError.InvalidCodePoint RuneError 6 = GoError.InvalidBOM r0.Offset) ∧
      (⟨⟨1, 1, 7⟩, ⟨bytes [0x70], none⟩, true, false⟩ : UTF8Reader).Line = r0.Line ∧
      (⟨⟨1, 1, 7⟩, ⟨bytes [0x70], none⟩, true, false⟩ : UTF8Reader).Error = true :=
  ⟨by decide, by decide,
    Error_is_called_right_after_the_unit (configured ⟨boms 2 (bytes [0xC3, 0x70]), none⟩ true false)
      (Outcome.ret 0x70 1 none ⟨⟨1, 2, 8⟩, ⟨[], none⟩, true, false⟩
        [Effect.Error ⟨⟨1, 0, 6⟩, ⟨bytes [0xC3, 0x70], none⟩, true, false⟩
            (GoError.InvalidBOM 3),
          Effect.Error ⟨⟨1, 1, 7⟩, ⟨bytes [0x70], none⟩, true, false⟩
            (GoError.InvalidCodePoint RuneError 6)])
      (by decide) (by decide) ⟨⟨1, 1, 7⟩, ⟨bytes [0x70], none⟩, true, false⟩
      (GoError.InvalidCodePoint RuneError 6) (by decide)⟩

end Poly
